import Mathlib

/-!
# Resource tracker: relations cache, BFS closure and inclusion rendering

A shallow embedding of `cmd/tracker/tracker.go` and of the graph walker of
`pkg/graph/query.go`.

* Go `map[string]T` is an association list with unique keys (`AList`); the order of
  its entries stands for the unspecified iteration order of `range`, so every
  theorem below holds for each possible order.
* `hashset.Set` (a set of `interface{}` values) is a list of `Value`s used through
  membership; `Values()` returns the list, whose order is again arbitrary.
* Strings are Lean `String`s; `sort.Strings` compares them lexicographically.
* The mutex-guarded cache is threaded through the functions as a value: one worker
  is followed at a time, the cache does not change under its feet.
* External collaborators (the graph query engine, the Argo CD cluster registry, the
  relation miner) are functions whose results are given.
* A loop or recursion whose end is not structural takes fuel; the theorems show that
  the fuel suffices.
-/

namespace Tracker

/-! ## Data model -/

/-- A Go `interface{}` value held by a `hashset.Set`: a string, or a value of another
dynamic type (told apart by a tag). The code reads sets through `v.(string)`. -/
inductive Value where
  | str (s : String)
  | other (tag : Nat)
  deriving DecidableEq, Repr

/-- The type assertion `s, ok := v.(string)`. -/
def Value.asString : Value → Option String
  | .str s => some s
  | .other _ => none

/-- The set type `hashset.Set` of `github.com/emirpasic/gods`. -/
abbrev HashSet := List Value

/-- The constructor `hashset.New()`: the empty set. -/
def HashSet.New : HashSet := []

/-- The method `set.Add(item)`: the item is stored once. -/
def HashSet.Add (set : HashSet) (item : Value) : HashSet :=
  if item ∈ set then set else set ++ [item]

/-- The method `set.Values()`: the items, in no particular order. -/
def HashSet.Values (set : HashSet) : List Value := set

/-- A Go `map[string]β`. -/
abbrev GoMap (β : Type) := AList (fun _ : String => β)

/-- The field `sharedRelationsCache map[string]*hashset.Set`: parentKey -> set(childKey). -/
abbrev RelationsCache := GoMap HashSet

/-- The child set stored under `p`, a missing entry counting as the empty set. -/
def children (c : RelationsCache) (p : String) : HashSet :=
  (c.lookup p).getD HashSet.New

/-- Build a cache from a list of (parent, child set) pairs; a later pair overwrites an
earlier one with the same parent. -/
def cacheOf (l : List (String × HashSet)) : RelationsCache :=
  l.foldl (fun c e => c.insert e.1 e.2) ∅

/-! ## mergeInto -/

/-- The inner loop of `mergeInto`:
`for _, v := range set.Values() { if s, ok := v.(string); ok { dst[p].Add(s) } }`. -/
def addChildren (p : String) (dst : RelationsCache) : List Value → RelationsCache
  | [] => dst
  | v :: vs =>
    match v.asString with
    | some s => addChildren p (dst.insert p ((children dst p).Add (.str s))) vs
    | none => addChildren p dst vs

/-- One iteration of the outer loop of `mergeInto` for the entry `p, set` of `rel`. -/
def mergeEntry (dst : RelationsCache) (p : String) (set : HashSet) : RelationsCache :=
  let dst1 :=
    match dst.lookup p with
    | some _ => dst
    | none => dst.insert p HashSet.New
  addChildren p dst1 set.Values

/-- The loop `for p, set := range rel` of `mergeInto` over the entries of `rel`. -/
def mergeEntries (dst : RelationsCache) : List (Sigma fun _ : String => HashSet) → RelationsCache
  | [] => dst
  | e :: es => mergeEntries (mergeEntry dst e.1 e.2) es

/-- The function `mergeInto(dst, rel)`: adds rel (parent -> children) into dst. The
updated `dst` is returned. -/
def mergeInto (dst rel : RelationsCache) : RelationsCache :=
  mergeEntries dst rel.entries

/-! ## Resource keys and the output accumulator -/

/-- A Go `map[string]struct{}`: a set of strings. -/
abbrev StringSet := GoMap Unit

/-- Build a string set from a list. -/
def stringSetOf (l : List String) : StringSet :=
  l.foldl (fun s k => s.insert k ()) ∅

/-- The accumulator `groupToKinds map[string]map[string]struct{}`. -/
abbrev GroupToKinds := GoMap StringSet

/-- The kinds recorded under `group` (the keys of `groupToKinds[group]`), none when the
group is missing. -/
def kindsOf (m : GroupToKinds) (group : String) : List String :=
  ((m.lookup group).getD ∅).keys

/-- The kind `kind` is recorded under the group `group`. -/
def HasKind (m : GroupToKinds) (group kind : String) : Prop :=
  kind ∈ kindsOf m group

/-- Cut a string at the first occurrence of `sep`: the part before and the part after. -/
def cutAtFirst (sep : Char) : List Char → Option (List Char × List Char)
  | [] => none
  | c :: cs =>
    if c = sep then some ([], cs)
    else
      match cutAtFirst sep cs with
      | some (before, after) => some (c :: before, after)
      | none => none

/-- The call `strings.SplitN(s, sep, 2)` for a one-character separator: the string
itself when `sep` does not occur, else the parts before and after its first occurrence. -/
def SplitN2 (s : String) (sep : Char) : List String :=
  match cutAtFirst sep s.data with
  | some (before, after) => [String.mk before, String.mk after]
  | none => [s]

/-- Modelled from the spec: `kube.GetResourceKey` (package `pkg/kube`) is not among the
sources. The spec derives a ResourceKey as `normalize(group) + separator + Kind`, an
empty API group normalising to the sentinel "core"; the separator is the "_" at which
`addKey` splits. -/
def resourceKey (group kind : String) : String :=
  (if group = "" then "core" else group) ++ "_" ++ kind

/-- The closure `addKey` of `AnalyzeWithResourceGraph`, as a function of the accumulator
`groupToKinds` it captures. -/
def addKey (groupToKinds : GroupToKinds) (key : String) : GroupToKinds :=
  match SplitN2 key '_' with
  | [part0, part1] =>
    let group := if part0 = "core" then "" else part0
    let kind := part1
    let m :=
      match groupToKinds.lookup group with
      | some _ => groupToKinds
      | none => groupToKinds.insert group ∅
    m.insert group (((m.lookup group).getD ∅).insert kind ())
  | _ => groupToKinds

/-! ## The worker: cache synchronisation and BFS closure -/

/-- A `*resourcegraph.ResourceMapper`, seen through the one call the tracker makes on it:
the result `(rel, err)` of `GetResourcesRelation(ctx)` at the time of the call. -/
structure ResourceMapper where
  GetResourcesRelation : Except String RelationsCache

/-- The fields of `ResourceTracker` that the resource-graph worker reads and writes. A
stored mapper may be the nil pointer (`none`). -/
structure ResourceTracker where
  resourceMapperStore : GoMap (Option ResourceMapper)
  sharedRelationsCache : RelationsCache

/-- The method `ensureSyncedSharedCacheOnHost(ctx, server)`: checks the mapper of the
given server and merges its relations into the shared cache; without a mapper, or when
the scan fails, it only warns. -/
def ensureSyncedSharedCacheOnHost (rt : ResourceTracker) (server : String) : ResourceTracker :=
  match rt.resourceMapperStore.lookup server with
  | some (some mapper) =>
    match mapper.GetResourcesRelation with
    | .ok rel => { rt with sharedRelationsCache := mergeInto rt.sharedRelationsCache rel }
    | .error _ => rt
  | _ => rt

/-- The check "is any direct key missing in cache" of the worker (lines 235-241): the
loop over `dr.Keys` that sets `syncRequired` and breaks at the first missing key. -/
def syncRequired (cache : RelationsCache) : List String → Bool
  | [] => false
  | k :: ks =>
    match cache.lookup k with
    | none => true
    | some _ => syncRequired cache ks

/-- The loop of lines 248-252: direct keys that are not in the cache are added to it
with an empty set. -/
def insertMissingKeys (cache : RelationsCache) : List String → RelationsCache
  | [] => cache
  | k :: ks =>
    match cache.lookup k with
    | some _ => insertMissingKeys cache ks
    | none => insertMissingKeys (cache.insert k HashSet.New) ks

/-- Lines 233-254 of the worker: when a direct key is missing, the cache is synced from
the bundle's server and the keys still missing are inserted. -/
def prepareCache (rt : ResourceTracker) (server : String) (keys : StringSet) : ResourceTracker :=
  if syncRequired rt.sharedRelationsCache keys.keys then
    let rt1 := ensureSyncedSharedCacheOnHost rt server
    { rt1 with sharedRelationsCache := insertMissingKeys rt1.sharedRelationsCache keys.keys }
  else rt

/-- The keys that the BFS loop appends to the queue when it expands `curr` (lines
270-278): the string values of the child set of `curr`, nothing when `curr` is not a
key of the cache. -/
def childKeys (cache : RelationsCache) (curr : String) : List String :=
  match cache.lookup curr with
  | some children => children.Values.filterMap Value.asString
  | none => []

/-- The loop `for len(queue) > 0` of the worker (lines 261-279), for any callback
`addKey` acting on a state `σ`. Each unit of fuel pays for one iteration; `none` means
the fuel ran out before the queue was empty. The result is `visited` and the state of
the callback. -/
def bfsLoop {σ : Type} (addKey : σ → String → σ) (cache : RelationsCache) :
    Nat → List String → StringSet → σ → Option (StringSet × σ)
  | _, [], visited, acc => some (visited, acc)
  | 0, _ :: _, _, _ => none
  | fuel + 1, curr :: queue, visited, acc =>
    match visited.lookup curr with
    | some _ => bfsLoop addKey cache fuel queue visited acc
    | none =>
      bfsLoop addKey cache fuel (queue ++ childKeys cache curr) (visited.insert curr ())
        (addKey acc curr)

/-- The number of string children held by the entries whose key is not in `visited`. -/
def pendingChildren (visited : StringSet) : List (Sigma fun _ : String => HashSet) → Nat
  | [] => 0
  | e :: es =>
    (match visited.lookup e.1 with
      | some _ => 0
      | none => (e.2.Values.filterMap Value.asString).length) + pendingChildren visited es

/-- A number of iterations that the BFS loop never exceeds: every seed key is dequeued
once, and every child of an expanded key once. -/
def bfsFuel (cache : RelationsCache) (keys : StringSet) : Nat :=
  keys.keys.length + pendingChildren ∅ cache.entries

/-- Lines 256-279 of the worker: the queue starts as the direct keys, `visited` empty. -/
def bfs {σ : Type} (addKey : σ → String → σ) (cache : RelationsCache) (keys : StringSet)
    (acc : σ) : Option (StringSet × σ) :=
  bfsLoop addKey cache (bfsFuel cache keys) keys.keys ∅ acc

/-- A callback that records the keys it is called with, in call order. -/
def logKey (calls : List String) (key : String) : List String :=
  calls ++ [key]

/-- Lines 233-280 of the worker for one bundle with direct keys `keys` and destination
`server`: the tracker after the cache was prepared, `visited`, and the callback state. -/
def analyzeBundle {σ : Type} (addKey : σ → String → σ) (rt : ResourceTracker)
    (server : String) (keys : StringSet) (acc : σ) :
    Option (ResourceTracker × StringSet × σ) :=
  let rt1 := prepareCache rt server keys
  match bfs addKey rt1.sharedRelationsCache keys acc with
  | some (visited, acc1) => some (rt1, visited, acc1)
  | none => none

/-- The cache has the edge `p -> c`: the string `c` is in the child set of `p`. -/
def Edge (cache : RelationsCache) (p c : String) : Prop :=
  Value.str c ∈ children cache p

/-- The key `k` is reachable from a seed key by zero or more child edges. -/
def Reachable (cache : RelationsCache) (keys : StringSet) (k : String) : Prop :=
  ∃ s, s ∈ keys ∧ Relation.ReflTransGen (Edge cache) s k

/-- Every value of every child set of the cache is a string. -/
def holdsStrings (c : RelationsCache) : Bool :=
  c.entries.all fun e => e.2.Values.all fun v => v.asString.isSome

/-- Two caches hold the same adjacency: same keys, same child set per key. -/
def SameAdjacency (a b : RelationsCache) : Prop :=
  ∀ p, (p ∈ a ↔ p ∈ b) ∧ ∀ v, v ∈ children a p ↔ v ∈ children b p

/-- A cache operation from `a` to `b` is additive: keys stay, child sets only grow. -/
def Additive (a b : RelationsCache) : Prop :=
  ∀ p, p ∈ a → p ∈ b ∧ ∀ v, v ∈ children a p → v ∈ children b p

/-! ## Rendering -/

/-- The call `sort.Strings`: ascending lexicographic order. -/
def sortStrings (l : List String) : List String :=
  l.insertionSort (fun a b => a.data ≤ b.data)

/-- One block of the document printed by `printInclusions`. -/
structure InclusionEntry where
  apiGroup : String
  kinds : List String
  clusters : List String
  deriving DecidableEq, Repr

/-- The entries that `printInclusions` prints: one per group in sorted order, the core
group (key "" or "core") shown as "", the kinds sorted, the clusters "*". -/
def inclusionEntries (groupToKinds : GroupToKinds) : List InclusionEntry :=
  (sortStrings groupToKinds.keys).map fun g =>
    { apiGroup := if g = "" ∨ g = "core" then "" else g
      kinds := sortStrings (kindsOf groupToKinds g)
      clusters := ["*"] }

/-- The lines printed for one entry. -/
def entryLines (e : InclusionEntry) : List String :=
  ["  - apiGroups:", if e.apiGroup = "" then "    - \"\"" else "    - " ++ e.apiGroup,
    "    kinds:"] ++ e.kinds.map (fun k => "    - " ++ k) ++
    ["    clusters:"] ++ e.clusters.map (fun c => "    - \"" ++ c ++ "\"")

/-- The method `printInclusions`: the text written to standard output. -/
def printInclusions (groupToKinds : GroupToKinds) : String :=
  String.join (("resource.inclusions: |" :: (inclusionEntries groupToKinds).flatMap entryLines).map
    fun line => line ++ "\n")

/-! ## The scenario of the spec -/

/-- The cache with exactly the edges apps_Deployment -> core_Pod and
core_Pod -> core_ConfigMap. -/
def scenarioCache : RelationsCache :=
  cacheOf [("apps_Deployment", [.str "core_Pod"]), ("core_Pod", [.str "core_ConfigMap"])]

/-- The seed set of the scenario. -/
def scenarioKeys : StringSet := stringSetOf ["apps_Deployment"]

/-- A tracker holding the cache of the scenario and one mapper, for the server of the
bundle, whose scan returns the same relations. -/
def scenarioTracker : ResourceTracker :=
  { resourceMapperStore :=
      (∅ : GoMap (Option ResourceMapper)).insert "https://kubernetes.default.svc"
        (some { GetResourcesRelation := .ok scenarioCache })
    sharedRelationsCache := scenarioCache }

/-- The rendering of the group under which `addKey` files a key whose part before the
first "_" is `group`: the sentinel "core" becomes "". -/
def renderedGroup (group : String) : String :=
  if group = "core" then "" else group

/-- Two accumulators have the same contents: the same group keys and, under every
group, the same kinds. -/
def SameContents (a b : GroupToKinds) : Prop :=
  ∀ g, (g ∈ a ↔ g ∈ b) ∧ ∀ k, HasKind a g k ↔ HasKind b g k

/-! ## The instance-level graph walker (`pkg/graph/query.go`) -/

/-- The struct `common.ResourceInfo`. -/
structure ResourceInfo where
  Kind : String
  Group : String
  Name : String
  Namespace : String
  deriving DecidableEq, Repr

/-- The type `common.ResourceInfoSet`, a `map[ResourceInfo]Void`. -/
abbrev ResourceInfoSet := AList (fun _ : ResourceInfo => Unit)

/-- A Go value of type `any` as found in a query result: the nil interface, a string,
a `map[string]any`, a `[]any`, or a value of another dynamic type. -/
inductive Any where
  | null
  | str (s : String)
  | obj (fields : List (String × Any))
  | arr (items : List Any)
  | other (tag : Nat)

/-- The index expression `m[key]` on a `map[string]any`: nil when the key is missing. -/
def Any.field : List (String × Any) → String → Any
  | [], _ => .null
  | (k, v) :: rest, key => if k = key then v else Any.field rest key

/-- The struct `core.QueryResult`, of which the walker reads `Data`. -/
structure QueryResult where
  Data : List (String × Any)

/-- How a call ends: with a value, with a Go error, or in a run-time panic (a failed
type assertion). -/
inductive Outcome (α : Type) where
  | ok (value : α)
  | failed (err : String)
  | panic
  deriving DecidableEq, Repr

/-- The group computed in `extractResourceInfo`: the part of a non-empty apiVersion
before its "/" when `strings.Split(apiVersion, "/")` has exactly two parts. -/
def groupOfAPIVersion (apiVersion : String) : String :=
  match cutAtFirst '/' apiVersion.data with
  | some (before, after) => if '/' ∈ after then "" else String.mk before
  | none => ""

/-- One iteration of the loop of `extractResourceInfo` on the row `row`: `none` is a
panic, `some none` a row that is skipped, `some (some info)` a row that is appended. -/
def extractRow (row : Any) : Option (Option ResourceInfo) :=
  match row with
  | .obj info =>
    match Any.field info "kind" with
    | .null => some none
    | .str kind =>
      if kind = "Namespace" ∨ kind = "Node" ∨ kind = "APIService" then some none
      else
        let apiVersion :=
          match Any.field info "apiVersion" with
          | .str v => v
          | _ => ""
        let group := groupOfAPIVersion apiVersion
        match Any.field info "name" with
        | .str name =>
          match Any.field info "metadata" with
          | .obj metadata =>
            match Any.field metadata "namespace" with
            | .null => some (some { Kind := kind, Group := group, Name := name, Namespace := "" })
            | .str ns =>
              some (some { Kind := kind, Group := group, Name := name, Namespace := ns })
            | _ => none
          | _ => some none
        | _ => none
    | _ => none
  | _ => some none

/-- The loop `for _, meta := range child.([]any)` of `extractResourceInfo`. -/
def extractRows : List Any → Option (List ResourceInfo)
  | [] => some []
  | row :: rest =>
    match extractRow row with
    | none => none
    | some r =>
      match extractRows rest with
      | none => none
      | some l =>
        match r with
        | some info => some (info :: l)
        | none => some l

/-- The function `extractResourceInfo(queryResult, variable)`; `none` stands for a
panic of one of its unchecked type assertions. -/
def extractResourceInfo (queryResult : QueryResult) (variableName : String) :
    Option (List ResourceInfo) :=
  match Any.field queryResult.Data variableName with
  | .null => some []
  | .arr items => extractRows items
  | _ => none

/-- The claim's reading of one row of a query result: a row without a kind, or of kind
Namespace, Node or APIService, gives nothing; any other row with a name and a metadata
object gives the ResourceInfo with its kind, the group part of its apiVersion, its name
and its metadata.namespace. -/
def rowInfoSpec (row : Any) : Option ResourceInfo :=
  match row with
  | .obj info =>
    match Any.field info "kind", Any.field info "name", Any.field info "metadata" with
    | .str kind, .str name, .obj metadata =>
      if kind ∈ ["Namespace", "Node", "APIService"] then none
      else
        some
          { Kind := kind
            Group :=
              match Any.field info "apiVersion" with
              | .str v => groupOfAPIVersion v
              | _ => ""
            Name := name
            Namespace :=
              match Any.field metadata "namespace" with
              | .str ns => ns
              | _ => "" }
    | _, _, _ => none
  | _ => none

/-- A row on which no type assertion of `extractResourceInfo` panics: not a map, or a
map whose kind is missing or a string and, when that kind is kept, whose name is a
string and whose metadata, when it is a map, has a namespace that is missing or a
string. -/
def wellFormedRow (row : Any) : Bool :=
  match row with
  | .obj info =>
    match Any.field info "kind" with
    | .null => true
    | .str kind =>
      if kind = "Namespace" ∨ kind = "Node" ∨ kind = "APIService" then true
      else
        match Any.field info "name" with
        | .str _ =>
          match Any.field info "metadata" with
          | .obj metadata =>
            match Any.field metadata "namespace" with
            | .null => true
            | .str _ => true
            | _ => false
          | _ => true
        | _ => false
    | _ => false
  | _ => true

/-- The table `blackListedKinds`. -/
def blackListedKinds : List (String × Bool) :=
  [("projects", true), ("projectRequests", true), ("configmaps", true), ("secrets", true),
    ("serviceaccounts", true), ("pods", true), ("nodes", true), ("apiservices", true),
    ("namespaces", true)]

/-- The table `leafKinds`. -/
def leafKinds : List (String × Bool) :=
  [("Role", true), ("RoleBinding", true), ("ClusterRole", true), ("ClusterRoleBinding", true),
    ("ConfigMap", true), ("Secret", true), ("ServiceAccount", true), ("Namespace", true),
    ("PersistentVolume", true), ("PersistentVolumeClaim", true), ("Endpoints", true),
    ("EndpointSlice", true), ("NetworkPolicy", true), ("Ingress", true), ("Route", true),
    ("SecurityContextConstraints", true)]

/-- The index expression `table[key]` on a `map[string]bool`: false when the key is
missing. -/
def boolAt : List (String × Bool) → String → Bool
  | [], _ => false
  | (k, v) :: rest, key => if k = key then v else boolAt rest key

/-- The call `strings.ToLower`, on the letters A to Z. -/
def ToLower (s : String) : String :=
  String.mk (s.data.map Char.toLower)

/-- The verb `%q` of `fmt.Sprintf` on a string: double quotes around it, a backslash
before each double quote and backslash. (Other characters that `%q` escapes do not
occur in Kubernetes object names.) -/
def goQuote (s : String) : String :=
  String.mk ([Char.ofNat 34] ++
    s.data.flatMap (fun c =>
      if c = Char.ofNat 34 ∨ c = Char.ofNat 92 then [Char.ofNat 92, c] else [c]) ++
    [Char.ofNat 34])

/-- The node label `unambiguousKind` that `getChildren` builds for its parent. -/
def unambiguousKind (parent : ResourceInfo) : String :=
  if parent.Group = "" then "core" ++ "." ++ parent.Kind
  else (ToLower parent.Kind ++ "s") ++ "." ++ parent.Group

/-- The query string `queryStr` that `getChildren` builds for its parent. -/
def queryString (parent : ResourceInfo) : String :=
  if parent.Name = "" then
    "MATCH (p: " ++ unambiguousKind parent ++
      ") -> (c) RETURN c.kind, c.apiVersion, c.metadata.namespace"
  else
    "MATCH (p: " ++ unambiguousKind parent ++ "\x7bname:" ++ goQuote parent.Name ++
      "\x7d) -> (c) RETURN c.kind, c.apiVersion, c.metadata.namespace"

/-- The method `executeQuery(queryStr, namespace)` as a function: the graph query engine
is an external collaborator; it parses and executes the query and returns a result or
an error. -/
abbrev Executor := String → String → Except String QueryResult

/-- A record of one call of `executeQuery` made by `getChildren`: the parent, the query,
the namespace, and what came of it (an error, the children extracted, or a panic in
the extraction). -/
structure QueryCall where
  parent : ResourceInfo
  queryStr : String
  ns : String
  outcome : Outcome (List ResourceInfo)
  deriving DecidableEq, Repr

/-- The mutable part of a `QueryServer`: the field `VisitedKinds`, and the record of the
queries executed so far. -/
structure QueryServer where
  VisitedKinds : AList (fun _ : ResourceInfo => Bool)
  calls : List QueryCall

/-- The state of a server returned by `NewQueryServer`. -/
def NewQueryServer : QueryServer :=
  { VisitedKinds := ∅, calls := [] }

/-- The key `visitedKindKey` of `getChildren`: the kind and group of the parent. -/
def visitedKindKey (parent : ResourceInfo) : ResourceInfo :=
  { Kind := parent.Kind, Group := parent.Group, Name := "", Namespace := "" }

/-- The record of the query that `getChildren` executes for `parent`. -/
def recordedCall (parent : ResourceInfo) (outcome : Outcome (List ResourceInfo)) : QueryCall :=
  { parent := parent, queryStr := queryString parent, ns := parent.Namespace,
    outcome := outcome }

/-- The method `getChildren`: the immediate children of a node by a graph query. A nil
slice is the empty list. -/
def getChildren (exec : Executor) (q : QueryServer) (parent : ResourceInfo) :
    QueryServer × Outcome (List ResourceInfo) :=
  if boolAt leafKinds parent.Kind || boolAt blackListedKinds parent.Kind then (q, .ok [])
  else
    match q.VisitedKinds.lookup (visitedKindKey parent) with
    | some _ => (q, .ok [])
    | none =>
      match exec (queryString parent) parent.Namespace with
      | .error err =>
        ({ q with calls := q.calls ++ [recordedCall parent (.failed err)] }, .failed err)
      | .ok queryResult =>
        match extractResourceInfo queryResult "c" with
        | none => ({ q with calls := q.calls ++ [recordedCall parent .panic] }, .panic)
        | some results =>
          ({ VisitedKinds := q.VisitedKinds.insert (visitedKindKey parent) true
             calls := q.calls ++ [recordedCall parent (.ok results)] }, .ok results)

/-- The loop `for _, child := range children` of `depthFirstTraversal`, over the
recursive call `dfs`: an error of a child is dropped (`continue`), a panic ends the
walk. `none` means that `dfs` ran out of fuel. -/
def traverseChildren
    (dfs : QueryServer → Option ResourceInfo → ResourceInfoSet →
      Option (QueryServer × ResourceInfoSet × Outcome Unit)) :
    List ResourceInfo → QueryServer → ResourceInfoSet →
      Option (QueryServer × ResourceInfoSet × Outcome Unit)
  | [], q, visitedNodes => some (q, visitedNodes, .ok ())
  | child :: rest, q, visitedNodes =>
    match dfs q (some child) visitedNodes with
    | none => none
    | some (q1, visited1, .panic) => some (q1, visited1, .panic)
    | some (q1, visited1, _) => traverseChildren dfs rest q1 visited1

/-- The method `depthFirstTraversal(info, visitedNodes)`; `info` is a pointer, `none`
the nil pointer. The fuel bounds the depth of the recursion; `none` means it ran out. -/
def depthFirstTraversal (exec : Executor) :
    Nat → QueryServer → Option ResourceInfo → ResourceInfoSet →
      Option (QueryServer × ResourceInfoSet × Outcome Unit)
  | 0, _, _, _ => none
  | _ + 1, q, none, visitedNodes => some (q, visitedNodes, .ok ())
  | fuel + 1, q, some info, visitedNodes =>
    match visitedNodes.lookup info with
    | some _ => some (q, visitedNodes, .ok ())
    | none =>
      match getChildren exec q info with
      | (q1, .failed err) => some (q1, visitedNodes.insert info (), .failed err)
      | (q1, .panic) => some (q1, visitedNodes.insert info (), .panic)
      | (q1, .ok children) =>
        traverseChildren (depthFirstTraversal exec fuel) children q1 (visitedNodes.insert info ())

/-- The method `GetNestedChildResources(resource)`. -/
def GetNestedChildResources (exec : Executor) (fuel : Nat) (q : QueryServer)
    (resource : Option ResourceInfo) : Option (QueryServer × Outcome ResourceInfoSet) :=
  match depthFirstTraversal exec fuel q resource ∅ with
  | none => none
  | some (q1, allLevelChildren, .ok _) => some (q1, .ok allLevelChildren)
  | some (q1, _, .failed err) => some (q1, .failed err)
  | some (q1, _, .panic) => some (q1, .panic)

/-- The method `GetApplicationChildResources(name, namespace)`. -/
def GetApplicationChildResources (exec : Executor) (fuel : Nat) (q : QueryServer)
    (name ns : String) : Option (QueryServer × Outcome ResourceInfoSet) :=
  GetNestedChildResources exec fuel q
    (some { Kind := "applications.argoproj.io", Group := "argoproj.io", Name := name,
            Namespace := ns })

/-- A query engine whose every query fails. -/
def failingExecutor : Executor :=
  fun _ _ => .error "connection refused"

/-- A result row with the given kind, apiVersion, name and namespace. -/
def resultRow (kind apiVersion name ns : String) : Any :=
  .obj [("kind", .str kind), ("apiVersion", .str apiVersion), ("name", .str name),
    ("metadata", .obj [("namespace", .str ns)])]

/-- The instance A of a cyclic instance graph. -/
def nodeA : ResourceInfo :=
  { Kind := "Alpha", Group := "example.io", Name := "a", Namespace := "default" }

/-- The instance B of a cyclic instance graph. -/
def nodeB : ResourceInfo :=
  { Kind := "Beta", Group := "example.io", Name := "b", Namespace := "default" }

/-- A query engine over the two instances A and B in which every query returns both:
the query of A returns B and the query of B returns A. -/
def cyclicExecutor : Executor :=
  fun _ _ =>
    .ok { Data := [("c", .arr [resultRow "Alpha" "example.io/v1" "a" "default",
            resultRow "Beta" "example.io/v1" "b" "default"])] }

/-- A query engine in which the query of A returns B and every other query fails. -/
def partlyFailingExecutor : Executor :=
  fun queryStr _ =>
    if queryStr = queryString nodeA then
      .ok { Data := [("c", .arr [resultRow "Beta" "example.io/v1" "b" "default"])] }
    else .error "connection refused"

/-- The set `v` holds the parent of every recorded call, failed ones included, and
every child returned by the calls that succeeded. -/
def CallsClosed (calls : List QueryCall) (v : ResourceInfoSet) : Prop :=
  ∀ c, c ∈ calls → c.parent ∈ v ∧ ∀ l, c.outcome = .ok l → ∀ x, x ∈ l → x ∈ v

/-- The nodes of a returned set, for comparison. -/
def outcomeNodes : Outcome ResourceInfoSet → Outcome (List ResourceInfo)
  | .ok all => .ok all.keys
  | .failed err => .failed err
  | .panic => .panic

/-! ## Direct resources of an application (`cmd/tracker/tracker.go`) -/

/-- The fields of `v1alpha1.ResourceStatus` that the tracker reads. -/
structure ResourceStatus where
  Group : String
  Version : String
  Kind : String
  Name : String
  Namespace : String

/-- The fields of `v1alpha1.ApplicationCondition` that the tracker reads; `condType` is
the field `Type`. -/
structure ApplicationCondition where
  condType : String
  Message : String

/-- The struct `v1alpha1.ApplicationDestination`. -/
structure ApplicationDestination where
  Server : String
  Name : String

/-- The fields of `v1alpha1.Application` that the tracker reads: its name,
`Spec.Destination`, `Status.Resources` and `Status.Conditions`. -/
structure Application where
  Name : String
  Destination : ApplicationDestination
  Resources : List ResourceStatus
  Conditions : List ApplicationCondition

/-- Modelled from the spec: the declaration of `graph.ResourceInfo` that tracker.go
uses is not among the sources (query.go works on `common.ResourceInfo`). The spec gives
a ResourceInfo the kind, the full APIVersion, the name and the namespace, and these are
the fields that tracker.go sets. -/
structure GraphResourceInfo where
  Kind : String
  APIVersion : String
  Name : String
  Namespace : String
  deriving DecidableEq, Repr

/-- The struct `DirectResources`. -/
structure DirectResources where
  Infos : List GraphResourceInfo
  Keys : StringSet

/-- Modelled from the spec: `kube.GetResourceKey(apiVersion, kind)` (package `pkg/kube`)
is not among the sources. The spec canonicalizes an (API group/version, kind) pair into
the key `normalize(group) + separator + Kind`, the version not being part of the key:
the group is the part of the apiVersion before its "/", empty when there is none. -/
def GetResourceKey (apiVersion kind : String) : String :=
  match cutAtFirst '/' apiVersion.data with
  | some (group, _) => resourceKey (String.mk group) kind
  | none => resourceKey "" kind

/-- The class `[A-Za-z0-9.-]` of the pattern. -/
def isGroupChar (c : Char) : Bool :=
  c.isAlphanum || c == '.' || c == '-'

/-- The class `[A-Za-z0-9.]` of the pattern. -/
def isKindChar (c : Char) : Bool :=
  c.isAlphanum || c == '.'

/-- The class `[A-Za-z0-9-_.]` of the pattern. -/
def isNameChar (c : Char) : Bool :=
  c.isAlphanum || c == '-' || c == '_' || c == '.'

/-- A match of the pattern `([A-Za-z0-9.-]*)/([A-Za-z0-9.]+) ([A-Za-z0-9-_.]+)` that
starts at the head of `s`. The classes of the first two groups exclude the character
that must follow them, so each group is the longest run of its class. -/
def matchAt (s : List Char) : Option (String × String × String) :=
  match s.dropWhile isGroupChar with
  | slash :: afterSlash =>
    if slash = '/' then
      match afterSlash.takeWhile isKindChar, afterSlash.dropWhile isKindChar with
      | k :: ks, space :: afterSpace =>
        if space = ' ' then
          match afterSpace.takeWhile isNameChar with
          | [] => none
          | n :: ns =>
            some (String.mk (s.takeWhile isGroupChar), String.mk (k :: ks), String.mk (n :: ns))
        else none
      | _, _ => none
    else none
  | [] => none

/-- The call `rx.FindStringSubmatch(message)` for the pattern of the tracker: the three
submatches of the leftmost match, `none` when there is no match (the slice returned
then has not 4 elements). -/
def FindStringSubmatch : List Char → Option (String × String × String)
  | [] => none
  | c :: cs =>
    match matchAt (c :: cs) with
    | some m => some m
    | none => FindStringSubmatch cs

/-- The call `strings.EqualFold`, on the letters A to Z. -/
def EqualFold (s t : String) : Bool :=
  s.data.map Char.toLower == t.data.map Char.toLower

/-- The closure `add` of `GetDirectResourcesFromStatus`. -/
def addDirect (dr : DirectResources) (kind apiVersion name ns : String) : DirectResources :=
  { Infos := dr.Infos ++ [{ Kind := kind, APIVersion := apiVersion, Name := name,
                            Namespace := ns }]
    Keys := dr.Keys.insert (GetResourceKey apiVersion kind) () }

/-- One iteration of the loop over `app.Status.Resources`. -/
def addResource (dr : DirectResources) (res : ResourceStatus) : DirectResources :=
  addDirect dr res.Kind
    (if res.Group = "" then res.Version else res.Group ++ "/" ++ res.Version)
    res.Name res.Namespace

/-- One iteration of the loop over `app.Status.Conditions`. -/
def addCondition (dr : DirectResources) (cond : ApplicationCondition) : DirectResources :=
  if EqualFold cond.condType "ExcludedResourceWarning" then
    match FindStringSubmatch cond.Message.data with
    | some (group, kind, name) =>
      addDirect dr kind (if group = "" then "v1" else group ++ "/" ++ "v1") name ""
    | none => dr
  else dr

/-- Lines 356-394 of `GetDirectResourcesFromStatus`: the DirectResources built from the
status of the application. -/
def directResources (app : Application) : DirectResources :=
  app.Conditions.foldl addCondition
    (app.Resources.foldl addResource { Infos := [], Keys := ∅ })

/-- The fields of `v1alpha1.Cluster` that matter here. -/
structure Cluster where
  Server : String

/-- A `*rest.Config`, of which only the host matters here. -/
structure RestConfig where
  Host : String

/-- The collaborators of `syncResourceMapper`: the two calls on the Argo CD cluster
registry `rt.db`, the constructor `resourcegraph.NewResourceMapper`, and
`restConfigFromCluster`, which fails only in the calls it makes into client-go and
Argo CD (loading the kubeconfig, parsing the proxy URL) and is taken with them. -/
structure Collaborators where
  GetClusterServersByName : String → Except String (List String)
  GetCluster : String → Except String Cluster
  restConfigFromCluster : Cluster → Except String RestConfig
  NewResourceMapper : RestConfig → Except String ResourceMapper

/-- The function `getClusterServerByName`. -/
def getClusterServerByName (env : Collaborators) (clusterName : String) : Except String String :=
  match env.GetClusterServersByName clusterName with
  | .error err =>
    .error ("error getting cluster server by name " ++ goQuote clusterName ++ ": " ++ err)
  | .ok [] => .error ("there are no clusters with this name: " ++ clusterName)
  | .ok [server] => .ok server
  | .ok (s1 :: s2 :: rest) =>
    .error ("there are " ++ toString (s1 :: s2 :: rest).length ++
      " clusters with the same name: [" ++ " ".intercalate (s1 :: s2 :: rest) ++ "]")

/-- The resolution of the destination server, written twice in the source: in
`syncResourceMapper` (lines 441-450) and in the worker (lines 220-232). -/
def destinationServer (env : Collaborators) (app : Application) : Except String String :=
  if app.Destination.Server = "" then
    if app.Destination.Name = "" then .error "both destination server and name are empty"
    else
      match getClusterServerByName env app.Destination.Name with
      | .error err => .error ("error getting cluster: " ++ err)
      | .ok server => .ok server
  else .ok app.Destination.Server

/-- The method `syncResourceMapper`: the tracker with a mapper for the destination
server of the application, or an error. -/
def syncResourceMapper (env : Collaborators) (rt : ResourceTracker) (app : Application) :
    Except String ResourceTracker :=
  match destinationServer env app with
  | .error err => .error err
  | .ok server =>
    match env.GetCluster server with
    | .error err => .error ("resolve destination cluster: " ++ err)
    | .ok cluster =>
      match env.restConfigFromCluster cluster with
      | .error err => .error ("failed to create rest config: " ++ err)
      | .ok restCfg =>
        match rt.resourceMapperStore.lookup server with
        | some _ => .ok rt
        | none =>
          match env.NewResourceMapper restCfg with
          | .error err => .error ("failed to create ResourceMapper: " ++ err)
          | .ok mapper =>
            .ok { rt with
              resourceMapperStore := rt.resourceMapperStore.insert server (some mapper) }

/-- The method `GetDirectResourcesFromStatus`: the direct resources of the application
and the tracker with its mapper synced, or the error of the sync. -/
def GetDirectResourcesFromStatus (env : Collaborators) (rt : ResourceTracker)
    (app : Application) : Except String (ResourceTracker × DirectResources) :=
  match syncResourceMapper env rt app with
  | .error err => .error ("failed to sync resource mapper: " ++ err)
  | .ok rt1 => .ok (rt1, directResources app)

/-! ## The worker pool of `AnalyzeWithResourceGraph` -/

/-- The body of the loop `for app := range jobs` of the worker, for callbacks `addKey`
and `report` acting on states `σ` and `ρ`. `report` gets `none` for a nil error.
`none` as a result means that the BFS ran out of fuel. -/
def processApplication {σ ρ : Type} (env : Collaborators) (addKey : σ → String → σ)
    (report : ρ → Option String → ρ) (st : ResourceTracker × σ × ρ) (app : Application) :
    Option (ResourceTracker × σ × ρ) :=
  match GetDirectResourcesFromStatus env st.1 app with
  | .error err => some (st.1, st.2.1, report st.2.2 (some err))
  | .ok (rt1, dr) =>
    if rt1.resourceMapperStore.keys.length = 0 then
      some (rt1, st.2.1, report st.2.2
        (some ("no destination clusters synced; ensure Applications have valid " ++
          ".spec.destination and Argo CD has access")))
    else
      match destinationServer env app with
      | .error err => some (rt1, st.2.1, report st.2.2 (some err))
      | .ok server =>
        match analyzeBundle addKey rt1 server dr.Keys st.2.1 with
        | none => none
        | some (rt2, _, acc1) => some (rt2, acc1, report st.2.2 none)

/-- The method `analyzeWithResourceGraphWorker` on the applications `jobs` that it reads
from its channel. -/
def analyzeWithResourceGraphWorker {σ ρ : Type} (env : Collaborators)
    (addKey : σ → String → σ) (report : ρ → Option String → ρ) :
    List Application → ResourceTracker × σ × ρ → Option (ResourceTracker × σ × ρ)
  | [], st => some st
  | app :: jobs, st =>
    match processApplication env addKey report st app with
    | none => none
    | some st1 => analyzeWithResourceGraphWorker env addKey report jobs st1

/-- A callback `report` that records the results it is called with, in call order. -/
def logReport (results : List (Option String)) (err : Option String) : List (Option String) :=
  results ++ [err]

/-- The loop `for r := range results` of `AnalyzeWithResourceGraph`: the first error
received, which the function returns at once. -/
def firstError : List (Option String) → Option String
  | [] => none
  | some err :: _ => some err
  | none :: rest => firstError rest

/-- The method `AnalyzeWithResourceGraph` under the schedule in which the applications
are processed one after the other in list order and their results received in that
order: the tracker, the error returned, and the document printed by `printInclusions`
when it is reached (progress lines are left out). -/
def AnalyzeWithResourceGraph (env : Collaborators) (rt : ResourceTracker)
    (apps : List Application) : Option (ResourceTracker × Option String × Option String) :=
  match analyzeWithResourceGraphWorker env addKey logReport apps (rt, ∅, []) with
  | none => none
  | some (rt1, groupToKinds, results) =>
    match firstError results with
    | some err => some (rt1, some err, none)
    | none => some (rt1, none, some (printInclusions groupToKinds))

/-- Collaborators that know the one cluster "https://kubernetes.default.svc", for which
the relation miner returns the edges of the scenario. -/
def scenarioCollaborators : Collaborators :=
  { GetClusterServersByName := fun _ => .ok ["https://kubernetes.default.svc"]
    GetCluster := fun server =>
      if server = "https://kubernetes.default.svc" then .ok { Server := server }
      else .error "cluster not found"
    restConfigFromCluster := fun c => .ok { Host := c.Server }
    NewResourceMapper := fun _ => .ok { GetResourcesRelation := .ok scenarioCache } }

/-- An application on the known cluster that manages one resource. -/
def appWith (name group kind : String) : Application :=
  { Name := name
    Destination := { Server := "https://kubernetes.default.svc", Name := "" }
    Resources := [{ Group := group, Version := "v1", Kind := kind, Name := name,
                    Namespace := "default" }]
    Conditions := [] }

/-- An application without a destination. -/
def appWithoutDestination : Application :=
  { Name := "broken"
    Destination := { Server := "", Name := "" }
    Resources := [{ Group := "batch", Version := "v1", Kind := "Job", Name := "broken",
                    Namespace := "default" }]
    Conditions := [] }

/-- An application whose only trace of a RoleBinding is an excluded-resource warning,
with the type of the condition written in lower case. -/
def appWithWarning : Application :=
  { Name := "guestbook"
    Destination := { Server := "https://kubernetes.default.svc", Name := "" }
    Resources := []
    Conditions := [{ condType := "excludedresourcewarning"
                     Message := "rbac.authorization.k8s.io/RoleBinding my-binding" }] }

/-- The accumulator holds the kind of every direct key `group_kind` of the application
under the group, the sentinel "core" rendered as "". -/
def HoldsDirectKinds (acc : GroupToKinds) (app : Application) : Prop :=
  ∀ key, key ∈ (directResources app).Keys → ∀ group kind : String,
    '_' ∉ group.data → key = group ++ "_" ++ kind → HasKind acc (renderedGroup group) kind

/-- The four applications of the scenario in which one worker fails: the second has no
destination. -/
def fourApplications : List Application :=
  [appWith "web" "apps" "Deployment", appWithoutDestination, appWith "db" "apps" "StatefulSet",
    appWith "settings" "" "ConfigMap"]

/-! ## Grouped kinds and inclusion entries (`pkg/common/common.go`, `cmd/run_query.go`) -/

/-- The struct `ResourceInclusionEntry`. A slice is the list of its items: a nil slice
and an empty slice are both the empty list. -/
structure ResourceInclusionEntry where
  APIGroups : List String
  Kinds : List String
  Clusters : List String
  deriving DecidableEq, Repr

/-- The type `Kinds` of common.go, a `map[string]Void`. -/
abbrev Kinds := StringSet

/-- The type `GroupedResourceKinds` of common.go, a `map[string]Kinds`. -/
abbrev GroupedResourceKinds := GoMap Kinds

/-- The method `Kinds.Equal`. -/
def Kinds.Equal (k other : Kinds) : Bool :=
  if k.keys.length ≠ other.keys.length then false
  else k.keys.all fun key => (other.lookup key).isSome

/-- The verb `%v` of `fmt.Sprintf` on a `[]string`: the items between square brackets,
separated by one space. -/
def formatStrings (l : List String) : String :=
  "[" ++ " ".intercalate l ++ "]"

/-- The string `sub` is a prefix of `s`. -/
def hasPrefix : List Char → List Char → Bool
  | _, [] => true
  | [], _ :: _ => false
  | c :: cs, d :: ds => c == d && hasPrefix cs ds

/-- Some suffix of `s` has the prefix `sub`. -/
def containsChars : List Char → List Char → Bool
  | [], sub => hasPrefix [] sub
  | c :: cs, sub => hasPrefix (c :: cs) sub || containsChars cs sub

/-- The call `strings.Contains(s, substr)`. -/
def Contains (s substr : String) : Bool :=
  containsChars s.data substr.data

/-- The method `ResourceInclusionEntry.Equal`. `reflect.DeepEqual` on two `[]string` is
the equality of the lists (it also tells a nil slice from an empty one, which makes the
Go method false in a case where this one is true). -/
def ResourceInclusionEntry.Equal (r other : ResourceInclusionEntry) : Bool :=
  if r.APIGroups ≠ other.APIGroups ∨ r.Clusters ≠ other.Clusters ∨
      r.Kinds.length ≠ other.Kinds.length then false
  else
    let currentKindsStr := formatStrings r.Kinds
    other.Kinds.all fun otherKind => Contains currentKindsStr otherKind

/-- The function `getUniqueKinds`: the kinds of the set, in the order of the map. -/
def getUniqueKinds (kinds : Kinds) : List String :=
  kinds.keys

/-- Lines 65-78 of `GroupedResourceKinds.String`: the entries that are marshalled, one
per group, the core group (key "core" or "") with the apiGroup "". -/
def includedResources (g : GroupedResourceKinds) : List ResourceInclusionEntry :=
  g.entries.map fun e =>
    { APIGroups := [if e.1 = "core" ∨ e.1 = "" then "" else e.1]
      Kinds := getUniqueKinds e.2
      Clusters := ["*"] }

/-- The two calls made on the YAML library `gopkg.in/yaml.v2`, an external
collaborator. -/
structure YamlCodec where
  Marshal : List ResourceInclusionEntry → Except String String
  Unmarshal : String → Except String (List ResourceInclusionEntry)

/-- The method `GroupedResourceKinds.String` (the name `asString` keeps `String` free
for the type). -/
def GroupedResourceKinds.asString (yaml : YamlCodec) (g : GroupedResourceKinds) : String :=
  match yaml.Marshal (includedResources g) with
  | .ok out => out
  | .error err => "error: " ++ err

/-- The statements `if (*g)[group] == nil { (*g)[group] = make(map[string]Void) }` and
`(*g)[group][kind] = Void{}` of `FromYaml`. -/
def setKind (g : GroupedResourceKinds) (group kind : String) : GroupedResourceKinds :=
  let g1 :=
    match g.lookup group with
    | some _ => g
    | none => g.insert group ∅
  g1.insert group (((g1.lookup group).getD ∅).insert kind ())

/-- One iteration of the loop of `FromYaml` over the entries read. -/
def loadInclusion (g : GroupedResourceKinds) (resourceInclusion : ResourceInclusionEntry) :
    GroupedResourceKinds :=
  match resourceInclusion.APIGroups with
  | [] => g
  | apiGroup :: _ =>
    let group := if apiGroup = "" then "core" else apiGroup
    resourceInclusion.Kinds.foldl (fun acc kind => setKind acc group kind) g

/-- The loop of `FromYaml` (lines 117-133) over the entries read from the document. -/
def loadInclusions (g : GroupedResourceKinds) (existing : List ResourceInclusionEntry) :
    GroupedResourceKinds :=
  existing.foldl loadInclusion g

/-- The method `GroupedResourceKinds.FromYaml`: the receiver after the call, or the
error of the parser. -/
def GroupedResourceKinds.FromYaml (yaml : YamlCodec) (g : GroupedResourceKinds)
    (resourceInclusionsYaml : String) : Except String GroupedResourceKinds :=
  match yaml.Unmarshal resourceInclusionsYaml with
  | .error err => .error err
  | .ok existing => .ok (loadInclusions g existing)

/-- The method `GroupedResourceKinds.Equal`. -/
def GroupedResourceKinds.Equal (g other : GroupedResourceKinds) : Bool :=
  if other.keys.length ≠ g.keys.length then false
  else
    other.entries.all fun e =>
      match g.lookup e.1 with
      | none => false
      | some currentKinds => Kinds.Equal currentKinds e.2

/-- The method `GroupedResourceKinds.MergeResourceInfos`. -/
def MergeResourceInfos (g : GroupedResourceKinds) (input : List ResourceInfo) :
    GroupedResourceKinds :=
  input.foldl
    (fun acc resourceInfo =>
      let apiGroup := if resourceInfo.Group = "" then "core" else resourceInfo.Group
      match acc.lookup apiGroup with
      | none => acc.insert apiGroup ((∅ : Kinds).insert resourceInfo.Kind ())
      | some kinds => acc.insert apiGroup (kinds.insert resourceInfo.Kind ()))
    g

/-- The function `getAPIGroup` of run_query.go: the part of the apiVersion before its
first "/", empty when it has none. -/
def getAPIGroup (apiVersion : String) : String :=
  match cutAtFirst '/' apiVersion.data with
  | some (before, _) => String.mk before
  | none => ""

/-- One iteration of the loop of `mergeResourceInfo`. The map is the
`graph.GroupedResourceKinds` of run_query.go, whose declaration is not among the
sources: the code stores `[]string` values in it and appends to them, so it is a
`map[string][]string`. -/
def mergeOne (results : GoMap (List String)) (resourceInfo : GraphResourceInfo) :
    GoMap (List String) :=
  if resourceInfo.APIVersion.data.length ≤ 0 then results
  else
    let apiGroup := getAPIGroup resourceInfo.APIVersion
    match results.lookup apiGroup with
    | none => results.insert apiGroup [resourceInfo.Kind]
    | some kinds => results.insert apiGroup (kinds ++ [resourceInfo.Kind])

/-- The function `mergeResourceInfo` of run_query.go. -/
def mergeResourceInfo (input : List GraphResourceInfo) : GoMap (List String) :=
  input.foldl mergeOne ∅

/-- Lines 125-133 of `runQueryExecutor`: the entries that are marshalled and written to
standard output for the resources `allAppChildren`. -/
def runQueryInclusions (allAppChildren : List GraphResourceInfo) : List ResourceInclusionEntry :=
  (mergeResourceInfo allAppChildren).entries.map fun e =>
    { APIGroups := [e.1], Kinds := e.2, Clusters := ["*"] }

/-- Build grouped kinds from a list of (group, kinds) pairs. -/
def groupedOf (l : List (String × List String)) : GroupedResourceKinds :=
  l.foldl (fun g e => g.insert e.1 (stringSetOf e.2)) ∅

/-- The resource that `GetApplicationChildResources(name, ns)` hands to the walker. -/
def applicationResource (name ns : String) : ResourceInfo :=
  { Kind := "applications.argoproj.io", Group := "argoproj.io", Name := name,
    Namespace := ns }

/-- The kinds of the resources of `input` that `mergeResourceInfo` files under `group`
(those with a non-empty APIVersion whose API group is `group`), in the order of the
input. -/
def kindsInGroup (input : List GraphResourceInfo) (group : String) : List String :=
  (input.filter fun r =>
    decide (¬ r.APIVersion.data.length ≤ 0 ∧ getAPIGroup r.APIVersion = group)).map
    fun r => r.Kind

/-- Three children of one application: a StatefulSet and two Deployments of the group
apps. -/
def unsortedChildren : List GraphResourceInfo :=
  [⟨"StatefulSet", "apps/v1", "db", "default"⟩, ⟨"Deployment", "apps/v1", "web", "default"⟩,
   ⟨"Deployment", "apps/v1", "api", "default"⟩]

/-- Grouped kinds with one group, apps, whose set of kinds is empty. -/
def emptyKindsGroup : GroupedResourceKinds := groupedOf [("apps", [])]

/-- Grouped kinds with the core group under its internal name and the group apps. -/
def roundTripGroups : GroupedResourceKinds :=
  groupedOf [("core", ["Pod", "ConfigMap"]), ("apps", ["Deployment"])]

/-- The resource `u` is among the children returned by a recorded call that succeeded. -/
def ReturnedBy (calls : List QueryCall) (u : ResourceInfo) : Prop :=
  ∃ c, c ∈ calls ∧ ∃ l, c.outcome = .ok l ∧ u ∈ l

/-- An application with an excluded-resource warning with the given message. -/
def appWithMessage (message : String) : Application :=
  { Name := "guestbook"
    Destination := { Server := "https://kubernetes.default.svc", Name := "" }
    Resources := []
    Conditions := [{ condType := "ExcludedResourceWarning", Message := message }] }

/-! ## Lemmas on sets and on mergeInto -/

theorem HashSet.mem_Add (set : HashSet) (item x : Value) :
    x ∈ set.Add item ↔ x ∈ set ∨ x = item := by
  unfold HashSet.Add
  split
  · constructor
    · intro h; exact Or.inl h
    · rintro (h | h)
      · exact h
      · subst h; assumption
  · simp

theorem children_insert_self (c : RelationsCache) (p : String) (s : HashSet) :
    children (c.insert p s) p = s := by
  simp [children]

theorem children_insert_ne (c : RelationsCache) (p q : String) (s : HashSet) (h : q ≠ p) :
    children (c.insert p s) q = children c q := by
  simp [children, AList.lookup_insert_ne h]

theorem Value.asString_eq_some (v : Value) (s : String) :
    v.asString = some s ↔ v = .str s := by
  cases v <;> simp [Value.asString]

theorem Value.asString_eq_none (v : Value) :
    v.asString = none ↔ ∀ s, v ≠ .str s := by
  cases v <;> simp [Value.asString]

theorem mem_addChildren (p : String) (vs : List Value) (dst : RelationsCache) (q : String) :
    q ∈ addChildren p dst vs ↔ q ∈ dst ∨ (q = p ∧ ∃ v ∈ vs, v.asString.isSome) := by
  induction vs generalizing dst with
  | nil => simp [addChildren]
  | cons v vs ih =>
    unfold addChildren
    cases hv : v.asString with
    | none => simp [ih, hv]
    | some s =>
      simp only [ih, AList.mem_insert, List.mem_cons, exists_eq_or_imp, hv, Option.isSome_some,
        true_or, and_true]
      tauto

theorem children_addChildren_ne (p : String) (vs : List Value) (dst : RelationsCache)
    (q : String) (h : q ≠ p) :
    children (addChildren p dst vs) q = children dst q := by
  induction vs generalizing dst with
  | nil => simp [addChildren]
  | cons v vs ih =>
    unfold addChildren
    cases hv : v.asString with
    | none => simp [ih]
    | some s => simp [ih, children_insert_ne _ _ _ _ h]

theorem mem_children_addChildren (p : String) (vs : List Value) (dst : RelationsCache)
    (x : Value) :
    x ∈ children (addChildren p dst vs) p ↔
      x ∈ children dst p ∨ (x ∈ vs ∧ x.asString.isSome) := by
  induction vs generalizing dst with
  | nil => simp [addChildren]
  | cons v vs ih =>
    unfold addChildren
    cases hv : v.asString with
    | none =>
      simp only [ih, List.mem_cons]
      constructor
      · rintro (h | ⟨h, h2⟩)
        · exact Or.inl h
        · exact Or.inr ⟨Or.inr h, h2⟩
      · rintro (h | ⟨h | h, h2⟩)
        · exact Or.inl h
        · subst h; simp [hv] at h2
        · exact Or.inr ⟨h, h2⟩
    | some s =>
      have hvs : v = .str s := (Value.asString_eq_some v s).1 hv
      simp only [ih, children_insert_self, HashSet.mem_Add, List.mem_cons]
      constructor
      · rintro ((h | h) | ⟨h, h2⟩)
        · exact Or.inl h
        · exact Or.inr ⟨Or.inl (h.trans hvs.symm), by simp [h, Value.asString]⟩
        · exact Or.inr ⟨Or.inr h, h2⟩
      · rintro (h | ⟨h | h, h2⟩)
        · exact Or.inl (Or.inl h)
        · exact Or.inl (Or.inr (h.trans hvs))
        · exact Or.inr ⟨h, h2⟩

theorem mem_mergeEntry (dst : RelationsCache) (p : String) (set : HashSet) (q : String) :
    q ∈ mergeEntry dst p set ↔ q ∈ dst ∨ q = p := by
  unfold mergeEntry
  cases h : dst.lookup p with
  | none =>
    simp only [mem_addChildren, AList.mem_insert]
    tauto
  | some s =>
    have hp : p ∈ dst := by
      rw [← AList.lookup_isSome, h]; rfl
    simp only [mem_addChildren]
    constructor
    · rintro (h1 | ⟨h1, _⟩)
      · exact Or.inl h1
      · exact Or.inr h1
    · rintro (h1 | h1)
      · exact Or.inl h1
      · subst h1; exact Or.inl hp

theorem children_mergeEntry_ne (dst : RelationsCache) (p : String) (set : HashSet)
    (q : String) (h : q ≠ p) :
    children (mergeEntry dst p set) q = children dst q := by
  unfold mergeEntry
  cases hl : dst.lookup p with
  | none => simp [children_addChildren_ne _ _ _ _ h, children_insert_ne _ _ _ _ h]
  | some s => simp [children_addChildren_ne _ _ _ _ h]

theorem mem_children_mergeEntry (dst : RelationsCache) (p : String) (set : HashSet)
    (x : Value) :
    x ∈ children (mergeEntry dst p set) p ↔
      x ∈ children dst p ∨ (x ∈ set ∧ x.asString.isSome) := by
  unfold mergeEntry
  cases hl : dst.lookup p with
  | none =>
    simp only [mem_children_addChildren, children_insert_self, HashSet.Values]
    simp [children, hl, HashSet.New]
  | some s => simp only [mem_children_addChildren, HashSet.Values]

theorem mem_mergeEntries (es : List (Sigma fun _ : String => HashSet)) (dst : RelationsCache)
    (q : String) :
    q ∈ mergeEntries dst es ↔ q ∈ dst ∨ ∃ e ∈ es, e.1 = q := by
  induction es generalizing dst with
  | nil => simp [mergeEntries]
  | cons e es ih =>
    simp only [mergeEntries, ih, mem_mergeEntry, List.mem_cons, exists_eq_or_imp]
    constructor
    · rintro ((h | h) | h)
      · exact Or.inl h
      · exact Or.inr (Or.inl h.symm)
      · exact Or.inr (Or.inr h)
    · rintro (h | h | h)
      · exact Or.inl (Or.inl h)
      · exact Or.inl (Or.inr h.symm)
      · exact Or.inr h

theorem mem_children_mergeEntries (es : List (Sigma fun _ : String => HashSet))
    (dst : RelationsCache) (q : String) (x : Value) :
    x ∈ children (mergeEntries dst es) q ↔
      x ∈ children dst q ∨ ∃ e ∈ es, e.1 = q ∧ x ∈ e.2 ∧ x.asString.isSome := by
  induction es generalizing dst with
  | nil => simp [mergeEntries]
  | cons e es ih =>
    simp only [mergeEntries, ih, List.mem_cons, exists_eq_or_imp]
    by_cases hq : q = e.1
    · subst hq
      simp only [mem_children_mergeEntry, true_and]
      tauto
    · rw [children_mergeEntry_ne _ _ _ _ hq]
      have : ¬ e.1 = q := fun h => hq h.symm
      simp [this]

/-- Membership in the child set of `rel` under `q`, read off the entries of `rel`. -/
theorem mem_children_iff_entry (rel : RelationsCache) (q : String) (x : Value) :
    x ∈ children rel q ↔ ∃ e ∈ rel.entries, e.1 = q ∧ x ∈ e.2 := by
  constructor
  · intro h
    cases hl : rel.lookup q with
    | none => simp [children, hl, HashSet.New] at h
    | some s =>
      simp only [children, hl, Option.getD_some] at h
      have : (⟨q, s⟩ : Sigma fun _ : String => HashSet) ∈ rel.entries :=
        AList.mem_lookup_iff.1 (by simp [hl])
      exact ⟨⟨q, s⟩, this, rfl, h⟩
  · rintro ⟨⟨k, s⟩, he, hk, hx⟩
    simp only at hk hx
    subst hk
    have : s ∈ rel.lookup k := AList.mem_lookup_iff.2 he
    simp only [Option.mem_def] at this
    simp [children, this, hx]

theorem mem_keys_iff_entry (rel : RelationsCache) (q : String) :
    q ∈ rel ↔ ∃ e ∈ rel.entries, e.1 = q := by
  rw [AList.mem_keys, AList.keys, List.keys]
  simp

/-- Keys after `mergeInto`. -/
theorem mem_mergeInto (dst rel : RelationsCache) (q : String) :
    q ∈ mergeInto dst rel ↔ q ∈ dst ∨ q ∈ rel := by
  rw [mergeInto, mem_mergeEntries, mem_keys_iff_entry rel]

/-- Child sets after `mergeInto`: the old children and the string children of `rel`. -/
theorem mem_children_mergeInto (dst rel : RelationsCache) (q : String) (x : Value) :
    x ∈ children (mergeInto dst rel) q ↔
      x ∈ children dst q ∨ (x ∈ children rel q ∧ x.asString.isSome) := by
  rw [mergeInto, mem_children_mergeEntries, mem_children_iff_entry rel]
  constructor
  · rintro (h | ⟨e, he, h1, h2, h3⟩)
    · exact Or.inl h
    · exact Or.inr ⟨⟨e, he, h1, h2⟩, h3⟩
  · rintro (h | ⟨⟨e, he, h1, h2⟩, h3⟩)
    · exact Or.inl h
    · exact Or.inr ⟨e, he, h1, h2, h3⟩


/-! ## Lemmas on the BFS loop -/

theorem lookup_isSome_of_mem {β : Type} (m : GoMap β) (k : String) (h : k ∈ m) :
    ∃ b, m.lookup k = some b := by
  cases hl : m.lookup k with
  | none => exact absurd h (AList.lookup_eq_none.1 hl)
  | some b => exact ⟨b, rfl⟩

theorem mem_of_lookup_some {β : Type} (m : GoMap β) (k : String) (b : β)
    (h : m.lookup k = some b) : k ∈ m := by
  rw [← AList.lookup_isSome, h]; rfl

theorem mem_childKeys (cache : RelationsCache) (p c : String) :
    c ∈ childKeys cache p ↔ Edge cache p c := by
  unfold childKeys Edge children
  cases h : cache.lookup p with
  | none => simp [HashSet.New]
  | some ch =>
    simp only [HashSet.Values, List.mem_filterMap, Option.getD_some]
    constructor
    · rintro ⟨a, ha, hs⟩
      rw [Value.asString_eq_some] at hs
      exact hs ▸ ha
    · intro hc
      exact ⟨.str c, hc, rfl⟩

theorem childKeys_of_not_mem (cache : RelationsCache) (k : String) (h : k ∉ cache) :
    childKeys cache k = [] := by
  unfold childKeys
  rw [AList.lookup_eq_none.2 h]

/-- The calls recorded by `logKey` extend the calls recorded before the loop. -/
theorem bfsLoop_logKey_append (cache : RelationsCache) (fuel : Nat) :
    ∀ (queue : List String) (visited : StringSet) (calls : List String),
      bfsLoop logKey cache fuel queue visited calls =
        (bfsLoop logKey cache fuel queue visited []).map fun r => (r.1, calls ++ r.2) := by
  induction fuel with
  | zero =>
    intro queue visited calls
    cases queue <;> simp [bfsLoop]
  | succ n ih =>
    intro queue visited calls
    cases queue with
    | nil => simp [bfsLoop]
    | cons curr queue =>
      simp only [bfsLoop]
      cases visited.lookup curr with
      | some u => exact ih queue visited calls
      | none =>
        simp only [logKey, List.nil_append]
        rw [ih _ _ (calls ++ [curr]), ih _ _ [curr], Option.map_map]
        congr 1
        funext r
        simp

/-- Any callback sees exactly the calls that `logKey` records, in the same order. -/
theorem bfsLoop_eq_foldl {σ : Type} (f : σ → String → σ) (cache : RelationsCache)
    (fuel : Nat) :
    ∀ (queue : List String) (visited : StringSet) (acc : σ),
      bfsLoop f cache fuel queue visited acc =
        (bfsLoop logKey cache fuel queue visited []).map fun r => (r.1, r.2.foldl f acc) := by
  induction fuel with
  | zero =>
    intro queue visited acc
    cases queue <;> simp [bfsLoop]
  | succ n ih =>
    intro queue visited acc
    cases queue with
    | nil => simp [bfsLoop]
    | cons curr queue =>
      simp only [bfsLoop]
      cases visited.lookup curr with
      | some u => exact ih queue visited acc
      | none =>
        simp only [logKey, List.nil_append]
        rw [ih _ _ (f acc curr), bfsLoop_logKey_append _ _ _ _ [curr], Option.map_map]
        congr 1

theorem pendingChildren_insert_le (visited : StringSet) (curr : String)
    (es : List (Sigma fun _ : String => HashSet)) :
    pendingChildren (visited.insert curr ()) es ≤ pendingChildren visited es := by
  induction es with
  | nil => simp [pendingChildren]
  | cons e es ih =>
    simp only [pendingChildren]
    by_cases h : e.1 = curr
    · rw [h, AList.lookup_insert]
      simp only
      omega
    · rw [AList.lookup_insert_ne h]
      omega

/-- Expanding an unvisited key moves its children from the pending ones to the queue. -/
theorem pendingChildren_expand (visited : StringSet) (curr : String)
    (hc : visited.lookup curr = none) (es : List (Sigma fun _ : String => HashSet)) :
    pendingChildren (visited.insert curr ()) es +
        (match List.dlookup curr es with
          | some ch => (HashSet.Values ch).filterMap Value.asString
          | none => []).length ≤
      pendingChildren visited es := by
  induction es with
  | nil => simp [pendingChildren]
  | cons e es ih =>
    obtain ⟨k, set⟩ := e
    simp only [pendingChildren]
    by_cases h : k = curr
    · subst h
      rw [List.dlookup_cons_eq, AList.lookup_insert, hc]
      have := pendingChildren_insert_le visited k es
      simp only
      omega
    · have h2 : curr ≠ (⟨k, set⟩ : Sigma fun _ : String => HashSet).1 := fun e => h e.symm
      rw [List.dlookup_cons_ne _ _ h2, AList.lookup_insert_ne h]
      omega

/-- Termination: with enough fuel the loop empties the queue. -/
theorem bfsLoop_terminates {σ : Type} (f : σ → String → σ) (cache : RelationsCache)
    (fuel : Nat) :
    ∀ (queue : List String) (visited : StringSet) (acc : σ),
      queue.length + pendingChildren visited cache.entries ≤ fuel →
        ∃ r, bfsLoop f cache fuel queue visited acc = some r := by
  induction fuel with
  | zero =>
    intro queue visited acc h
    cases queue with
    | nil => exact ⟨_, rfl⟩
    | cons c q => simp at h
  | succ n ih =>
    intro queue visited acc h
    cases queue with
    | nil => exact ⟨_, rfl⟩
    | cons curr queue =>
      simp only [bfsLoop]
      cases hl : visited.lookup curr with
      | some u =>
        apply ih
        simp only [List.length_cons] at h
        omega
      | none =>
        apply ih
        have := pendingChildren_expand visited curr hl cache.entries
        simp only [List.length_cons] at h
        simp only [List.length_append, childKeys, AList.lookup]
        omega

/-- What the loop leaves in `visited`: the keys visited before, the queued keys, and
every child of a visited key, provided the children of the keys visited before are
visited or queued. -/
theorem bfsLoop_closed {σ : Type} (f : σ → String → σ) (cache : RelationsCache) (fuel : Nat) :
    ∀ (queue : List String) (visited : StringSet) (acc : σ) (r : StringSet × σ),
      (∀ p, p ∈ visited → ∀ c, Edge cache p c → c ∈ visited ∨ c ∈ queue) →
      bfsLoop f cache fuel queue visited acc = some r →
        (∀ k, k ∈ visited → k ∈ r.1) ∧ (∀ k, k ∈ queue → k ∈ r.1) ∧
          (∀ p, p ∈ r.1 → ∀ c, Edge cache p c → c ∈ r.1) := by
  induction fuel with
  | zero =>
    intro queue visited acc r H hr
    cases queue with
    | nil =>
      simp only [bfsLoop, Option.some.injEq] at hr
      subst hr
      refine ⟨fun k hk => hk, fun k hk => by simp at hk, fun p hp c hc => ?_⟩
      rcases H p hp c hc with h | h
      · exact h
      · simp at h
    | cons c q => simp [bfsLoop] at hr
  | succ n ih =>
    intro queue visited acc r H hr
    cases queue with
    | nil =>
      simp only [bfsLoop, Option.some.injEq] at hr
      subst hr
      refine ⟨fun k hk => hk, fun k hk => by simp at hk, fun p hp c hc => ?_⟩
      rcases H p hp c hc with h | h
      · exact h
      · simp at h
    | cons curr queue =>
      simp only [bfsLoop] at hr
      cases hl : visited.lookup curr with
      | some u =>
        rw [hl] at hr
        have hcv : curr ∈ visited := mem_of_lookup_some _ _ _ hl
        have H2 : ∀ p, p ∈ visited → ∀ c, Edge cache p c → c ∈ visited ∨ c ∈ queue := by
          intro p hp c hc
          rcases H p hp c hc with h | h
          · exact Or.inl h
          · rcases List.mem_cons.1 h with h | h
            · exact Or.inl (h ▸ hcv)
            · exact Or.inr h
        obtain ⟨h1, h2, h3⟩ := ih queue visited acc r H2 hr
        refine ⟨h1, fun k hk => ?_, h3⟩
        rcases List.mem_cons.1 hk with h | h
        · exact h1 k (h ▸ hcv)
        · exact h2 k h
      | none =>
        rw [hl] at hr
        have H2 : ∀ p, p ∈ visited.insert curr () → ∀ c, Edge cache p c →
            c ∈ visited.insert curr () ∨ c ∈ queue ++ childKeys cache curr := by
          intro p hp c hc
          rcases (AList.mem_insert _).1 hp with h | h
          · subst h
            exact Or.inr (List.mem_append.2 (Or.inr ((mem_childKeys _ _ _).2 hc)))
          · rcases H p h c hc with h | h
            · exact Or.inl ((AList.mem_insert _).2 (Or.inr h))
            · rcases List.mem_cons.1 h with h | h
              · exact Or.inl ((AList.mem_insert _).2 (Or.inl h))
              · exact Or.inr (List.mem_append.2 (Or.inl h))
        obtain ⟨h1, h2, h3⟩ := ih _ _ _ r H2 hr
        refine ⟨fun k hk => h1 k ((AList.mem_insert _).2 (Or.inr hk)), fun k hk => ?_, h3⟩
        rcases List.mem_cons.1 hk with h | h
        · exact h1 k ((AList.mem_insert _).2 (Or.inl h))
        · exact h2 k (List.mem_append.2 (Or.inl h))

/-- Every key the loop leaves in `visited` satisfies a property that holds of the keys
visited before and of the queued keys and that child edges preserve. -/
theorem bfsLoop_sound {σ : Type} (f : σ → String → σ) (cache : RelationsCache)
    (R : String → Prop) (hR : ∀ p c, R p → Edge cache p c → R c) (fuel : Nat) :
    ∀ (queue : List String) (visited : StringSet) (acc : σ) (r : StringSet × σ),
      (∀ k, k ∈ visited → R k) → (∀ k, k ∈ queue → R k) →
      bfsLoop f cache fuel queue visited acc = some r → ∀ k, k ∈ r.1 → R k := by
  induction fuel with
  | zero =>
    intro queue visited acc r hv hq hr
    cases queue with
    | nil =>
      simp only [bfsLoop, Option.some.injEq] at hr
      subst hr
      exact hv
    | cons c q => simp [bfsLoop] at hr
  | succ n ih =>
    intro queue visited acc r hv hq hr
    cases queue with
    | nil =>
      simp only [bfsLoop, Option.some.injEq] at hr
      subst hr
      exact hv
    | cons curr queue =>
      simp only [bfsLoop] at hr
      have hcurr : R curr := hq curr (List.mem_cons_self _ _)
      have hq2 : ∀ k, k ∈ queue → R k := fun k hk => hq k (List.mem_cons_of_mem _ hk)
      cases hl : visited.lookup curr with
      | some u =>
        rw [hl] at hr
        exact ih queue visited acc r hv hq2 hr
      | none =>
        rw [hl] at hr
        refine ih _ _ _ r ?_ ?_ hr
        · intro k hk
          rcases (AList.mem_insert _).1 hk with h | h
          · exact h ▸ hcurr
          · exact hv k h
        · intro k hk
          rcases List.mem_append.1 hk with h | h
          · exact hq2 k h
          · exact hR curr k hcurr ((mem_childKeys _ _ _).1 h)

/-- The recorded calls are the visited keys, each recorded once. -/
theorem bfsLoop_calls (cache : RelationsCache) (fuel : Nat) :
    ∀ (queue : List String) (visited : StringSet) (calls : List String)
      (r : StringSet × List String),
      (∀ k, k ∈ calls ↔ k ∈ visited) → calls.Nodup →
      bfsLoop logKey cache fuel queue visited calls = some r →
        (∀ k, k ∈ r.2 ↔ k ∈ r.1) ∧ r.2.Nodup := by
  induction fuel with
  | zero =>
    intro queue visited calls r hm hn hr
    cases queue with
    | nil =>
      simp only [bfsLoop, Option.some.injEq] at hr
      subst hr
      exact ⟨hm, hn⟩
    | cons c q => simp [bfsLoop] at hr
  | succ n ih =>
    intro queue visited calls r hm hn hr
    cases queue with
    | nil =>
      simp only [bfsLoop, Option.some.injEq] at hr
      subst hr
      exact ⟨hm, hn⟩
    | cons curr queue =>
      simp only [bfsLoop] at hr
      cases hl : visited.lookup curr with
      | some u =>
        rw [hl] at hr
        exact ih queue visited calls r hm hn hr
      | none =>
        rw [hl] at hr
        have hnot : curr ∉ calls := fun h => AList.lookup_eq_none.1 hl ((hm curr).1 h)
        refine ih _ _ _ r ?_ ?_ hr
        · intro k
          simp only [logKey, List.mem_append, List.mem_singleton, AList.mem_insert, hm k]
          tauto
        · simp only [logKey]
          rw [List.nodup_append]
          refine ⟨hn, List.nodup_singleton _, ?_⟩
          intro x hx hx2
          rw [List.mem_singleton] at hx2
          exact hnot (hx2 ▸ hx)

/-- The BFS of one bundle returns, whatever the callback. -/
theorem bfs_returns {σ : Type} (f : σ → String → σ) (cache : RelationsCache)
    (keys : StringSet) (acc : σ) : ∃ r, bfs f cache keys acc = some r :=
  bfsLoop_terminates f cache _ _ _ _ (le_refl _)

/-- The keys left in `visited` by the BFS of one bundle are the reachable keys. -/
theorem bfs_visited_iff {σ : Type} (f : σ → String → σ) (cache : RelationsCache)
    (keys : StringSet) (acc : σ) (r : StringSet × σ) (hr : bfs f cache keys acc = some r)
    (k : String) : k ∈ r.1 ↔ Reachable cache keys k := by
  constructor
  · refine bfsLoop_sound f cache (Reachable cache keys) ?_ _ _ _ _ r ?_ ?_ hr k
    · rintro p c ⟨s, hs, hp⟩ hc
      exact ⟨s, hs, hp.tail hc⟩
    · intro x hx
      exact absurd hx (AList.not_mem_empty x)
    · intro x hx
      exact ⟨x, AList.mem_keys.2 hx, Relation.ReflTransGen.refl⟩
  · rintro ⟨s, hs, hp⟩
    obtain ⟨_, h2, h3⟩ := bfsLoop_closed f cache _ _ _ _ r
      (fun p hp => absurd hp (AList.not_mem_empty p)) hr
    induction hp with
    | refl => exact h2 s (AList.mem_keys.1 hs)
    | tail _ hbc ih => exact h3 _ ih _ hbc

/-! ## Lemmas on additive cache writes -/

theorem mem_of_mem_children (c : RelationsCache) (p : String) (x : Value)
    (h : x ∈ children c p) : p ∈ c := by
  cases hl : c.lookup p with
  | none => simp [children, hl, HashSet.New] at h
  | some s => exact mem_of_lookup_some _ _ _ hl

theorem additive_refl (a : RelationsCache) : Additive a a :=
  fun _ hp => ⟨hp, fun _ hv => hv⟩

theorem additive_trans {a b c : RelationsCache} (h1 : Additive a b) (h2 : Additive b c) :
    Additive a c :=
  fun p hp => ⟨(h2 p (h1 p hp).1).1, fun v hv => (h2 p (h1 p hp).1).2 v ((h1 p hp).2 v hv)⟩

theorem additive_mergeInto (dst rel : RelationsCache) : Additive dst (mergeInto dst rel) :=
  fun p hp => ⟨(mem_mergeInto dst rel p).2 (Or.inl hp),
    fun v hv => (mem_children_mergeInto dst rel p v).2 (Or.inl hv)⟩

theorem additive_foldl_mergeInto (rels : List RelationsCache) (c : RelationsCache) :
    Additive c (rels.foldl mergeInto c) := by
  induction rels generalizing c with
  | nil => exact additive_refl c
  | cons r rs ih => exact additive_trans (additive_mergeInto c r) (ih _)

theorem additive_ensureSynced (rt : ResourceTracker) (server : String) :
    Additive rt.sharedRelationsCache
      (ensureSyncedSharedCacheOnHost rt server).sharedRelationsCache := by
  unfold ensureSyncedSharedCacheOnHost
  split
  · split
    · exact additive_mergeInto _ _
    · exact additive_refl _
  · exact additive_refl _

theorem lookup_insertMissingKeys (keys : List String) :
    ∀ (cache : RelationsCache) (p : String), p ∈ cache →
      (insertMissingKeys cache keys).lookup p = cache.lookup p := by
  induction keys with
  | nil => intro cache p _; rfl
  | cons k ks ih =>
    intro cache p hp
    simp only [insertMissingKeys]
    cases hl : cache.lookup k with
    | some s => exact ih cache p hp
    | none =>
      have hne : p ≠ k := fun e => AList.lookup_eq_none.1 hl (e ▸ hp)
      simp only
      rw [ih _ p ((AList.mem_insert _).2 (Or.inr hp)), AList.lookup_insert_ne hne]

theorem mem_insertMissingKeys (keys : List String) :
    ∀ (cache : RelationsCache) (p : String),
      p ∈ insertMissingKeys cache keys ↔ p ∈ cache ∨ p ∈ keys := by
  induction keys with
  | nil => intro cache p; simp [insertMissingKeys]
  | cons k ks ih =>
    intro cache p
    simp only [insertMissingKeys]
    cases hl : cache.lookup k with
    | some s =>
      have hk : k ∈ cache := mem_of_lookup_some _ _ _ hl
      simp only [ih, List.mem_cons]
      constructor
      · rintro (h | h)
        · exact Or.inl h
        · exact Or.inr (Or.inr h)
      · rintro (h | h | h)
        · exact Or.inl h
        · exact Or.inl (h ▸ hk)
        · exact Or.inr h
    | none =>
      simp only [ih, AList.mem_insert, List.mem_cons]
      tauto

theorem lookup_insertMissingKeys_new (keys : List String) :
    ∀ (cache : RelationsCache) (k : String), k ∈ keys → k ∉ cache →
      (insertMissingKeys cache keys).lookup k = some HashSet.New := by
  induction keys with
  | nil => intro cache k hk; simp at hk
  | cons k0 ks ih =>
    intro cache k hk hn
    simp only [insertMissingKeys]
    by_cases h : k = k0
    · subst h
      rw [AList.lookup_eq_none.2 hn]
      simp only
      rw [lookup_insertMissingKeys ks _ k ((AList.mem_insert _).2 (Or.inl rfl)),
        AList.lookup_insert]
    · have hks : k ∈ ks := by
        rcases List.mem_cons.1 hk with h1 | h1
        · exact absurd h1 h
        · exact h1
      cases hl : cache.lookup k0 with
      | some s => exact ih cache k hks hn
      | none =>
        refine ih _ k hks ?_
        intro hm
        rcases (AList.mem_insert _).1 hm with h1 | h1
        · exact h h1
        · exact hn h1

theorem additive_insertMissingKeys (cache : RelationsCache) (keys : List String) :
    Additive cache (insertMissingKeys cache keys) := by
  intro p hp
  refine ⟨(mem_insertMissingKeys keys cache p).2 (Or.inl hp), fun v hv => ?_⟩
  simpa [children, lookup_insertMissingKeys keys cache p hp] using hv

theorem syncRequired_iff (cache : RelationsCache) (keys : List String) :
    syncRequired cache keys = true ↔ ∃ k, k ∈ keys ∧ k ∉ cache := by
  induction keys with
  | nil => simp [syncRequired]
  | cons k ks ih =>
    simp only [syncRequired]
    cases hl : cache.lookup k with
    | none =>
      simp only [true_iff]
      exact ⟨k, List.mem_cons_self _ _, AList.lookup_eq_none.1 hl⟩
    | some s =>
      have hk : k ∈ cache := mem_of_lookup_some _ _ _ hl
      simp only [ih, List.mem_cons]
      constructor
      · rintro ⟨x, hx, hn⟩
        exact ⟨x, Or.inr hx, hn⟩
      · rintro ⟨x, hx | hx, hn⟩
        · exact absurd (hx ▸ hk) hn
        · exact ⟨x, hx, hn⟩

theorem additive_prepareCache (rt : ResourceTracker) (server : String) (keys : StringSet) :
    Additive rt.sharedRelationsCache (prepareCache rt server keys).sharedRelationsCache := by
  unfold prepareCache
  split
  · exact additive_trans (additive_ensureSynced rt server) (additive_insertMissingKeys _ _)
  · exact additive_refl _

theorem holdsStrings_children (rel : RelationsCache) (h : holdsStrings rel = true)
    (p : String) (v : Value) (hv : v ∈ children rel p) : v.asString.isSome = true := by
  obtain ⟨e, he, _, hx⟩ := (mem_children_iff_entry rel p v).1 hv
  simp only [holdsStrings, List.all_eq_true, HashSet.Values] at h
  exact h e he v hx

/-! ## The BFS closure of the worker -/

/-- C1: for every cache and every seed key set the BFS loop returns, and the keys it
marks visited, which are the keys it passes to the callback, are exactly the keys
reachable from a seed key by zero or more child edges of the cache; a key that is not
a key of the cache contributes no further keys when it is expanded. -/
theorem bfs_visits_exactly_reachable (cache : RelationsCache) (keys : StringSet) :
    ∃ visited calls, bfs logKey cache keys [] = some (visited, calls) ∧
      (∀ k, k ∈ visited ↔ Reachable cache keys k) ∧
      (∀ k, k ∈ calls ↔ Reachable cache keys k) ∧
      (∀ k, k ∉ cache → childKeys cache k = []) := by
  obtain ⟨⟨visited, calls⟩, hr⟩ := bfs_returns logKey cache keys []
  have hv := bfs_visited_iff logKey cache keys [] _ hr
  have hc := (bfsLoop_calls cache _ _ _ _ _
    (fun k => by simp [AList.not_mem_empty]) List.nodup_nil hr).1
  exact ⟨visited, calls, hr, hv, fun k => (hc k).trans (hv k),
    fun k hk => childKeys_of_not_mem cache k hk⟩

/-- C3: for every cache, cyclic or not, the BFS loop terminates (the fuel `bfsFuel`
is enough for it to empty the queue) and the list of keys it expands has no duplicate:
each key is passed to the callback, and has its children looked up, at most once per
bundle. Whatever the callback `f`, its final state is the fold of `f` over that
duplicate-free list. -/
theorem bfs_terminates_expands_once (cache : RelationsCache) (keys : StringSet) :
    ∃ visited calls, bfs logKey cache keys [] = some (visited, calls) ∧ calls.Nodup ∧
      ∀ (σ : Type) (f : σ → String → σ) (acc : σ),
        bfs f cache keys acc = some (visited, calls.foldl f acc) := by
  obtain ⟨⟨visited, calls⟩, hr⟩ := bfs_returns logKey cache keys []
  have hc := (bfsLoop_calls cache _ _ _ _ _
    (fun k => by simp [AList.not_mem_empty]) List.nodup_nil hr).2
  refine ⟨visited, calls, hr, hc, fun σ f acc => ?_⟩
  unfold bfs at hr ⊢
  rw [bfsLoop_eq_foldl, hr]
  rfl

/-- The cycle A -> B -> A from the seed A: both keys are expanded, once each. -/
theorem bfs_cycle_example :
    (bfs logKey (cacheOf [("A", [.str "B"]), ("B", [.str "A"])]) (stringSetOf ["A"]) []).map
        (fun r => r.2) = some ["A", "B"] := by
  decide

/-! ## Merging into the shared relations cache -/

/-- C4: mergeInto is per-parent-key set union. When the child sets of `rel` hold
strings, the keys of the result are the keys of `dst` and of `rel`, and for every
parent the child set of the result is the union of the child sets of `dst` and `rel`,
a missing entry counting as the empty set. -/
theorem mergeInto_is_union (dst rel : RelationsCache) (hrel : holdsStrings rel = true) :
    (∀ p, p ∈ mergeInto dst rel ↔ p ∈ dst ∨ p ∈ rel) ∧
      ∀ p v, v ∈ children (mergeInto dst rel) p ↔ v ∈ children dst p ∨ v ∈ children rel p := by
  refine ⟨mem_mergeInto dst rel, fun p v => ?_⟩
  rw [mem_children_mergeInto]
  constructor
  · rintro (h | ⟨h, _⟩)
    · exact Or.inl h
    · exact Or.inr h
  · rintro (h | h)
    · exact Or.inl h
    · exact Or.inr ⟨h, holdsStrings_children rel hrel p v h⟩

/-- Witness for C4: a merge of two string-valued caches sharing the parent "a". -/
theorem mergeInto_is_union_witness :
    holdsStrings (cacheOf [("a", [.str "y"]), ("b", [.str "z"])]) = true ∧
      ((∀ p, p ∈ mergeInto (cacheOf [("a", [.str "x"])])
            (cacheOf [("a", [.str "y"]), ("b", [.str "z"])]) ↔
          p ∈ cacheOf [("a", [.str "x"])] ∨ p ∈ cacheOf [("a", [.str "y"]), ("b", [.str "z"])]) ∧
        ∀ p v, v ∈ children (mergeInto (cacheOf [("a", [.str "x"])])
            (cacheOf [("a", [.str "y"]), ("b", [.str "z"])])) p ↔
          v ∈ children (cacheOf [("a", [.str "x"])]) p ∨
            v ∈ children (cacheOf [("a", [.str "y"]), ("b", [.str "z"])]) p) :=
  ⟨by decide, mergeInto_is_union _ _ (by decide)⟩

/-- C5: every write of the shared relations cache is additive: mergeInto, the sync
ensureSyncedSharedCacheOnHost built on it, the insertion of empty entries for missing
seed keys, and their sequence in the worker keep every key that was present and leave
its child set a superset of what it was. -/
theorem cache_writes_additive (rt : ResourceTracker) (server : String)
    (dst rel : RelationsCache) (keys : StringSet) :
    Additive dst (mergeInto dst rel) ∧
      Additive rt.sharedRelationsCache
        (ensureSyncedSharedCacheOnHost rt server).sharedRelationsCache ∧
      Additive dst (insertMissingKeys dst keys.keys) ∧
      Additive rt.sharedRelationsCache (prepareCache rt server keys).sharedRelationsCache :=
  ⟨additive_mergeInto dst rel, additive_ensureSynced rt server,
    additive_insertMissingKeys dst keys.keys, additive_prepareCache rt server keys⟩

/-- C6: cache merge is commutative: merging A then B into C yields the same adjacency
(same keys, same child set per key) as merging B then A. -/
theorem mergeInto_comm (C A B : RelationsCache) :
    SameAdjacency (mergeInto (mergeInto C A) B) (mergeInto (mergeInto C B) A) := by
  intro p
  refine ⟨?_, fun v => ?_⟩
  · simp only [mem_mergeInto]
    tauto
  · simp only [mem_children_mergeInto]
    tauto

/-- C7: cache merge is idempotent: once A has been merged into C, and whatever other
snapshots `others` were merged afterwards, merging A again leaves the adjacency
unchanged. -/
theorem mergeInto_idempotent (C A : RelationsCache) (others : List RelationsCache) :
    SameAdjacency (mergeInto (others.foldl mergeInto (mergeInto C A)) A)
      (others.foldl mergeInto (mergeInto C A)) := by
  have hadd := additive_foldl_mergeInto others (mergeInto C A)
  intro p
  refine ⟨?_, fun v => ?_⟩
  · rw [mem_mergeInto]
    constructor
    · rintro (h | h)
      · exact h
      · exact (hadd p ((mem_mergeInto C A p).2 (Or.inr h))).1
    · exact Or.inl
  · rw [mem_children_mergeInto]
    constructor
    · rintro (h | h)
      · exact h
      · have h1 : v ∈ children (mergeInto C A) p := (mem_children_mergeInto C A p v).2 (Or.inr h)
        exact (hadd p (mem_of_mem_children _ _ _ h1)).2 v h1
    · exact Or.inl

/-- C10: when the worker starts the BFS every seed key is a key of the shared cache.
A sync is required exactly when some seed key is missing; without one the tracker is
left as it was; with one, whatever the sync merged, every seed key still absent after
it is inserted with an empty child set and the entries present after it keep their
child sets. -/
theorem seed_keys_present_before_bfs (rt : ResourceTracker) (server : String)
    (keys : StringSet) :
    (∀ k, k ∈ keys → k ∈ (prepareCache rt server keys).sharedRelationsCache) ∧
      (syncRequired rt.sharedRelationsCache keys.keys = true ↔
        ∃ k, k ∈ keys ∧ k ∉ rt.sharedRelationsCache) ∧
      (syncRequired rt.sharedRelationsCache keys.keys = false →
        prepareCache rt server keys = rt) ∧
      (syncRequired rt.sharedRelationsCache keys.keys = true →
        (∀ k, k ∈ keys → k ∉ (ensureSyncedSharedCacheOnHost rt server).sharedRelationsCache →
          (prepareCache rt server keys).sharedRelationsCache.lookup k = some HashSet.New) ∧
        (∀ p, p ∈ (ensureSyncedSharedCacheOnHost rt server).sharedRelationsCache →
          (prepareCache rt server keys).sharedRelationsCache.lookup p =
            (ensureSyncedSharedCacheOnHost rt server).sharedRelationsCache.lookup p)) := by
  have hiff := syncRequired_iff rt.sharedRelationsCache keys.keys
  refine ⟨fun k hk => ?_, ?_, fun h => ?_, fun h => ⟨fun k hk hn => ?_, fun p hp => ?_⟩⟩
  · unfold prepareCache
    split
    · exact (mem_insertMissingKeys _ _ k).2 (Or.inr (AList.mem_keys.1 hk))
    · rename_i hs
      by_contra hn
      exact hs (hiff.2 ⟨k, AList.mem_keys.1 hk, hn⟩)
  · rw [hiff]
    constructor
    · rintro ⟨k, hk, hn⟩
      exact ⟨k, AList.mem_keys.2 hk, hn⟩
    · rintro ⟨k, hk, hn⟩
      exact ⟨k, AList.mem_keys.1 hk, hn⟩
  · simp [prepareCache, h]
  · simp only [prepareCache, h, if_true]
    exact lookup_insertMissingKeys_new _ _ k (AList.mem_keys.1 hk) hn
  · simp only [prepareCache, h, if_true]
    exact lookup_insertMissingKeys _ _ p hp

/-! ## Keys and the output accumulator -/

theorem cutAtFirst_append (sep : Char) (g rest : List Char) (h : sep ∉ g) :
    cutAtFirst sep (g ++ sep :: rest) = some (g, rest) := by
  induction g with
  | nil => simp [cutAtFirst]
  | cons c cs ih =>
    have hc : c ≠ sep := fun e => h (e ▸ List.mem_cons_self _ _)
    have hcs : sep ∉ cs := fun e => h (List.mem_cons_of_mem _ e)
    simp [cutAtFirst, hc, ih hcs]

theorem kindsOf_insert_self (m : GroupToKinds) (group : String) (ks : StringSet) :
    kindsOf (m.insert group ks) group = ks.keys := by
  simp [kindsOf]

theorem kindsOf_insert_ne (m : GroupToKinds) (group g : String) (ks : StringSet)
    (h : g ≠ group) : kindsOf (m.insert group ks) g = kindsOf m g := by
  simp [kindsOf, AList.lookup_insert_ne h]

/-- What `addKey` records for a key that has a "_": the part after the first "_" as a
kind under the rendering of the part before it, and nothing else. -/
theorem hasKind_addKey_of_cut (acc : GroupToKinds) (key : String) (a b : List Char)
    (h : cutAtFirst '_' key.data = some (a, b)) (g k : String) :
    HasKind (addKey acc key) g k ↔
      HasKind acc g k ∨ (g = renderedGroup (String.mk a) ∧ k = String.mk b) := by
  unfold addKey SplitN2 HasKind
  rw [h]
  simp only
  rw [show (if String.mk a = "core" then "" else String.mk a) = renderedGroup (String.mk a)
    from rfl]
  generalize renderedGroup (String.mk a) = group
  by_cases hg : g = group
  · subst hg
    rw [kindsOf_insert_self, ← AList.mem_keys, AList.mem_insert, AList.mem_keys]
    cases hl : acc.lookup g with
    | none => simp [kindsOf, hl]
    | some ks =>
      simp only [hl, Option.getD_some, kindsOf, true_and]
      tauto
  · rw [kindsOf_insert_ne _ _ _ _ hg]
    cases hl : acc.lookup group with
    | none => simp [kindsOf_insert_ne _ _ _ _ hg, hg]
    | some ks => simp [hg]

theorem hasKind_addKey_mono (acc : GroupToKinds) (key g k : String) (h : HasKind acc g k) :
    HasKind (addKey acc key) g k := by
  cases hc : cutAtFirst '_' key.data with
  | none =>
    unfold addKey SplitN2
    rw [hc]
    exact h
  | some ab =>
    obtain ⟨a, b⟩ := ab
    exact (hasKind_addKey_of_cut acc key a b hc g k).2 (Or.inl h)

theorem hasKind_foldl_mono (l : List String) (acc : GroupToKinds) (g k : String)
    (h : HasKind acc g k) : HasKind (l.foldl addKey acc) g k := by
  induction l generalizing acc with
  | nil => exact h
  | cons x xs ih => exact ih _ (hasKind_addKey_mono acc x g k h)

theorem hasKind_foldl_of_mem (l : List String) (acc : GroupToKinds) (key g k : String)
    (hk : key ∈ l) (h : ∀ m, HasKind (addKey m key) g k) :
    HasKind (l.foldl addKey acc) g k := by
  induction l generalizing acc with
  | nil => simp at hk
  | cons x xs ih =>
    rcases List.mem_cons.1 hk with e | e
    · subst e
      exact hasKind_foldl_mono xs _ g k (h acc)
    · exact ih _ e

/-- The key `group_kind` is cut into `group` and `kind` when `group` has no "_". -/
theorem cutAtFirst_key (group kind : String) (h : '_' ∉ group.data) :
    cutAtFirst '_' (group ++ "_" ++ kind).data = some (group.data, kind.data) := by
  have : (group ++ "_" ++ kind).data = group.data ++ '_' :: kind.data := by
    simp [String.data_append]
  rw [this, cutAtFirst_append _ _ _ h]

/-- C2: the worker returns for every bundle, every seed key is visited, and the
accumulator built by addKey then holds, for each seed key `group_kind`, the kind under
the group (the sentinel "core" rendered as ""), whatever edges the cache has and
whatever the accumulator held before. -/
theorem seed_keys_in_accumulator (rt : ResourceTracker) (server : String) (keys : StringSet)
    (acc : GroupToKinds) :
    ∃ rt1 visited acc1, analyzeBundle addKey rt server keys acc = some (rt1, visited, acc1) ∧
      ∀ k, k ∈ keys → k ∈ visited ∧
        ∀ group kind : String, '_' ∉ group.data → k = group ++ "_" ++ kind →
          HasKind acc1 (renderedGroup group) kind := by
  obtain ⟨⟨visited, calls⟩, hr⟩ :=
    bfs_returns logKey (prepareCache rt server keys).sharedRelationsCache keys []
  have hv := bfs_visited_iff logKey _ keys [] _ hr
  have hc := (bfsLoop_calls _ _ _ _ _ _
    (fun k => by simp [AList.not_mem_empty]) List.nodup_nil hr).1
  have hacc : bfs addKey (prepareCache rt server keys).sharedRelationsCache keys acc =
      some (visited, calls.foldl addKey acc) := by
    unfold bfs at hr ⊢
    rw [bfsLoop_eq_foldl, hr]
    rfl
  refine ⟨prepareCache rt server keys, visited, calls.foldl addKey acc, ?_, fun k hk => ?_⟩
  · simp [analyzeBundle, hacc]
  · have hkv : k ∈ visited := (hv k).2 ⟨k, hk, Relation.ReflTransGen.refl⟩
    refine ⟨hkv, fun group kind hg he => ?_⟩
    refine hasKind_foldl_of_mem calls acc k _ _ ((hc k).2 hkv) (fun m => ?_)
    have hcut := cutAtFirst_key group kind hg
    rw [← he] at hcut
    exact (hasKind_addKey_of_cut m k _ _ hcut _ _).2 (Or.inr ⟨rfl, rfl⟩)

/-- C8, as stated, fails: the key built for the group "core" is filed under the group
"", not under "core", and the key built for a group with a "_" is cut inside the
group. -/
theorem addKey_resourceKey_counterexample :
    resourceKey "core" "Pod" = "core_Pod" ∧
      "Pod" ∉ kindsOf (addKey ∅ (resourceKey "core" "Pod")) "core" ∧
      kindsOf (addKey ∅ (resourceKey "core" "Pod")) "" = ["Pod"] ∧
      resourceKey "a_b" "Pod" = "a_b_Pod" ∧
      "Pod" ∉ kindsOf (addKey ∅ (resourceKey "a_b" "Pod")) "a_b" ∧
      kindsOf (addKey ∅ (resourceKey "a_b" "Pod")) "a" = ["b_Pod"] := by
  decide

/-- C8, amended: for every pair whose group has no "_", addKey applied to the key
`normalize(group) + "_" + kind` records exactly one pair: the kind under the original
group, the empty group staying "" and the group "core" being filed under "" as well. -/
theorem addKey_resourceKey_roundtrip (acc : GroupToKinds) (group kind : String)
    (h : '_' ∉ group.data) (g k : String) :
    HasKind (addKey acc (resourceKey group kind)) g k ↔
      HasKind acc g k ∨ (g = (if group = "core" then "" else group) ∧ k = kind) := by
  have hn : '_' ∉ (if group = "" then "core" else group).data := by
    split
    · decide
    · exact h
  have hcut := cutAtFirst_key (if group = "" then "core" else group) kind hn
  rw [hasKind_addKey_of_cut acc (resourceKey group kind) _ _ hcut]
  have hr : renderedGroup (String.mk (if group = "" then "core" else group).data) =
      (if group = "core" then "" else group) := by
    unfold renderedGroup
    by_cases h0 : group = ""
    · subst h0
      decide
    · simp [h0]
  rw [hr]

/-- Witness for the amended C8: the core group, with a kind that has a "_". -/
theorem addKey_resourceKey_roundtrip_witness :
    '_' ∉ "".data ∧ ∀ g k : String,
      HasKind (addKey ∅ (resourceKey "" "Pod_Template")) g k ↔
        HasKind ∅ g k ∨ (g = (if "" = "core" then "" else "") ∧ k = "Pod_Template") :=
  ⟨by decide, addKey_resourceKey_roundtrip ∅ "" "Pod_Template" (by decide)⟩

set_option maxRecDepth 100000 in
/-- C9: for the cache with the edges apps_Deployment -> core_Pod and
core_Pod -> core_ConfigMap and the seed apps_Deployment, the worker visits
apps_Deployment, core_Pod and core_ConfigMap and nothing else, and the document printed
from the accumulator has two entries: the group "" with the kinds ConfigMap and Pod,
and the group apps with the kind Deployment, each with the clusters "*". -/
theorem scenario_closure_and_document :
    (analyzeBundle logKey scenarioTracker "https://kubernetes.default.svc" scenarioKeys
        []).map (fun r => (r.2.1.keys, r.2.2)) =
      some (["core_ConfigMap", "core_Pod", "apps_Deployment"],
        ["apps_Deployment", "core_Pod", "core_ConfigMap"]) ∧
    (analyzeBundle addKey scenarioTracker "https://kubernetes.default.svc" scenarioKeys
        ∅).map (fun r => inclusionEntries r.2.2) =
      some [⟨"", ["ConfigMap", "Pod"], ["*"]⟩, ⟨"apps", ["Deployment"], ["*"]⟩] ∧
    (analyzeBundle addKey scenarioTracker "https://kubernetes.default.svc" scenarioKeys
        ∅).map (fun r => printInclusions r.2.2) =
      some ("resource.inclusions: |\n" ++
        "  - apiGroups:\n    - \"\"\n    kinds:\n    - ConfigMap\n    - Pod\n" ++
        "    clusters:\n    - \"*\"\n" ++
        "  - apiGroups:\n    - apps\n    kinds:\n    - Deployment\n" ++
        "    clusters:\n    - \"*\"\n") := by
  decide

/-! ## Determinism of the rendering -/

theorem le_data_iff (a b : String) : a.data ≤ b.data ↔ a ≤ b :=
  String.le_iff_toList_le.symm

theorem sortStrings_perm (l : List String) : (sortStrings l).Perm l :=
  List.perm_insertionSort _ l

theorem sortStrings_sorted_data (l : List String) :
    (sortStrings l).Sorted (fun a b => a.data ≤ b.data) := by
  haveI : IsTotal String (fun a b => a.data ≤ b.data) :=
    ⟨fun a b => by simp only [le_data_iff]; exact le_total a b⟩
  haveI : IsTrans String (fun a b => a.data ≤ b.data) :=
    ⟨fun a b c => by simp only [le_data_iff]; exact le_trans⟩
  exact List.sorted_insertionSort _ l

theorem sortStrings_sorted_lt (l : List String) (h : l.Nodup) :
    (sortStrings l).Sorted (· < ·) := by
  have h1 : (sortStrings l).Sorted (· ≤ ·) :=
    (sortStrings_sorted_data l).imp fun hab => (le_data_iff _ _).1 hab
  exact h1.lt_of_le ((sortStrings_perm l).nodup_iff.2 h)

theorem sortStrings_eq_of_perm {l1 l2 : List String} (h : l1.Perm l2) :
    sortStrings l1 = sortStrings l2 := by
  haveI : IsAntisymm String (fun a b => a.data ≤ b.data) :=
    ⟨fun a b hab hba => le_antisymm ((le_data_iff _ _).1 hab) ((le_data_iff _ _).1 hba)⟩
  exact List.eq_of_perm_of_sorted
    (((sortStrings_perm l1).trans h).trans (sortStrings_perm l2).symm)
    (sortStrings_sorted_data l1) (sortStrings_sorted_data l2)

theorem kindsOf_nodup (m : GroupToKinds) (g : String) : (kindsOf m g).Nodup :=
  AList.keys_nodup _

theorem inclusionEntries_congr (a b : GroupToKinds) (h : SameContents a b) :
    inclusionEntries a = inclusionEntries b := by
  have hkeys : sortStrings a.keys = sortStrings b.keys := by
    apply sortStrings_eq_of_perm
    rw [List.perm_ext_iff_of_nodup a.keys_nodup b.keys_nodup]
    intro g
    rw [← AList.mem_keys, ← AList.mem_keys]
    exact (h g).1
  have hkinds : ∀ g, sortStrings (kindsOf a g) = sortStrings (kindsOf b g) := by
    intro g
    apply sortStrings_eq_of_perm
    rw [List.perm_ext_iff_of_nodup (kindsOf_nodup a g) (kindsOf_nodup b g)]
    exact (h g).2
  unfold inclusionEntries
  rw [hkeys]
  apply List.map_congr_left
  intro g _
  rw [hkinds g]

/-- C11: printInclusions is determined by the contents of its map. It prints one entry
per group key, in strictly ascending order of the group key (the core group, key "" or
"core", is shown as ""); the kinds of each entry are exactly the kinds recorded under
the group, in strictly ascending order, so without repetition; every entry has the
clusters "*"; and two maps with the same contents give the same text. -/
theorem printInclusions_deterministic (m : GroupToKinds) :
    (∃ groups : List String, groups.Perm m.keys ∧ groups.Sorted (· < ·) ∧
        inclusionEntries m = groups.map fun g =>
          { apiGroup := if g = "" ∨ g = "core" then "" else g
            kinds := sortStrings (kindsOf m g)
            clusters := ["*"] }) ∧
      (∀ g, (sortStrings (kindsOf m g)).Sorted (· < ·) ∧
        ∀ k, k ∈ sortStrings (kindsOf m g) ↔ HasKind m g k) ∧
      (printInclusions m = String.join
        (("resource.inclusions: |" :: (inclusionEntries m).flatMap entryLines).map
          fun line => line ++ "\n")) ∧
      ∀ m2, SameContents m m2 → printInclusions m = printInclusions m2 := by
  refine ⟨⟨sortStrings m.keys, sortStrings_perm _, sortStrings_sorted_lt _ m.keys_nodup, rfl⟩,
    fun g => ⟨sortStrings_sorted_lt _ (kindsOf_nodup m g), fun k => ?_⟩, rfl, fun m2 h => ?_⟩
  · exact (sortStrings_perm (kindsOf m g)).mem_iff
  · unfold printInclusions
    rw [inclusionEntries_congr m m2 h]

/-! ## Extraction of the query results -/

theorem extractRow_eq_spec (row : Any) (r : Option ResourceInfo) (h : extractRow row = some r) :
    r = rowInfoSpec row := by
  cases row with
  | obj info =>
    simp only [extractRow] at h
    simp only [rowInfoSpec]
    cases hk : Any.field info "kind" with
    | str kind =>
      simp only [hk] at h
      by_cases hd : kind = "Namespace" ∨ kind = "Node" ∨ kind = "APIService"
      · simp only [hd, if_true, Option.some.injEq] at h
        subst h
        have : kind ∈ ["Namespace", "Node", "APIService"] := by simpa using hd
        cases Any.field info "name" <;> cases Any.field info "metadata" <;> simp [this]
      · have hn : kind ∉ ["Namespace", "Node", "APIService"] := by simpa using hd
        simp only [hd, if_false] at h
        cases hname : Any.field info "name" with
        | str name =>
          simp only [hname] at h
          cases hm : Any.field info "metadata" with
          | obj metadata =>
            simp only [hm] at h
            have hg : groupOfAPIVersion "" = "" := by decide
            cases hns : Any.field metadata "namespace" <;> simp only [hns] at h <;>
              cases hv : Any.field info "apiVersion" <;> simp_all
          | _ => simp_all
        | _ => simp_all
    | _ => simp_all
  | _ =>
    simp only [extractRow, Option.some.injEq] at h
    subst h
    rfl

theorem extractRow_of_wellFormed (row : Any) (h : wellFormedRow row = true) :
    extractRow row = some (rowInfoSpec row) := by
  cases hr : extractRow row with
  | some r => rw [extractRow_eq_spec row r hr]
  | none =>
    exfalso
    cases row with
    | obj info =>
      simp only [extractRow] at hr
      simp only [wellFormedRow] at h
      cases hk : Any.field info "kind" with
      | str kind =>
        simp only [hk] at h hr
        by_cases hd : kind = "Namespace" ∨ kind = "Node" ∨ kind = "APIService"
        · simp [hd] at hr
        · simp only [hd, if_false] at h hr
          cases hname : Any.field info "name" with
          | str name =>
            simp only [hname] at h hr
            cases hm : Any.field info "metadata" with
            | obj metadata =>
              simp only [hm] at h hr
              cases hns : Any.field metadata "namespace" <;> simp_all
            | _ => simp_all
          | _ => simp_all
      | _ => simp_all
    | _ => simp [extractRow] at hr

theorem rowInfoSpec_kind (row : Any) (i : ResourceInfo) (h : rowInfoSpec row = some i) :
    i.Kind ≠ "Namespace" ∧ i.Kind ≠ "Node" ∧ i.Kind ≠ "APIService" := by
  cases row with
  | obj info =>
    simp only [rowInfoSpec] at h
    split at h
    · split at h
      · simp at h
      · rename_i hn
        simp only [Option.some.injEq] at h
        subst h
        simpa using hn
    · simp at h
  | _ => simp [rowInfoSpec] at h

theorem extractRows_eq_spec (rows : List Any) :
    ∀ l, extractRows rows = some l → l = rows.filterMap rowInfoSpec := by
  induction rows with
  | nil =>
    intro l h
    simp only [extractRows, Option.some.injEq] at h
    simp [← h]
  | cons row rest ih =>
    intro l h
    simp only [extractRows] at h
    cases hr : extractRow row with
    | none => simp [hr] at h
    | some r =>
      have hspec := extractRow_eq_spec row r hr
      cases hrest : extractRows rest with
      | none => simp [hr, hrest] at h
      | some l2 =>
        have h2 := ih l2 hrest
        simp only [hr, hrest] at h
        cases r with
        | none =>
          simp only [Option.some.injEq] at h
          simp [← h, List.filterMap_cons, ← hspec, h2]
        | some info =>
          simp only [Option.some.injEq] at h
          simp [← h, List.filterMap_cons, ← hspec, h2]

theorem extractRows_of_wellFormed (rows : List Any)
    (h : ∀ r, r ∈ rows → wellFormedRow r = true) :
    extractRows rows = some (rows.filterMap rowInfoSpec) := by
  induction rows with
  | nil => rfl
  | cons row rest ih =>
    have h1 := extractRow_of_wellFormed row (h row (List.mem_cons_self _ _))
    have h2 := ih fun r hr => h r (List.mem_cons_of_mem _ hr)
    simp only [extractRows, h1, h2, List.filterMap_cons]
    cases rowInfoSpec row <;> rfl

/-- C15: the list returned by extractResourceInfo never holds a resource of kind
Namespace, Node or APIService; and when the rows of the result are well formed (no
type assertion panics) the function returns, in row order, one ResourceInfo for each
row that has a kind other than these three, a name and a metadata object, carrying the
kind, the group part of the apiVersion, the name and metadata.namespace, and nothing
for the other rows. -/
theorem extractResourceInfo_rows (queryResult : QueryResult) (variableName : String) :
    (∀ l, extractResourceInfo queryResult variableName = some l →
      ∀ i, i ∈ l → i.Kind ≠ "Namespace" ∧ i.Kind ≠ "Node" ∧ i.Kind ≠ "APIService") ∧
    (∀ rows, Any.field queryResult.Data variableName = .arr rows →
      (∀ r, r ∈ rows → wellFormedRow r = true) →
        extractResourceInfo queryResult variableName = some (rows.filterMap rowInfoSpec)) := by
  constructor
  · intro l h i hi
    unfold extractResourceInfo at h
    split at h
    · simp only [Option.some.injEq] at h
      subst h
      simp at hi
    · rename_i items _
      rw [extractRows_eq_spec items l h] at hi
      obtain ⟨row, _, hrow⟩ := List.mem_filterMap.1 hi
      exact rowInfoSpec_kind row i hrow
    · simp at h
  · intro rows hrows hwf
    unfold extractResourceInfo
    rw [hrows]
    exact extractRows_of_wellFormed rows hwf

/-- A result with a Pod, a Namespace, a row without a kind, a Deployment and a row that
is not a map: the Pod and the Deployment are returned, in this order. -/
theorem extractResourceInfo_example :
    extractResourceInfo
      { Data := [("c", .arr
          [.obj [("kind", .str "Pod"), ("apiVersion", .str "v1"), ("name", .str "web-0"),
              ("metadata", .obj [("namespace", .str "default")])],
            .obj [("kind", .str "Namespace"), ("apiVersion", .str "v1"), ("name", .str "default"),
              ("metadata", .obj [])],
            .obj [("name", .str "x")],
            .obj [("kind", .str "Deployment"), ("apiVersion", .str "apps/v1"),
              ("name", .str "web"), ("metadata", .obj [("namespace", .str "default")])],
            .str "text"])] } "c" =
      some [{ Kind := "Pod", Group := "", Name := "web-0", Namespace := "default" },
        { Kind := "Deployment", Group := "apps", Name := "web", Namespace := "default" }] := by
  decide

/-! ## getChildren -/

theorem getChildren_of_skipped (exec : Executor) (q : QueryServer) (parent : ResourceInfo)
    (h : (boolAt leafKinds parent.Kind || boolAt blackListedKinds parent.Kind) = true) :
    getChildren exec q parent = (q, .ok []) := by
  simp only [getChildren, h, if_true]

theorem getChildren_of_visitedKind (exec : Executor) (q : QueryServer) (parent : ResourceInfo)
    (b : Bool) (h : q.VisitedKinds.lookup (visitedKindKey parent) = some b) :
    getChildren exec q parent = (q, .ok []) := by
  unfold getChildren
  split
  · rfl
  · simp only [h]

/-- A parent that is neither skipped nor of a kind already visited is queried. -/
theorem getChildren_calls_of_queried (exec : Executor) (q : QueryServer)
    (parent : ResourceInfo)
    (h1 : (boolAt leafKinds parent.Kind || boolAt blackListedKinds parent.Kind) = false)
    (h2 : q.VisitedKinds.lookup (visitedKindKey parent) = none) :
    ∃ o, (getChildren exec q parent).1.calls = q.calls ++ [recordedCall parent o] := by
  cases he : exec (queryString parent) parent.Namespace with
  | error err => exact ⟨.failed err, by simp [getChildren, h1, h2, he]⟩
  | ok res =>
    cases hx : extractResourceInfo res "c" with
    | none => exact ⟨.panic, by simp [getChildren, h1, h2, he, hx]⟩
    | some l => exact ⟨.ok l, by simp [getChildren, h1, h2, he, hx]⟩

/-- C12, at the failing input: neither table has the key "Pod" or "Node" (the black
list is keyed "pods", "nodes"), so on a new server getChildren executes a graph query
for a Pod and for a Node, whatever the query engine answers. -/
theorem getChildren_queries_pod_and_node (exec : Executor) :
    boolAt leafKinds "Pod" = false ∧ boolAt blackListedKinds "Pod" = false ∧
    boolAt leafKinds "Node" = false ∧ boolAt blackListedKinds "Node" = false ∧
    ((getChildren exec NewQueryServer
        { Kind := "Pod", Group := "", Name := "web-0", Namespace := "default" }).1.calls.map
      fun c => (c.queryStr, c.ns)) =
      [("MATCH (p: core.Pod\x7bname:\"web-0\"\x7d) -> (c) RETURN c.kind, c.apiVersion, " ++
          "c.metadata.namespace", "default")] ∧
    ((getChildren exec NewQueryServer
        { Kind := "Node", Group := "", Name := "worker-1", Namespace := "" }).1.calls.map
      fun c => (c.queryStr, c.ns)) =
      [("MATCH (p: core.Node\x7bname:\"worker-1\"\x7d) -> (c) RETURN c.kind, c.apiVersion, " ++
          "c.metadata.namespace", "")] := by
  refine ⟨by decide, by decide, by decide, by decide, ?_, ?_⟩
  · obtain ⟨o, ho⟩ := getChildren_calls_of_queried exec NewQueryServer
      { Kind := "Pod", Group := "", Name := "web-0", Namespace := "default" }
      (by decide) (by decide)
    rw [ho]
    simp only [NewQueryServer, recordedCall, List.nil_append, List.map_cons, List.map_nil]
    decide
  · obtain ⟨o, ho⟩ := getChildren_calls_of_queried exec NewQueryServer
      { Kind := "Node", Group := "", Name := "worker-1", Namespace := "" }
      (by decide) (by decide)
    rw [ho]
    simp only [NewQueryServer, recordedCall, List.nil_append, List.map_cons, List.map_nil]
    decide

/-- The part of C12 that holds: a parent whose kind is a key of `leafKinds` or of
`blackListedKinds` is not queried and gets no children. -/
theorem getChildren_leaf_or_blacklisted (exec : Executor) (q : QueryServer)
    (parent : ResourceInfo)
    (h : parent.Kind ∈ leafKinds.map Prod.fst ∨ parent.Kind ∈ blackListedKinds.map Prod.fst) :
    getChildren exec q parent = (q, .ok []) := by
  apply getChildren_of_skipped
  generalize parent.Kind = kind at h ⊢
  simp only [leafKinds, blackListedKinds, List.map_cons, List.map_nil, List.mem_cons,
    List.mem_singleton, List.not_mem_nil, or_false] at h
  rcases h with h | h
  · rcases h with h | h | h | h | h | h | h | h | h | h | h | h | h | h | h | h <;>
      subst h <;> decide
  · rcases h with h | h | h | h | h | h | h | h | h <;> subst h <;> decide

/-! ## The depth-first walk -/

/-- What `getChildren` does to the record of calls and what it returns. -/
theorem getChildren_cases (exec : Executor) (q : QueryServer) (parent : ResourceInfo) :
    getChildren exec q parent = (q, .ok []) ∨
    (q.VisitedKinds.lookup (visitedKindKey parent) = none ∧
      ((∃ err, getChildren exec q parent =
          ({ q with calls := q.calls ++ [recordedCall parent (.failed err)] }, .failed err)) ∨
        getChildren exec q parent =
          ({ q with calls := q.calls ++ [recordedCall parent .panic] }, .panic) ∨
        ∃ res l, exec (queryString parent) parent.Namespace = .ok res ∧
          extractResourceInfo res "c" = some l ∧
          getChildren exec q parent =
            ({ VisitedKinds := q.VisitedKinds.insert (visitedKindKey parent) true
               calls := q.calls ++ [recordedCall parent (.ok l)] }, .ok l))) := by
  by_cases h1 : (boolAt leafKinds parent.Kind || boolAt blackListedKinds parent.Kind) = true
  · exact Or.inl (getChildren_of_skipped exec q parent h1)
  · cases h2 : q.VisitedKinds.lookup (visitedKindKey parent) with
    | some b => exact Or.inl (getChildren_of_visitedKind exec q parent b h2)
    | none =>
      refine Or.inr ⟨rfl, ?_⟩
      cases he : exec (queryString parent) parent.Namespace with
      | error err => exact Or.inl ⟨err, by simp [getChildren, h1, h2, he]⟩
      | ok res =>
        cases hx : extractResourceInfo res "c" with
        | none => exact Or.inr (Or.inl (by simp [getChildren, h1, h2, he, hx]))
        | some l => exact Or.inr (Or.inr ⟨res, l, rfl, hx, by simp [getChildren, h1, h2, he, hx]⟩)

theorem callsClosed_mono {calls : List QueryCall} {v w : ResourceInfoSet}
    (h : CallsClosed calls v) (hvw : ∀ u, u ∈ v → u ∈ w) : CallsClosed calls w :=
  fun c hc => ⟨hvw _ (h c hc).1, fun l hl x hx => hvw _ ((h c hc).2 l hl x hx)⟩

theorem callsClosed_append {a b : List QueryCall} {v : ResourceInfoSet}
    (ha : CallsClosed a v) (hb : CallsClosed b v) : CallsClosed (a ++ b) v := by
  intro c hc
  rcases List.mem_append.1 hc with h | h
  · exact ha c h
  · exact hb c h

/-- The calls that `getChildren` records are for its parent, and a recorded success
carries the children that are returned. -/
theorem getChildren_calls (exec : Executor) (q : QueryServer) (parent : ResourceInfo) :
    ∃ n0, (getChildren exec q parent).1.calls = q.calls ++ n0 ∧
      ∀ c, c ∈ n0 → c.parent = parent ∧
        ∀ l, c.outcome = .ok l → (getChildren exec q parent).2 = .ok l := by
  rcases getChildren_cases exec q parent with h0 | ⟨_, ⟨err, h1⟩ | h1 | ⟨res, l, _, _, h1⟩⟩
  · exact ⟨[], by simp [h0], fun c hc => by simp at hc⟩
  · refine ⟨[recordedCall parent (.failed err)], by simp [h1], fun c hc => ?_⟩
    rw [List.mem_singleton] at hc
    subst hc
    exact ⟨rfl, fun l hl => by simp [recordedCall] at hl⟩
  · refine ⟨[recordedCall parent .panic], by simp [h1], fun c hc => ?_⟩
    rw [List.mem_singleton] at hc
    subst hc
    exact ⟨rfl, fun l hl => by simp [recordedCall] at hl⟩
  · refine ⟨[recordedCall parent (.ok l)], by simp [h1], fun c hc => ?_⟩
    rw [List.mem_singleton] at hc
    subst hc
    refine ⟨rfl, fun l2 hl => ?_⟩
    simp only [recordedCall, Outcome.ok.injEq] at hl
    rw [h1, hl]

/-- The facts about one run of the loop over the children, given the same facts about
the recursive call. -/
theorem traverseChildren_facts
    (dfs : QueryServer → Option ResourceInfo → ResourceInfoSet →
      Option (QueryServer × ResourceInfoSet × Outcome Unit))
    (hdfs : ∀ q info v r, dfs q info v = some r →
      (∀ u, u ∈ v → u ∈ r.2.1) ∧ (∀ i, info = some i → i ∈ r.2.1) ∧
        ∃ new, r.1.calls = q.calls ++ new ∧ (r.2.2 ≠ .panic → CallsClosed new r.2.1)) :
    ∀ (children : List ResourceInfo) (q : QueryServer) (v : ResourceInfoSet)
      (r : QueryServer × ResourceInfoSet × Outcome Unit),
      traverseChildren dfs children q v = some r →
        (∀ u, u ∈ v → u ∈ r.2.1) ∧ (r.2.2 = .ok () ∨ r.2.2 = .panic) ∧
          (r.2.2 ≠ .panic → ∀ c, c ∈ children → c ∈ r.2.1) ∧
          ∃ new, r.1.calls = q.calls ++ new ∧ (r.2.2 ≠ .panic → CallsClosed new r.2.1) := by
  intro children
  induction children with
  | nil =>
    intro q v r h
    simp only [traverseChildren, Option.some.injEq] at h
    subst h
    exact ⟨fun u hu => hu, Or.inl rfl, fun _ c hc => by simp at hc,
      [], by simp, fun _ c hc => by simp at hc⟩
  | cons child rest ih =>
    intro q v r h
    simp only [traverseChildren] at h
    cases hc : dfs q (some child) v with
    | none => simp [hc] at h
    | some r1 =>
      obtain ⟨q1, v1, st⟩ := r1
      obtain ⟨hm1, hi1, new1, hcalls1, hclosed1⟩ := hdfs q (some child) v _ hc
      simp only at hm1 hi1 hcalls1 hclosed1
      cases st with
      | panic =>
        simp only [hc, Option.some.injEq] at h
        subst h
        exact ⟨hm1, Or.inr rfl, fun hp => absurd rfl hp, new1, hcalls1, fun hp => absurd rfl hp⟩
      | ok u =>
        simp only [hc] at h
        obtain ⟨hm2, hst, hch, new2, hcalls2, hclosed2⟩ := ih q1 v1 r h
        refine ⟨fun x hx => hm2 x (hm1 x hx), hst, fun hp c hcm => ?_, new1 ++ new2, ?_,
          fun hp => ?_⟩
        · rcases List.mem_cons.1 hcm with e | e
          · exact hm2 c (e ▸ hi1 child rfl)
          · exact hch hp c e
        · rw [hcalls2, hcalls1, List.append_assoc]
        · exact callsClosed_append (callsClosed_mono (hclosed1 (by simp)) hm2) (hclosed2 hp)
      | failed err =>
        simp only [hc] at h
        obtain ⟨hm2, hst, hch, new2, hcalls2, hclosed2⟩ := ih q1 v1 r h
        refine ⟨fun x hx => hm2 x (hm1 x hx), hst, fun hp c hcm => ?_, new1 ++ new2, ?_,
          fun hp => ?_⟩
        · rcases List.mem_cons.1 hcm with e | e
          · exact hm2 c (e ▸ hi1 child rfl)
          · exact hch hp c e
        · rw [hcalls2, hcalls1, List.append_assoc]
        · exact callsClosed_append (callsClosed_mono (hclosed1 (by simp)) hm2) (hclosed2 hp)

/-- The facts about one call of the walk: the set only grows, the node is in it, and
unless the walk panics the set holds the parent of every query made, failed ones
included, and every child returned by a query that succeeded. -/
theorem depthFirstTraversal_facts (exec : Executor) (fuel : Nat) :
    ∀ (q : QueryServer) (info : Option ResourceInfo) (v : ResourceInfoSet)
      (r : QueryServer × ResourceInfoSet × Outcome Unit),
      depthFirstTraversal exec fuel q info v = some r →
        (∀ u, u ∈ v → u ∈ r.2.1) ∧ (∀ i, info = some i → i ∈ r.2.1) ∧
          ∃ new, r.1.calls = q.calls ++ new ∧ (r.2.2 ≠ .panic → CallsClosed new r.2.1) := by
  induction fuel with
  | zero =>
    intro q info v r h
    simp [depthFirstTraversal] at h
  | succ n ih =>
    intro q info v r h
    cases info with
    | none =>
      simp only [depthFirstTraversal, Option.some.injEq] at h
      subst h
      exact ⟨fun u hu => hu, fun i hi => by simp at hi, [], by simp,
        fun _ c hc => by simp at hc⟩
    | some i =>
      simp only [depthFirstTraversal] at h
      cases hl : v.lookup i with
      | some u =>
        simp only [hl, Option.some.injEq] at h
        subst h
        refine ⟨fun u hu => hu, fun j hj => ?_, [], by simp, fun _ c hc => by simp at hc⟩
        simp only [Option.some.injEq] at hj
        subst hj
        rw [← AList.lookup_isSome, hl]
        rfl
      | none =>
        simp only [hl] at h
        obtain ⟨n0, hn0, hrec⟩ := getChildren_calls exec q i
        have hins : ∀ u, u ∈ v → u ∈ v.insert i () := fun u hu =>
          (AList.mem_insert _).2 (Or.inr hu)
        have hself : i ∈ v.insert i () := (AList.mem_insert _).2 (Or.inl rfl)
        cases hgc : getChildren exec q i with
        | mk q1 out =>
          rw [hgc] at h hn0 hrec
          simp only at hn0 hrec
          cases out with
          | failed err =>
            simp only [Option.some.injEq] at h
            subst h
            refine ⟨hins, fun j hj => ?_, n0, hn0, fun _ c hc => ⟨?_, fun l hl => ?_⟩⟩
            · simp only [Option.some.injEq] at hj
              exact hj ▸ hself
            · rw [(hrec c hc).1]
              exact hself
            · have := (hrec c hc).2 l hl
              simp at this
          | panic =>
            simp only [Option.some.injEq] at h
            subst h
            refine ⟨hins, fun j hj => ?_, n0, hn0, fun hp => absurd rfl hp⟩
            simp only [Option.some.injEq] at hj
            exact hj ▸ hself
          | ok children =>
            simp only at h
            obtain ⟨hm, _, hch, new2, hcalls2, hclosed2⟩ :=
              traverseChildren_facts _ ih children q1 _ r h
            refine ⟨fun u hu => hm u (hins u hu), fun j hj => ?_, n0 ++ new2, ?_, fun hp => ?_⟩
            · simp only [Option.some.injEq] at hj
              exact hj ▸ hm i hself
            · rw [hcalls2, hn0, List.append_assoc]
            · refine callsClosed_append (fun c hc => ⟨?_, fun l hl x hx => ?_⟩) (hclosed2 hp)
              · rw [(hrec c hc).1]
                exact hm i hself
              · have := (hrec c hc).2 l hl
                simp only [Outcome.ok.injEq] at this
                exact hch hp x (this ▸ hx)

/-! ## Termination of the walk -/

theorem getChildren_children_mem (exec : Executor) (instances : List ResourceInfo)
    (hfin : ∀ queryStr ns res l, exec queryStr ns = .ok res →
      extractResourceInfo res "c" = some l → ∀ i, i ∈ l → i ∈ instances)
    (q : QueryServer) (parent : ResourceInfo) (children : List ResourceInfo)
    (h : (getChildren exec q parent).2 = .ok children) : ∀ c, c ∈ children → c ∈ instances := by
  rcases getChildren_cases exec q parent with h0 | ⟨_, ⟨err, h1⟩ | h1 | ⟨res, l, he, hx, h1⟩⟩
  · rw [h0] at h
    simp only [Outcome.ok.injEq] at h
    subst h
    intro c hc
    simp at hc
  · rw [h1] at h
    simp at h
  · rw [h1] at h
    simp at h
  · rw [h1] at h
    simp only [Outcome.ok.injEq] at h
    subst h
    exact hfin _ _ res l he hx

theorem traverseChildren_returns
    (dfs : QueryServer → Option ResourceInfo → ResourceInfoSet →
      Option (QueryServer × ResourceInfoSet × Outcome Unit))
    (instances : List ResourceInfo) (S : Finset ResourceInfo)
    (hret : ∀ q child v, child ∈ instances → (∀ u, u ∈ instances → u ∉ v → u ∈ S) →
      ∃ r, dfs q (some child) v = some r)
    (hmono : ∀ q info v r, dfs q info v = some r → ∀ u, u ∈ v → u ∈ r.2.1) :
    ∀ (children : List ResourceInfo) (q : QueryServer) (v : ResourceInfoSet),
      (∀ c, c ∈ children → c ∈ instances) → (∀ u, u ∈ instances → u ∉ v → u ∈ S) →
        ∃ r, traverseChildren dfs children q v = some r := by
  intro children
  induction children with
  | nil =>
    intro q v _ _
    exact ⟨_, rfl⟩
  | cons child rest ih =>
    intro q v hch hS
    obtain ⟨r1, hr1⟩ := hret q child v (hch child (List.mem_cons_self _ _)) hS
    obtain ⟨q1, v1, st⟩ := r1
    have hm := hmono q (some child) v _ hr1
    simp only at hm
    have hS1 : ∀ u, u ∈ instances → u ∉ v1 → u ∈ S := fun u hu hn =>
      hS u hu fun hv => hn (hm u hv)
    obtain ⟨r2, hr2⟩ := ih q1 v1 (fun c hc => hch c (List.mem_cons_of_mem _ hc)) hS1
    simp only [traverseChildren, hr1]
    cases st with
    | panic => exact ⟨_, rfl⟩
    | ok u => exact ⟨r2, hr2⟩
    | failed err => exact ⟨r2, hr2⟩

/-- With one unit of fuel more than there are unvisited instances, the walk returns. -/
theorem depthFirstTraversal_returns (exec : Executor) (instances : List ResourceInfo)
    (hfin : ∀ queryStr ns res l, exec queryStr ns = .ok res →
      extractResourceInfo res "c" = some l → ∀ i, i ∈ l → i ∈ instances)
    (fuel : Nat) :
    ∀ (S : Finset ResourceInfo) (q : QueryServer) (info : Option ResourceInfo)
      (v : ResourceInfoSet),
      S.card + 1 ≤ fuel → (∀ u, u ∈ instances → u ∉ v → u ∈ S) →
      (∀ i, info = some i → i ∈ instances) →
        ∃ r, depthFirstTraversal exec fuel q info v = some r := by
  induction fuel with
  | zero =>
    intro S q info v h
    omega
  | succ n ih =>
    intro S q info v hcard hS hinfo
    cases info with
    | none => exact ⟨_, rfl⟩
    | some i =>
      simp only [depthFirstTraversal]
      cases hl : v.lookup i with
      | some u => exact ⟨_, rfl⟩
      | none =>
        simp only
        have hiS : i ∈ S := hS i (hinfo i rfl) (AList.lookup_eq_none.1 hl)
        have hcard2 : (S.erase i).card + 1 ≤ n := by
          rw [Finset.card_erase_of_mem hiS]
          have : 0 < S.card := Finset.card_pos.2 ⟨i, hiS⟩
          omega
        cases hgc : getChildren exec q i with
        | mk q1 out =>
          cases out with
          | failed err => exact ⟨_, rfl⟩
          | panic => exact ⟨_, rfl⟩
          | ok children =>
            simp only
            have hch := getChildren_children_mem exec instances hfin q i children
              (by rw [hgc])
            refine traverseChildren_returns _ instances (S.erase i)
              (fun q2 child v2 hc hS2 => ih (S.erase i) q2 (some child) v2 hcard2 hS2
                (fun j hj => by simp only [Option.some.injEq] at hj; exact hj ▸ hc))
              (fun q2 info2 v2 r hr => (depthFirstTraversal_facts exec n q2 info2 v2 r hr).1)
              children q1 _ hch ?_
            intro u hu hn
            have hne : u ≠ i := fun e => hn ((AList.mem_insert _).2 (Or.inl e))
            have hnv : u ∉ v := fun hv => hn ((AList.mem_insert _).2 (Or.inr hv))
            exact Finset.mem_erase.2 ⟨hne, hS u hu hnv⟩

/-- C14: when every instance that a query can return lies in a finite list `instances`,
the walk from any node, with any set of nodes already visited, returns within a
recursion depth of `instances.length + 2`, cyclic instance graphs included; the node is
in the returned set, a node already in visitedNodes is returned at once without a
query, and GetNestedChildResources returns as well. -/
theorem depthFirstTraversal_terminates (exec : Executor) (instances : List ResourceInfo)
    (hfin : ∀ queryStr ns res l, exec queryStr ns = .ok res →
      extractResourceInfo res "c" = some l → ∀ i, i ∈ l → i ∈ instances)
    (q : QueryServer) (info : Option ResourceInfo) (visitedNodes : ResourceInfoSet) :
    (∃ r, depthFirstTraversal exec (instances.length + 2) q info visitedNodes = some r ∧
        (∀ u, u ∈ visitedNodes → u ∈ r.2.1) ∧ ∀ i, info = some i → i ∈ r.2.1) ∧
      (∀ fuel i, info = some i → i ∈ visitedNodes →
        depthFirstTraversal exec (fuel + 1) q info visitedNodes =
          some (q, visitedNodes, .ok ())) ∧
      ∃ r, GetNestedChildResources exec (instances.length + 2) q info = some r := by
  have hret : ∀ v, ∃ r, depthFirstTraversal exec (instances.length + 2) q info v = some r := by
    intro v
    cases info with
    | none => exact ⟨_, rfl⟩
    | some i =>
      have hfin2 : ∀ queryStr ns res l, exec queryStr ns = .ok res →
          extractResourceInfo res "c" = some l → ∀ j, j ∈ l → j ∈ i :: instances :=
        fun qs ns res l he hx j hj => List.mem_cons_of_mem _ (hfin qs ns res l he hx j hj)
      refine depthFirstTraversal_returns exec (i :: instances) hfin2 _ (i :: instances).toFinset
        q (some i) v ?_ (fun u hu _ => List.mem_toFinset.2 hu) ?_
      · have := List.toFinset_card_le (i :: instances)
        simp only [List.length_cons] at this
        omega
      · intro j hj
        simp only [Option.some.injEq] at hj
        exact hj ▸ List.mem_cons_self _ _
  refine ⟨?_, ?_, ?_⟩
  · obtain ⟨r, hr⟩ := hret visitedNodes
    obtain ⟨h1, h2, _⟩ := depthFirstTraversal_facts exec _ q info visitedNodes r hr
    exact ⟨r, hr, h1, h2⟩
  · intro fuel i hi hv
    subst hi
    obtain ⟨u, hu⟩ := (AList.lookup_isSome.2 hv |> Option.isSome_iff_exists.1)
    simp only [depthFirstTraversal, hu]
  · obtain ⟨r, hr⟩ := hret ∅
    obtain ⟨q1, v1, st⟩ := r
    unfold GetNestedChildResources
    rw [hr]
    cases st <;> exact ⟨_, rfl⟩

/-- Witness for C14: the cyclic graph in which the query of A returns B and the query
of B returns A. -/
theorem depthFirstTraversal_terminates_witness :
    (∃ r, depthFirstTraversal cyclicExecutor ([nodeA, nodeB].length + 2) NewQueryServer
          (some nodeA) ∅ = some r ∧
        (∀ u, u ∈ (∅ : ResourceInfoSet) → u ∈ r.2.1) ∧ ∀ i, some nodeA = some i → i ∈ r.2.1) ∧
      (∀ fuel i, some nodeA = some i → i ∈ (∅ : ResourceInfoSet) →
        depthFirstTraversal cyclicExecutor (fuel + 1) NewQueryServer (some nodeA) ∅ =
          some (NewQueryServer, ∅, .ok ())) ∧
      ∃ r, GetNestedChildResources cyclicExecutor ([nodeA, nodeB].length + 2) NewQueryServer
        (some nodeA) = some r :=
  depthFirstTraversal_terminates cyclicExecutor [nodeA, nodeB]
    (fun queryStr ns res l he hx i hi => by
      simp only [cyclicExecutor, Except.ok.injEq] at he
      subst he
      have hl : l = [nodeA, nodeB] := by
        have h2 : extractResourceInfo
            { Data := [("c", .arr [resultRow "Alpha" "example.io/v1" "a" "default",
              resultRow "Beta" "example.io/v1" "b" "default"])] } "c" =
            some [nodeA, nodeB] := by decide
        rw [h2] at hx
        exact (Option.some.inj hx).symm
      rw [hl] at hi
      exact hi)
    NewQueryServer (some nodeA) ∅

/-- The walk of the cyclic graph from A: both instances are visited and each is
queried once. -/
theorem cyclic_walk_example :
    (GetNestedChildResources cyclicExecutor 4 NewQueryServer (some nodeA)).map
        (fun r => (outcomeNodes r.2, r.1.calls.map fun c => c.parent)) =
      some (.ok [nodeB, nodeA], [nodeA, nodeB]) := by
  decide

/-! ## Query failures during the walk -/

/-- C16, as stated, fails for the start resource: when the query of the start resource
itself fails, GetNestedChildResources (and GetApplicationChildResources, whose error
runQueryExecutor returns) gives the error and no set. -/
theorem nested_children_start_query_fails :
    (GetNestedChildResources failingExecutor 3 NewQueryServer (some nodeA)).map
        (fun r => outcomeNodes r.2) = some (.failed "connection refused") ∧
      (GetApplicationChildResources failingExecutor 3 NewQueryServer "guestbook" "").map
        (fun r => outcomeNodes r.2) = some (.failed "connection refused") := by
  decide

theorem returnedBy_mono {a b : List QueryCall} {u : ResourceInfo}
    (h : ReturnedBy a u ∨ ReturnedBy b u) : ReturnedBy (a ++ b) u := by
  rcases h with ⟨c, hc, l, hl, hu⟩ | ⟨c, hc, l, hl, hu⟩
  · exact ⟨c, List.mem_append.2 (Or.inl hc), l, hl, hu⟩
  · exact ⟨c, List.mem_append.2 (Or.inr hc), l, hl, hu⟩

theorem panicked_mono {a b : List QueryCall}
    (h : (∃ c, c ∈ a ∧ c.outcome = .panic) ∨ ∃ c, c ∈ b ∧ c.outcome = .panic) :
    ∃ c, c ∈ a ++ b ∧ c.outcome = .panic := by
  rcases h with ⟨c, hc, hp⟩ | ⟨c, hc, hp⟩
  · exact ⟨c, List.mem_append.2 (Or.inl hc), hp⟩
  · exact ⟨c, List.mem_append.2 (Or.inr hc), hp⟩

/-- The children that `getChildren` returns are those of the call that it records, and
a panic of the extraction is on record. -/
theorem getChildren_bounds (exec : Executor) (q : QueryServer) (parent : ResourceInfo) :
    ∃ n0, (getChildren exec q parent).1.calls = q.calls ++ n0 ∧
      (∀ l, (getChildren exec q parent).2 = .ok l → ∀ x, x ∈ l → ReturnedBy n0 x) ∧
      ((getChildren exec q parent).2 = .panic → ∃ c, c ∈ n0 ∧ c.outcome = .panic) := by
  rcases getChildren_cases exec q parent with h0 | ⟨_, ⟨err, h1⟩ | h1 | ⟨res, l, _, _, h1⟩⟩
  · refine ⟨[], by simp [h0], fun l hl x hx => ?_, fun hp => ?_⟩
    · rw [h0] at hl
      simp only [Outcome.ok.injEq] at hl
      subst hl
      simp at hx
    · rw [h0] at hp
      simp at hp
  · refine ⟨[recordedCall parent (.failed err)], by simp [h1], fun l hl => ?_, fun hp => ?_⟩
    · rw [h1] at hl
      simp at hl
    · rw [h1] at hp
      simp at hp
  · refine ⟨[recordedCall parent .panic], by simp [h1], fun l hl => ?_,
      fun _ => ⟨_, List.mem_singleton.2 rfl, rfl⟩⟩
    rw [h1] at hl
    simp at hl
  · refine ⟨[recordedCall parent (.ok l)], by simp [h1], fun l2 hl x hx => ?_, fun hp => ?_⟩
    · rw [h1] at hl
      simp only [Outcome.ok.injEq] at hl
      subst hl
      exact ⟨_, List.mem_singleton.2 rfl, l, rfl, hx⟩
    · rw [h1] at hp
      simp at hp

/-- An upper bound on what one run of the loop over the children adds, given the same
bound for the recursive call. -/
theorem traverseChildren_bounds
    (dfs : QueryServer → Option ResourceInfo → ResourceInfoSet →
      Option (QueryServer × ResourceInfoSet × Outcome Unit))
    (hdfs : ∀ q info v r, dfs q info v = some r →
      ∃ new, r.1.calls = q.calls ++ new ∧
        (∀ u, u ∈ r.2.1 → u ∈ v ∨ info = some u ∨ ReturnedBy new u) ∧
        (r.2.2 = .panic → ∃ c, c ∈ new ∧ c.outcome = .panic)) :
    ∀ (children : List ResourceInfo) (q : QueryServer) (v : ResourceInfoSet)
      (r : QueryServer × ResourceInfoSet × Outcome Unit),
      traverseChildren dfs children q v = some r →
        ∃ new, r.1.calls = q.calls ++ new ∧
          (∀ u, u ∈ r.2.1 → u ∈ v ∨ u ∈ children ∨ ReturnedBy new u) ∧
          (r.2.2 = .panic → ∃ c, c ∈ new ∧ c.outcome = .panic) := by
  intro children
  induction children with
  | nil =>
    intro q v r h
    simp only [traverseChildren, Option.some.injEq] at h
    subst h
    exact ⟨[], by simp, fun u hu => Or.inl hu, fun hp => by simp at hp⟩
  | cons child rest ih =>
    intro q v r h
    simp only [traverseChildren] at h
    cases hc : dfs q (some child) v with
    | none => simp [hc] at h
    | some r1 =>
      obtain ⟨q1, v1, st⟩ := r1
      obtain ⟨new1, hcalls1, hup1, hpanic1⟩ := hdfs q (some child) v _ hc
      simp only at hcalls1 hup1 hpanic1
      have hstep : ∀ u, u ∈ v1 → u ∈ v ∨ u ∈ child :: rest ∨ ReturnedBy new1 u := by
        intro u hu
        rcases hup1 u hu with h1 | h1 | h1
        · exact Or.inl h1
        · simp only [Option.some.injEq] at h1
          exact Or.inr (Or.inl (h1 ▸ List.mem_cons_self _ _))
        · exact Or.inr (Or.inr h1)
      have hrest : ∀ r2 : QueryServer × ResourceInfoSet × Outcome Unit,
          traverseChildren dfs rest q1 v1 = some r2 →
          ∃ new, r2.1.calls = q.calls ++ new ∧
            (∀ u, u ∈ r2.2.1 → u ∈ v ∨ u ∈ child :: rest ∨ ReturnedBy new u) ∧
            (r2.2.2 = .panic → ∃ c, c ∈ new ∧ c.outcome = .panic) := by
        intro r2 h2
        obtain ⟨new2, hcalls2, hup2, hpanic2⟩ := ih q1 v1 r2 h2
        refine ⟨new1 ++ new2, by rw [hcalls2, hcalls1, List.append_assoc], fun u hu => ?_,
          fun hp => panicked_mono (Or.inr (hpanic2 hp))⟩
        rcases hup2 u hu with h1 | h1 | h1
        · rcases hstep u h1 with h3 | h3 | h3
          · exact Or.inl h3
          · exact Or.inr (Or.inl h3)
          · exact Or.inr (Or.inr (returnedBy_mono (Or.inl h3)))
        · exact Or.inr (Or.inl (List.mem_cons_of_mem _ h1))
        · exact Or.inr (Or.inr (returnedBy_mono (Or.inr h1)))
      cases st with
      | panic =>
        simp only [hc, Option.some.injEq] at h
        subst h
        exact ⟨new1, hcalls1, hstep, hpanic1⟩
      | ok u =>
        simp only [hc] at h
        exact hrest r h
      | failed err =>
        simp only [hc] at h
        exact hrest r h

/-- An upper bound on the set that one call of the walk returns: the nodes it was given,
its own node, and the children returned by the queries that it made with success; a
panic is the panic of an extraction on record. -/
theorem depthFirstTraversal_bounds (exec : Executor) (fuel : Nat) :
    ∀ (q : QueryServer) (info : Option ResourceInfo) (v : ResourceInfoSet)
      (r : QueryServer × ResourceInfoSet × Outcome Unit),
      depthFirstTraversal exec fuel q info v = some r →
        ∃ new, r.1.calls = q.calls ++ new ∧
          (∀ u, u ∈ r.2.1 → u ∈ v ∨ info = some u ∨ ReturnedBy new u) ∧
          (r.2.2 = .panic → ∃ c, c ∈ new ∧ c.outcome = .panic) := by
  induction fuel with
  | zero =>
    intro q info v r h
    simp [depthFirstTraversal] at h
  | succ n ih =>
    intro q info v r h
    cases info with
    | none =>
      simp only [depthFirstTraversal, Option.some.injEq] at h
      subst h
      exact ⟨[], by simp, fun u hu => Or.inl hu, fun hp => by simp at hp⟩
    | some i =>
      simp only [depthFirstTraversal] at h
      cases hl : v.lookup i with
      | some u =>
        simp only [hl, Option.some.injEq] at h
        subst h
        exact ⟨[], by simp, fun u hu => Or.inl hu, fun hp => by simp at hp⟩
      | none =>
        simp only [hl] at h
        obtain ⟨n0, hn0, hret, hpanic⟩ := getChildren_bounds exec q i
        have hins : ∀ u, u ∈ v.insert i () → u ∈ v ∨ some i = some u := fun u hu => by
          rcases (AList.mem_insert _).1 hu with e | e
          · exact Or.inr (by rw [e])
          · exact Or.inl e
        cases hgc : getChildren exec q i with
        | mk q1 out =>
          rw [hgc] at h hn0 hret hpanic
          simp only at hn0 hret hpanic
          cases out with
          | failed err =>
            simp only [Option.some.injEq] at h
            subst h
            refine ⟨n0, hn0, fun u hu => ?_, fun hp => by simp at hp⟩
            rcases hins u hu with e | e
            · exact Or.inl e
            · exact Or.inr (Or.inl e)
          | panic =>
            simp only [Option.some.injEq] at h
            subst h
            refine ⟨n0, hn0, fun u hu => ?_, fun _ => hpanic rfl⟩
            rcases hins u hu with e | e
            · exact Or.inl e
            · exact Or.inr (Or.inl e)
          | ok children =>
            simp only at h
            obtain ⟨new2, hcalls2, hup2, hpanic2⟩ :=
              traverseChildren_bounds _ ih children q1 _ r h
            refine ⟨n0 ++ new2, by rw [hcalls2, hn0, List.append_assoc], fun u hu => ?_,
              fun hp => panicked_mono (Or.inr (hpanic2 hp))⟩
            rcases hup2 u hu with h1 | h1 | h1
            · rcases hins u h1 with e | e
              · exact Or.inl e
              · exact Or.inr (Or.inl e)
            · exact Or.inr (Or.inr (returnedBy_mono (Or.inl (hret children rfl u h1))))
            · exact Or.inr (Or.inr (returnedBy_mono (Or.inr h1)))

/-- When every instance that a query can return lies in `instances`, the walk returns
with any recursion depth from `instances.length + 2` on. -/
theorem depthFirstTraversal_returns_within (exec : Executor) (instances : List ResourceInfo)
    (hfin : ∀ queryStr ns res l, exec queryStr ns = .ok res →
      extractResourceInfo res "c" = some l → ∀ i, i ∈ l → i ∈ instances)
    (fuel : Nat) (hfuel : instances.length + 2 ≤ fuel) (q : QueryServer)
    (info : Option ResourceInfo) (v : ResourceInfoSet) :
    ∃ r, depthFirstTraversal exec fuel q info v = some r := by
  cases info with
  | none =>
    refine depthFirstTraversal_returns exec instances hfin fuel instances.toFinset q none v ?_
      (fun u hu _ => List.mem_toFinset.2 hu) (fun i hi => by simp at hi)
    have := List.toFinset_card_le instances
    omega
  | some i =>
    have hfin2 : ∀ queryStr ns res l, exec queryStr ns = .ok res →
        extractResourceInfo res "c" = some l → ∀ j, j ∈ l → j ∈ i :: instances :=
      fun qs ns res l he hx j hj => List.mem_cons_of_mem _ (hfin qs ns res l he hx j hj)
    refine depthFirstTraversal_returns exec (i :: instances) hfin2 fuel
      (i :: instances).toFinset q (some i) v ?_ (fun u hu _ => List.mem_toFinset.2 hu) ?_
    · have := List.toFinset_card_le (i :: instances)
      simp only [List.length_cons] at this
      omega
    · intro j hj
      simp only [Option.some.injEq] at hj
      exact hj ▸ List.mem_cons_self _ _

/-- What a call of GetNestedChildResources that returns gives back. -/
theorem nested_children_facts (exec : Executor) (fuel : Nat) (q : QueryServer)
    (start : ResourceInfo) (r : QueryServer × Outcome ResourceInfoSet)
    (h : GetNestedChildResources exec fuel q (some start) = some r) :
    ∃ new, r.1.calls = q.calls ++ new ∧
      (∀ err, (getChildren exec q start).2 = .failed err → r.2 = .failed err) ∧
      (r.2 = .panic → ∃ c, c ∈ new ∧ c.outcome = .panic) ∧
      (∀ children, (getChildren exec q start).2 = .ok children → r.2 ≠ .panic →
        ∃ all, r.2 = .ok all ∧ start ∈ all ∧ (∀ c, c ∈ children → c ∈ all) ∧
          CallsClosed new all ∧ ∀ u, u ∈ all → u = start ∨ ReturnedBy new u) := by
  unfold GetNestedChildResources at h
  cases fuel with
  | zero => simp [depthFirstTraversal] at h
  | succ n =>
    cases hd : depthFirstTraversal exec (n + 1) q (some start) ∅ with
    | none => simp [hd] at h
    | some r1 =>
      obtain ⟨q1, v1, st⟩ := r1
      obtain ⟨_, hstart, new, hcalls, hclosed⟩ :=
        depthFirstTraversal_facts exec (n + 1) q (some start) ∅ _ hd
      obtain ⟨new2, hcalls2, hup, hpanic⟩ :=
        depthFirstTraversal_bounds exec (n + 1) q (some start) ∅ _ hd
      simp only at hstart hcalls hclosed hcalls2 hup hpanic
      have hnew : new2 = new := List.append_cancel_left (hcalls2.symm.trans hcalls)
      subst hnew
      have hq1 : r.1 = q1 := by
        cases st <;> simp only [hd, Option.some.injEq] at h <;> rw [← h]
      have hd2 := hd
      simp only [depthFirstTraversal, AList.lookup_empty] at hd2
      refine ⟨new2, by rw [hq1]; exact hcalls, ?_, ?_, ?_⟩
      · intro err he
        cases hgc : getChildren exec q start with
        | mk q2 out =>
          rw [hgc] at he hd2
          simp only at he
          subst he
          simp only [Option.some.injEq, Prod.mk.injEq] at hd2
          obtain ⟨_, _, hst⟩ := hd2
          subst hst
          simp only [hd, Option.some.injEq] at h
          rw [← h]
      · intro hp
        cases st with
        | panic => exact hpanic rfl
        | ok u =>
          simp only [hd, Option.some.injEq] at h
          rw [← h] at hp
          simp at hp
        | failed err =>
          simp only [hd, Option.some.injEq] at h
          rw [← h] at hp
          simp at hp
      · intro children hc hp
        cases hgc : getChildren exec q start with
        | mk q2 out =>
          rw [hgc] at hc hd2
          simp only at hc
          subst hc
          simp only at hd2
          obtain ⟨_, hst, hch, _⟩ := traverseChildren_facts _
            (depthFirstTraversal_facts exec n) children q2 _ _ hd2
          simp only at hst hch
          rcases hst with hst | hst
          · subst hst
            simp only [hd, Option.some.injEq] at h
            subst h
            refine ⟨v1, rfl, hstart start rfl, hch (by simp), hclosed (by simp), fun u hu => ?_⟩
            rcases hup u hu with h1 | h1 | h1
            · exact absurd h1 (AList.not_mem_empty _)
            · simp only [Option.some.injEq] at h1
              exact Or.inl h1.symm
            · exact Or.inr h1
          · subst hst
            simp only [hd, Option.some.injEq] at h
            subst h
            exact absurd rfl hp

/-- C16, amended: when every instance that a query can return lies in a finite list,
GetNestedChildResources returns for every start resource, with any recursion depth from
the length of the list plus 2 on. A query that fails for the start resource makes it
return that error. When the query of the start resource does not fail, query failures
further down are absorbed: unless an extraction panics (and then the panic is on
record), the call returns without error a set that holds the start, the children of the
start, the parent of every query made during the walk, failed ones included, and every
child returned by a query that succeeded; and the set holds nothing else than the start
and the children returned by the queries of the walk that succeeded. -/
theorem nested_children_absorb_failures (exec : Executor) (instances : List ResourceInfo)
    (hfin : ∀ queryStr ns res l, exec queryStr ns = .ok res →
      extractResourceInfo res "c" = some l → ∀ i, i ∈ l → i ∈ instances)
    (fuel : Nat) (hfuel : instances.length + 2 ≤ fuel) (q : QueryServer)
    (start : ResourceInfo) :
    ∃ r new, GetNestedChildResources exec fuel q (some start) = some r ∧
      r.1.calls = q.calls ++ new ∧
      (∀ err, (getChildren exec q start).2 = .failed err → r.2 = .failed err) ∧
      (r.2 = .panic → ∃ c, c ∈ new ∧ c.outcome = .panic) ∧
      (∀ children, (getChildren exec q start).2 = .ok children → r.2 ≠ .panic →
        ∃ all, r.2 = .ok all ∧ start ∈ all ∧ (∀ c, c ∈ children → c ∈ all) ∧
          CallsClosed new all ∧ ∀ u, u ∈ all → u = start ∨ ReturnedBy new u) := by
  obtain ⟨r1, hd⟩ := depthFirstTraversal_returns_within exec instances hfin fuel hfuel q
    (some start) ∅
  have hret : ∃ r, GetNestedChildResources exec fuel q (some start) = some r := by
    obtain ⟨q1, v1, st⟩ := r1
    unfold GetNestedChildResources
    rw [hd]
    cases st <;> exact ⟨_, rfl⟩
  obtain ⟨r, hr⟩ := hret
  obtain ⟨new, hfacts⟩ := nested_children_facts exec fuel q start r hr
  exact ⟨r, new, hr, hfacts⟩

/-- Witness for the amended C16: the query of A returns B and the query of B fails. -/
theorem nested_children_absorb_failures_witness :
    ∃ r new, GetNestedChildResources partlyFailingExecutor 3 NewQueryServer (some nodeA) =
        some r ∧
      r.1.calls = NewQueryServer.calls ++ new ∧
      (∀ err, (getChildren partlyFailingExecutor NewQueryServer nodeA).2 = .failed err →
        r.2 = .failed err) ∧
      (r.2 = .panic → ∃ c, c ∈ new ∧ c.outcome = .panic) ∧
      (∀ children, (getChildren partlyFailingExecutor NewQueryServer nodeA).2 = .ok children →
        r.2 ≠ .panic →
        ∃ all, r.2 = .ok all ∧ nodeA ∈ all ∧ (∀ c, c ∈ children → c ∈ all) ∧
          CallsClosed new all ∧ ∀ u, u ∈ all → u = nodeA ∨ ReturnedBy new u) :=
  nested_children_absorb_failures partlyFailingExecutor [nodeB]
    (fun queryStr ns res l he hx i hi => by
      simp only [partlyFailingExecutor] at he
      split at he
      · simp only [Except.ok.injEq] at he
        subst he
        have h2 : extractResourceInfo
            { Data := [("c", .arr [resultRow "Beta" "example.io/v1" "b" "default"])] } "c" =
            some [nodeB] := by decide
        rw [h2] at hx
        rw [Option.some.inj hx]
        exact hi
      · simp at he)
    3 (by decide) NewQueryServer nodeA

/-- The walk from A when the query of B fails: A and B are returned without error, and
the failed query of B is on record. -/
theorem failing_child_example :
    (GetNestedChildResources partlyFailingExecutor 3 NewQueryServer (some nodeA)).map
        (fun r => (outcomeNodes r.2, r.1.calls.map fun c => (c.parent, c.outcome))) =
      some (.ok [nodeB, nodeA],
        [(nodeA, .ok [nodeB]), (nodeB, .failed "connection refused")]) := by
  decide

/-! ## Excluded-resource warnings -/

theorem takeWhile_dropWhile_run (p : Char → Bool) (l rest : List Char)
    (hl : ∀ c, c ∈ l → p c = true) (hrest : ∀ c, rest.head? = some c → p c = false) :
    (l ++ rest).takeWhile p = l ∧ (l ++ rest).dropWhile p = rest := by
  induction l with
  | nil =>
    cases rest with
    | nil => simp
    | cons c r =>
      have := hrest c rfl
      simp [List.takeWhile_cons, List.dropWhile_cons, this]
  | cons a l ih =>
    have ha := hl a (List.mem_cons_self _ _)
    have ih2 := ih fun c hc => hl c (List.mem_cons_of_mem _ hc)
    simp [List.takeWhile_cons, List.dropWhile_cons, ha, ih2.1, ih2.2]

theorem matchAt_of_shape (group kind name post : List Char)
    (hgroup : ∀ c, c ∈ group → isGroupChar c = true)
    (hkind : kind ≠ [] ∧ ∀ c, c ∈ kind → isKindChar c = true)
    (hname : name ≠ [] ∧ ∀ c, c ∈ name → isNameChar c = true)
    (hpost : ∀ c, post.head? = some c → isNameChar c = false) :
    matchAt (group ++ '/' :: (kind ++ ' ' :: (name ++ post))) =
      some (String.mk group, String.mk kind, String.mk name) := by
  obtain ⟨hg1, hg2⟩ := takeWhile_dropWhile_run isGroupChar group
    ('/' :: (kind ++ ' ' :: (name ++ post))) hgroup
    (fun c hc => by simp only [List.head?_cons, Option.some.injEq] at hc; subst hc; decide)
  obtain ⟨hk1, hk2⟩ := takeWhile_dropWhile_run isKindChar kind (' ' :: (name ++ post)) hkind.2
    (fun c hc => by simp only [List.head?_cons, Option.some.injEq] at hc; subst hc; decide)
  obtain ⟨hn1, _⟩ := takeWhile_dropWhile_run isNameChar name post hname.2 hpost
  obtain ⟨k, ks, hk⟩ := List.exists_cons_of_ne_nil hkind.1
  obtain ⟨n, ns, hn⟩ := List.exists_cons_of_ne_nil hname.1
  unfold matchAt
  rw [hg2, hg1]
  simp only [if_true]
  rw [hk1, hk2, hk]
  simp only [if_true]
  rw [hn1, hn]

theorem dropWhile_of_last (p : Char → Bool) (l : List Char) (hne : l ≠ [])
    (hlast : ∀ c, l.getLast? = some c → p c = false) :
    ∃ x xs, l.dropWhile p = x :: xs ∧ x ∈ l := by
  induction l with
  | nil => exact absurd rfl hne
  | cons a t ih =>
    by_cases ha : p a = true
    · cases t with
      | nil =>
        have := hlast a rfl
        rw [ha] at this
        exact absurd this (by simp)
      | cons b t2 =>
        obtain ⟨x, xs, hx, hm⟩ := ih (by simp) (fun c hc => hlast c (by
          rw [List.getLast?_cons_cons]; exact hc))
        exact ⟨x, xs, by simp [List.dropWhile_cons, ha, hx], List.mem_cons_of_mem _ hm⟩
    · exact ⟨a, t, by simp [List.dropWhile_cons, ha], List.mem_cons_self _ _⟩

theorem matchAt_in_prefix (pre rest : List Char) (hne : pre ≠ []) (hslash : '/' ∉ pre)
    (hlast : ∀ c, pre.getLast? = some c → isGroupChar c = false) :
    matchAt (pre ++ rest) = none := by
  obtain ⟨x, xs, hx, hm⟩ := dropWhile_of_last isGroupChar pre hne hlast
  have hd : (pre ++ rest).dropWhile isGroupChar = x :: (xs ++ rest) := by
    rw [List.dropWhile_append, hx]
    simp
  have hxs : x ≠ '/' := fun e => hslash (e ▸ hm)
  unfold matchAt
  rw [hd]
  simp [hxs]

theorem findStringSubmatch_of_prefix (rest : List Char) (m : String × String × String)
    (hm : matchAt rest = some m) :
    ∀ pre : List Char, '/' ∉ pre → (∀ c, pre.getLast? = some c → isGroupChar c = false) →
      FindStringSubmatch (pre ++ rest) = some m := by
  have hrest : rest ≠ [] := by
    intro e
    subst e
    simp [matchAt] at hm
  intro pre
  induction pre with
  | nil =>
    intro _ _
    obtain ⟨c, cs, hc⟩ := List.exists_cons_of_ne_nil hrest
    subst hc
    simp [FindStringSubmatch, hm]
  | cons a t ih =>
    intro hslash hlast
    have hnone := matchAt_in_prefix (a :: t) rest (by simp) hslash hlast
    have hslash2 : '/' ∉ t := fun h => hslash (List.mem_cons_of_mem _ h)
    have hlast2 : ∀ c, t.getLast? = some c → isGroupChar c = false := by
      intro c hc
      cases t with
      | nil => simp at hc
      | cons b t2 => exact hlast c (by rw [List.getLast?_cons_cons]; exact hc)
    simp only [List.cons_append] at hnone ⊢
    simp only [FindStringSubmatch, hnone]
    exact ih hslash2 hlast2

theorem takeWhile_dropWhile_facts (p : Char → Bool) (l : List Char) :
    (∀ c, c ∈ l.takeWhile p → p c = true) ∧
      ∀ c, (l.dropWhile p).head? = some c → p c = false := by
  refine ⟨fun c hc => List.mem_takeWhile_imp hc, fun c hc => ?_⟩
  have h := List.head?_dropWhile_not p l
  rw [hc] at h
  exact h

/-- A match at the head of `s` is text of the form `group/kind name`: the three
submatches are runs of their classes, the last one as long as it can be. -/
theorem matchAt_shape (s : List Char) (group kind name : String)
    (h : matchAt s = some (group, kind, name)) :
    ∃ post, s = group.data ++ '/' :: (kind.data ++ ' ' :: (name.data ++ post)) ∧
      (∀ c, c ∈ group.data → isGroupChar c = true) ∧
      (kind.data ≠ [] ∧ ∀ c, c ∈ kind.data → isKindChar c = true) ∧
      (name.data ≠ [] ∧ ∀ c, c ∈ name.data → isNameChar c = true) ∧
      ∀ c, post.head? = some c → isNameChar c = false := by
  have hs := List.takeWhile_append_dropWhile isGroupChar s
  have hg := (takeWhile_dropWhile_facts isGroupChar s).1
  unfold matchAt at h
  cases hd : s.dropWhile isGroupChar with
  | nil => simp [hd] at h
  | cons slash afterSlash =>
    simp only [hd] at h
    by_cases hslash : slash = '/'
    · subst hslash
      simp only [if_true] at h
      have hks := List.takeWhile_append_dropWhile isKindChar afterSlash
      have hk := (takeWhile_dropWhile_facts isKindChar afterSlash).1
      cases hk1 : afterSlash.takeWhile isKindChar with
      | nil => simp [hk1] at h
      | cons k ks =>
        cases hk2 : afterSlash.dropWhile isKindChar with
        | nil => simp [hk1, hk2] at h
        | cons space afterSpace =>
          simp only [hk1, hk2] at h
          by_cases hspace : space = ' '
          · subst hspace
            simp only [if_true] at h
            have hns := List.takeWhile_append_dropWhile isNameChar afterSpace
            have hn := takeWhile_dropWhile_facts isNameChar afterSpace
            cases hn1 : afterSpace.takeWhile isNameChar with
            | nil => simp [hn1] at h
            | cons n ns =>
              simp only [hn1, Option.some.injEq, Prod.mk.injEq] at h
              obtain ⟨h1, h2, h3⟩ := h
              subst h1 h2 h3
              refine ⟨afterSpace.dropWhile isNameChar, ?_, hg, ⟨by simp, ?_⟩, ⟨by simp, ?_⟩,
                hn.2⟩
              · simp only []
                rw [← hn1, hns, ← hk2, ← hk1, hks, ← hd, hs]
              · intro c hc
                exact hk c (by rw [hk1]; exact hc)
              · intro c hc
                exact hn.1 c (by rw [hn1]; exact hc)
          · simp [hspace] at h
    · simp [hslash] at h

/-- The match that `FindStringSubmatch` returns is the leftmost one: it starts after a
prefix in which no match starts. -/
theorem findStringSubmatch_leftmost (l : List Char) (m : String × String × String)
    (h : FindStringSubmatch l = some m) :
    ∃ pre rest, l = pre ++ rest ∧ matchAt rest = some m ∧
      ∀ p1 c p2, pre = p1 ++ c :: p2 → matchAt (c :: (p2 ++ rest)) = none := by
  induction l with
  | nil => simp [FindStringSubmatch] at h
  | cons a t ih =>
    simp only [FindStringSubmatch] at h
    cases hm : matchAt (a :: t) with
    | some m2 =>
      simp only [hm, Option.some.injEq] at h
      subst h
      exact ⟨[], a :: t, rfl, hm, fun p1 c p2 hp => by simp at hp⟩
    | none =>
      simp only [hm] at h
      obtain ⟨pre, rest, hl, hrest, hleft⟩ := ih h
      refine ⟨a :: pre, rest, by rw [hl]; rfl, hrest, fun p1 c p2 hp => ?_⟩
      cases p1 with
      | nil =>
        simp only [List.nil_append, List.cons.injEq] at hp
        rw [← hp.1, ← hp.2, ← hl]
        exact hm
      | cons b p3 =>
        simp only [List.cons_append, List.cons.injEq] at hp
        exact hleft p3 c p2 hp.2

/-- The submatches of `FindStringSubmatch` are text of the message of the form
`group/kind name`, after a prefix in which no match starts and which does not end in a
character of the group class. -/
theorem findStringSubmatch_shape (l : List Char) (group kind name : String)
    (h : FindStringSubmatch l = some (group, kind, name)) :
    ∃ pre post, l = pre ++ (group.data ++ '/' :: (kind.data ++ ' ' :: (name.data ++ post))) ∧
      (∀ c, c ∈ group.data → isGroupChar c = true) ∧
      (kind.data ≠ [] ∧ ∀ c, c ∈ kind.data → isKindChar c = true) ∧
      (name.data ≠ [] ∧ ∀ c, c ∈ name.data → isNameChar c = true) ∧
      (∀ c, post.head? = some c → isNameChar c = false) ∧
      (∀ c, pre.getLast? = some c → isGroupChar c = false) ∧
      ∀ p1 c p2, pre = p1 ++ c :: p2 →
        matchAt (c :: (p2 ++ (group.data ++ '/' :: (kind.data ++ ' ' :: (name.data ++ post))))) =
          none := by
  obtain ⟨pre, rest, hl, hrest, hleft⟩ := findStringSubmatch_leftmost l _ h
  obtain ⟨post, hshape, hg, hk, hn, hpost⟩ := matchAt_shape rest group kind name hrest
  subst hshape
  refine ⟨pre, post, hl, hg, hk, hn, hpost, fun c hc => ?_, hleft⟩
  obtain ⟨p1, hp1⟩ := List.getLast?_eq_some_iff.1 hc
  have hnone := hleft p1 c [] hp1
  simp only [List.nil_append] at hnone
  cases hgc : isGroupChar c with
  | false => rfl
  | true =>
    have hsome := matchAt_of_shape (c :: group.data) kind.data name.data post
      (fun x hx => by
        rcases List.mem_cons.1 hx with e | e
        · rw [e]
          exact hgc
        · exact hg x e)
      hk hn hpost
    simp only [List.cons_append] at hsome
    rw [hnone] at hsome
    simp at hsome

theorem foldl_holds_of_mem {α β : Type} (f : β → α → β) (P : β → Prop)
    (hmono : ∀ b a, P b → P (f b a)) (l : List α) (x : α) (hx : x ∈ l)
    (hP : ∀ b, P (f b x)) (b0 : β) : P (l.foldl f b0) := by
  have hkeep : ∀ (l2 : List α) (b : β), P b → P (l2.foldl f b) := by
    intro l2
    induction l2 with
    | nil => exact fun b hb => hb
    | cons y ys ih => exact fun b hb => ih _ (hmono b y hb)
  induction l generalizing b0 with
  | nil => simp at hx
  | cons y ys ih =>
    rcases List.mem_cons.1 hx with e | e
    · subst e
      exact hkeep ys _ (hP b0)
    · exact ih e _

theorem getResourceKey_of_group (group kind : String) (hg : '/' ∉ group.data) :
    GetResourceKey (if group = "" then "v1" else group ++ "/" ++ "v1") kind =
      resourceKey group kind := by
  by_cases h : group = ""
  · subst h
    rw [if_pos rfl]
    have hcut : cutAtFirst '/' "v1".data = none := by decide
    unfold GetResourceKey
    rw [hcut]
  · simp only [h, if_false]
    have hd : (group ++ "/" ++ "v1").data = group.data ++ '/' :: "v1".data := by
      simp [String.data_append]
    unfold GetResourceKey
    rw [hd, cutAtFirst_append _ _ _ hg]

theorem addDirect_mono (dr : DirectResources) (kind apiVersion name ns key : String)
    (info : GraphResourceInfo) (h : key ∈ dr.Keys ∧ info ∈ dr.Infos) :
    key ∈ (addDirect dr kind apiVersion name ns).Keys ∧
      info ∈ (addDirect dr kind apiVersion name ns).Infos :=
  ⟨(AList.mem_insert _).2 (Or.inr h.1), List.mem_append.2 (Or.inl h.2)⟩

theorem addCondition_mono (dr : DirectResources) (cond : ApplicationCondition) (key : String)
    (info : GraphResourceInfo) (h : key ∈ dr.Keys ∧ info ∈ dr.Infos) :
    key ∈ (addCondition dr cond).Keys ∧ info ∈ (addCondition dr cond).Infos := by
  unfold addCondition
  split
  · split
    · exact addDirect_mono _ _ _ _ _ _ _ h
    · exact h
  · exact h

set_option maxRecDepth 100000 in
/-- C17, as stated, fails for a message that holds more text of the form
`group/kind name` than its leftmost match. The message
"see ns/Pod p; rbac.authorization.k8s.io/RoleBinding my-binding" contains
`rbac.authorization.k8s.io/RoleBinding my-binding`, yet the only key added is
key("ns", "Pod"); and "xapps/Deployment web" contains `apps/Deployment web`, yet the
key added is key("xapps", "Deployment"), not key("apps", "Deployment"). -/
theorem excluded_resource_warning_later_match_ignored :
    (directResources (appWithMessage
        "see ns/Pod p; rbac.authorization.k8s.io/RoleBinding my-binding")).Keys.keys =
      [resourceKey "ns" "Pod"] ∧
    resourceKey "rbac.authorization.k8s.io" "RoleBinding" ∉
      (directResources (appWithMessage
        "see ns/Pod p; rbac.authorization.k8s.io/RoleBinding my-binding")).Keys ∧
    (directResources (appWithMessage "xapps/Deployment web")).Keys.keys =
      [resourceKey "xapps" "Deployment"] ∧
    resourceKey "apps" "Deployment" ∉
      (directResources (appWithMessage "xapps/Deployment web")).Keys := by
  decide

/-- C17, amended: for every application with a condition whose type equals
ExcludedResourceWarning up to the case of letters and in whose message the leftmost match
of the pattern `([A-Za-z0-9.-]*)/([A-Za-z0-9.]+) ([A-Za-z0-9-_.]+)` has the submatches
group, kind and name, the iteration for that condition adds exactly the resource
(kind, group/v1 or v1 for the empty group, name, empty namespace), and the
DirectResources that GetDirectResourcesFromStatus builds hold the key key(group, kind)
in Keys and that ResourceInfo in Infos, whatever the managed resources are. The function
returns these DirectResources when syncResourceMapper succeeds, and the error of the
sync otherwise. The submatches are text of the message of the form `group/kind name`:
the message is a prefix, the group (a run of the group class), "/", the kind (a
non-empty run of the kind class), a space, the name (a non-empty run of the name class)
and a rest that does not start with a character of the name class; no match of the
pattern starts in the prefix, and the prefix does not end in a character of the group
class. -/
theorem excluded_resource_warning_is_direct (app : Application) (cond : ApplicationCondition)
    (group kind name : String)
    (hcond : cond ∈ app.Conditions)
    (htype : EqualFold cond.condType "ExcludedResourceWarning" = true)
    (hfind : FindStringSubmatch cond.Message.data = some (group, kind, name)) :
    (∀ dr, addCondition dr cond =
      addDirect dr kind (if group = "" then "v1" else group ++ "/" ++ "v1") name "") ∧
    resourceKey group kind ∈ (directResources app).Keys ∧
      ({ Kind := kind, APIVersion := if group = "" then "v1" else group ++ "/" ++ "v1",
         Name := name, Namespace := "" } : GraphResourceInfo) ∈ (directResources app).Infos ∧
      (∀ env rt rt1 dr, GetDirectResourcesFromStatus env rt app = .ok (rt1, dr) →
        dr = directResources app) ∧
      (∀ env rt rt1, syncResourceMapper env rt app = .ok rt1 →
        GetDirectResourcesFromStatus env rt app = .ok (rt1, directResources app)) ∧
      ∃ pre post, cond.Message.data =
          pre ++ (group.data ++ '/' :: (kind.data ++ ' ' :: (name.data ++ post))) ∧
        (∀ c, c ∈ group.data → isGroupChar c = true) ∧
        (kind.data ≠ [] ∧ ∀ c, c ∈ kind.data → isKindChar c = true) ∧
        (name.data ≠ [] ∧ ∀ c, c ∈ name.data → isNameChar c = true) ∧
        (∀ c, post.head? = some c → isNameChar c = false) ∧
        (∀ c, pre.getLast? = some c → isGroupChar c = false) ∧
        ∀ p1 c p2, pre = p1 ++ c :: p2 →
          matchAt (c :: (p2 ++ (group.data ++ '/' :: (kind.data ++ ' ' ::
            (name.data ++ post))))) = none := by
  have hshape := findStringSubmatch_shape cond.Message.data group kind name hfind
  have hgroup : ∀ c, c ∈ group.data → isGroupChar c = true := by
    obtain ⟨_, _, _, hg, _⟩ := hshape
    exact hg
  have hslash : '/' ∉ group.data := fun h => by
    have := hgroup _ h
    revert this
    decide
  have hadd : ∀ dr, addCondition dr cond =
      addDirect dr kind (if group = "" then "v1" else group ++ "/" ++ "v1") name "" := by
    intro dr
    unfold addCondition
    rw [htype, if_pos rfl, hfind]
  have hboth : resourceKey group kind ∈ (directResources app).Keys ∧
      ({ Kind := kind, APIVersion := if group = "" then "v1" else group ++ "/" ++ "v1",
         Name := name, Namespace := "" } : GraphResourceInfo) ∈ (directResources app).Infos := by
    unfold directResources
    refine foldl_holds_of_mem addCondition _ (fun b a hb => addCondition_mono b a _ _ hb)
      app.Conditions cond hcond (fun b => ?_) _
    rw [hadd b]
    simp only [addDirect]
    rw [getResourceKey_of_group group kind hslash]
    exact ⟨(AList.mem_insert _).2 (Or.inl rfl), List.mem_append.2 (Or.inr (by simp))⟩
  refine ⟨hadd, hboth.1, hboth.2, ?_, ?_, hshape⟩
  · intro env rt rt1 dr h
    unfold GetDirectResourcesFromStatus at h
    split at h
    · simp at h
    · simp only [Except.ok.injEq, Prod.mk.injEq] at h
      exact h.2.symm
  · intro env rt rt1 h
    unfold GetDirectResourcesFromStatus
    rw [h]

set_option maxRecDepth 100000 in
/-- Witness for C17: the message `rbac.authorization.k8s.io/RoleBinding my-binding` under
the type written `excludedresourcewarning`, on an application that manages no resource;
the key is key("rbac.authorization.k8s.io", "RoleBinding"). -/
theorem excluded_resource_warning_is_direct_witness :
    EqualFold "excludedresourcewarning" "ExcludedResourceWarning" = true ∧
    "excludedresourcewarning" ≠ "ExcludedResourceWarning" ∧
    FindStringSubmatch "rbac.authorization.k8s.io/RoleBinding my-binding".data =
      some ("rbac.authorization.k8s.io", "RoleBinding", "my-binding") ∧
    resourceKey "rbac.authorization.k8s.io" "RoleBinding" ∈
      (directResources appWithWarning).Keys ∧
    ({ Kind := "RoleBinding", APIVersion := "rbac.authorization.k8s.io/v1",
       Name := "my-binding", Namespace := "" } : GraphResourceInfo) ∈
      (directResources appWithWarning).Infos :=
  ⟨by decide, by decide, by decide,
    (excluded_resource_warning_is_direct appWithWarning
      { condType := "excludedresourcewarning"
        Message := "rbac.authorization.k8s.io/RoleBinding my-binding" }
      "rbac.authorization.k8s.io" "RoleBinding" "my-binding"
      (by simp [appWithWarning]) (by decide) (by decide)).2.1,
    (excluded_resource_warning_is_direct appWithWarning
      { condType := "excludedresourcewarning"
        Message := "rbac.authorization.k8s.io/RoleBinding my-binding" }
      "rbac.authorization.k8s.io" "RoleBinding" "my-binding"
      (by simp [appWithWarning]) (by decide) (by decide)).2.2.1⟩

/-- The same key and ResourceInfo from a message as Argo CD words it, with the match
inside the text, and a condition type in another case. -/
theorem excluded_resource_warning_example :
    (directResources
        { Name := "guestbook"
          Destination := { Server := "https://kubernetes.default.svc", Name := "" }
          Resources := []
          Conditions :=
            [{ condType := "excludedresourcewarning"
               Message := "Resource rbac.authorization.k8s.io/RoleBinding my-binding is " ++
                 "excluded in the settings" }] }).Keys.keys =
        [resourceKey "rbac.authorization.k8s.io" "RoleBinding"] ∧
      (directResources
        { Name := "guestbook"
          Destination := { Server := "https://kubernetes.default.svc", Name := "" }
          Resources := []
          Conditions :=
            [{ condType := "excludedresourcewarning"
               Message := "Resource rbac.authorization.k8s.io/RoleBinding my-binding is " ++
                 "excluded in the settings" }] }).Infos =
        [{ Kind := "RoleBinding", APIVersion := "rbac.authorization.k8s.io/v1",
           Name := "my-binding", Namespace := "" }] := by
  decide

set_option maxRecDepth 100000 in
/-- A message in which a "/" comes before the match: no match starts at "a/b:", and the
leftmost match is `apps/Deployment web`. -/
theorem excluded_resource_warning_after_slash :
    FindStringSubmatch "a/b: excluded apps/Deployment web".data =
      some ("apps", "Deployment", "web") ∧
    (directResources (appWithMessage "a/b: excluded apps/Deployment web")).Keys.keys =
      [resourceKey "apps" "Deployment"] := by
  decide

/-! ## The worker and its reports -/

/-- What one bundle adds to the accumulator of `addKey`: the fold of `addKey` over the
keys visited, among which are the direct keys. -/
theorem analyzeBundle_addKey (rt : ResourceTracker) (server : String) (keys : StringSet)
    (acc : GroupToKinds) :
    ∃ (rt1 : ResourceTracker) (visited : StringSet) (calls : List String),
      analyzeBundle addKey rt server keys acc = some (rt1, visited, calls.foldl addKey acc) ∧
        ∀ k, k ∈ keys → k ∈ calls := by
  obtain ⟨⟨visited, calls⟩, hr⟩ :=
    bfs_returns logKey (prepareCache rt server keys).sharedRelationsCache keys []
  have hv := bfs_visited_iff logKey _ keys [] _ hr
  have hc := (bfsLoop_calls _ _ _ _ _ _
    (fun k => by simp [AList.not_mem_empty]) List.nodup_nil hr).1
  have hacc : bfs addKey (prepareCache rt server keys).sharedRelationsCache keys acc =
      some (visited, calls.foldl addKey acc) := by
    unfold bfs at hr ⊢
    rw [bfsLoop_eq_foldl, hr]
    rfl
  refine ⟨prepareCache rt server keys, visited, calls, by simp [analyzeBundle, hacc],
    fun k hk => (hc k).2 ((hv k).2 ⟨k, hk, Relation.ReflTransGen.refl⟩)⟩

theorem analyzeBundle_returns {σ : Type} (f : σ → String → σ) (rt : ResourceTracker)
    (server : String) (keys : StringSet) (acc : σ) :
    ∃ r, analyzeBundle f rt server keys acc = some r := by
  obtain ⟨⟨visited, acc1⟩, hr⟩ :=
    bfs_returns f (prepareCache rt server keys).sharedRelationsCache keys acc
  exact ⟨(prepareCache rt server keys, visited, acc1), by simp [analyzeBundle, hr]⟩

/-- One bundle: the worker returns and has called `report` once; the result reported
on each path. -/
theorem processApplication_reports {σ : Type} (env : Collaborators) (f : σ → String → σ)
    (rt : ResourceTracker) (acc : σ) (results : List (Option String)) (app : Application) :
    ∃ rt1 acc1 r,
      processApplication env f logReport (rt, acc, results) app =
        some (rt1, acc1, results ++ [r]) ∧
      (∀ err, GetDirectResourcesFromStatus env rt app = .error err → r = some err) ∧
      (∀ rt0 dr, GetDirectResourcesFromStatus env rt app = .ok (rt0, dr) →
        rt0.resourceMapperStore.keys.length = 0 →
          r = some ("no destination clusters synced; ensure Applications have valid " ++
            ".spec.destination and Argo CD has access")) ∧
      (∀ rt0 dr err, GetDirectResourcesFromStatus env rt app = .ok (rt0, dr) →
        rt0.resourceMapperStore.keys.length ≠ 0 → destinationServer env app = .error err →
          r = some err) ∧
      (∀ rt0 dr server, GetDirectResourcesFromStatus env rt app = .ok (rt0, dr) →
        rt0.resourceMapperStore.keys.length ≠ 0 → destinationServer env app = .ok server →
          r = none ∧ ∃ visited,
            analyzeBundle f rt0 server dr.Keys acc = some (rt1, visited, acc1)) := by
  unfold processApplication
  cases hg : GetDirectResourcesFromStatus env rt app with
  | error err =>
    refine ⟨_, _, some err, rfl, ?_, ?_, ?_, ?_⟩
    · intro e he
      simp only [Except.error.injEq] at he
      rw [he]
    · intro rt0 dr he; simp at he
    · intro rt0 dr e he; simp at he
    · intro rt0 dr server he; simp at he
  | ok pair =>
    obtain ⟨rt0, dr⟩ := pair
    simp only
    by_cases hlen : rt0.resourceMapperStore.keys.length = 0
    · simp only [hlen, if_true]
      refine ⟨_, _, _, rfl, ?_, ?_, ?_, ?_⟩
      · intro e he; simp at he
      · intro _ _ _ _; rfl
      · intro rt2 dr2 e he hne
        simp only [Except.ok.injEq, Prod.mk.injEq] at he
        exact absurd (he.1 ▸ hlen) hne
      · intro rt2 dr2 server he hne
        simp only [Except.ok.injEq, Prod.mk.injEq] at he
        exact absurd (he.1 ▸ hlen) hne
    · simp only [hlen, if_false]
      cases hs : destinationServer env app with
      | error err =>
        refine ⟨_, _, some err, rfl, ?_, ?_, ?_, ?_⟩
        · intro e he; simp at he
        · intro rt2 dr2 he hl
          simp only [Except.ok.injEq, Prod.mk.injEq] at he
          exact absurd (he.1 ▸ hl) hlen
        · intro rt2 dr2 e _ _ he2
          simp only [Except.error.injEq] at he2
          rw [he2]
        · intro rt2 dr2 server _ _ he2; simp at he2
      | ok server =>
        obtain ⟨⟨rt2, visited, acc1⟩, hb⟩ := analyzeBundle_returns f rt0 server dr.Keys acc
        simp only [hb]
        refine ⟨rt2, acc1, none, rfl, ?_, ?_, ?_, ?_⟩
        · intro e he; simp at he
        · intro rt3 dr3 he hl
          simp only [Except.ok.injEq, Prod.mk.injEq] at he
          exact absurd (he.1 ▸ hl) hlen
        · intro rt3 dr3 e _ _ he2; simp at he2
        · intro rt3 dr3 server3 he _ he2
          simp only [Except.ok.injEq, Prod.mk.injEq] at he he2
          obtain ⟨h1, h2⟩ := he
          subst h1 h2 he2
          exact ⟨rfl, visited, hb⟩

/-- The worker returns and has called `report` once per job. -/
theorem worker_reports {σ : Type} (env : Collaborators) (f : σ → String → σ)
    (jobs : List Application) :
    ∀ (rt : ResourceTracker) (acc : σ) (results : List (Option String)),
      ∃ rt1 acc1 rs,
        analyzeWithResourceGraphWorker env f logReport jobs (rt, acc, results) =
          some (rt1, acc1, results ++ rs) ∧ rs.length = jobs.length := by
  induction jobs with
  | nil =>
    intro rt acc results
    exact ⟨rt, acc, [], by simp [analyzeWithResourceGraphWorker], rfl⟩
  | cons app rest ih =>
    intro rt acc results
    obtain ⟨rt1, acc1, r, hp, _⟩ := processApplication_reports env f rt acc results app
    obtain ⟨rt2, acc2, rs, hw, hlen⟩ := ih rt1 acc1 (results ++ [r])
    refine ⟨rt2, acc2, r :: rs, ?_, by simp [hlen]⟩
    simp only [analyzeWithResourceGraphWorker, hp, hw, List.append_assoc, List.singleton_append]

/-- C19: for every bundle the worker calls report exactly once: with the error of
GetDirectResourcesFromStatus when it fails, with the error "no destination clusters
synced" when the mapper store is empty, with the error of the destination when it
cannot be resolved, and with nil once the closure is computed; so a worker that
processes the bundles `jobs` reports `jobs.length` results. -/
theorem worker_reports_once_per_bundle {σ : Type} (env : Collaborators)
    (f : σ → String → σ) (rt : ResourceTracker) (acc : σ) (results : List (Option String)) :
    (∀ app, ∃ rt1 acc1 r,
      processApplication env f logReport (rt, acc, results) app =
        some (rt1, acc1, results ++ [r]) ∧
      (∀ err, GetDirectResourcesFromStatus env rt app = .error err → r = some err) ∧
      (∀ rt0 dr, GetDirectResourcesFromStatus env rt app = .ok (rt0, dr) →
        rt0.resourceMapperStore.keys.length = 0 →
          r = some ("no destination clusters synced; ensure Applications have valid " ++
            ".spec.destination and Argo CD has access")) ∧
      (∀ rt0 dr err, GetDirectResourcesFromStatus env rt app = .ok (rt0, dr) →
        rt0.resourceMapperStore.keys.length ≠ 0 → destinationServer env app = .error err →
          r = some err) ∧
      (∀ rt0 dr server, GetDirectResourcesFromStatus env rt app = .ok (rt0, dr) →
        rt0.resourceMapperStore.keys.length ≠ 0 → destinationServer env app = .ok server →
          r = none ∧ ∃ visited,
            analyzeBundle f rt0 server dr.Keys acc = some (rt1, visited, acc1))) ∧
      ∀ jobs, ∃ rt1 acc1 rs,
        analyzeWithResourceGraphWorker env f logReport jobs (rt, acc, results) =
          some (rt1, acc1, results ++ rs) ∧ rs.length = jobs.length :=
  ⟨fun app => processApplication_reports env f rt acc results app,
    fun jobs => worker_reports env f jobs rt acc results⟩

/-! ## The run over all bundles -/

theorem holdsDirectKinds_of_calls (app : Application) (acc : GroupToKinds)
    (calls : List String) (h : ∀ k, k ∈ (directResources app).Keys → k ∈ calls) :
    HoldsDirectKinds (calls.foldl addKey acc) app := by
  intro key hkey group kind hg he
  refine hasKind_foldl_of_mem calls acc key _ _ (h key hkey) (fun m => ?_)
  have hcut := cutAtFirst_key group kind hg
  rw [← he] at hcut
  exact (hasKind_addKey_of_cut m key _ _ hcut _ _).2 (Or.inr ⟨rfl, rfl⟩)

/-- One bundle and the accumulator of `addKey`: nothing is removed, and when nil is
reported the kinds of the direct keys of the bundle are in it. -/
theorem processApplication_accumulates (env : Collaborators) (rt : ResourceTracker)
    (acc : GroupToKinds) (results : List (Option String)) (app : Application) :
    ∃ rt1 acc1 r,
      processApplication env addKey logReport (rt, acc, results) app =
        some (rt1, acc1, results ++ [r]) ∧
      (∀ g k, HasKind acc g k → HasKind acc1 g k) ∧
      (r = none → HoldsDirectKinds acc1 app) := by
  unfold processApplication
  cases hg : GetDirectResourcesFromStatus env rt app with
  | error err => exact ⟨_, _, some err, rfl, fun g k h => h, fun h => by simp at h⟩
  | ok pair =>
    obtain ⟨rt0, dr⟩ := pair
    have hdr : dr = directResources app := by
      unfold GetDirectResourcesFromStatus at hg
      split at hg
      · simp at hg
      · simp only [Except.ok.injEq, Prod.mk.injEq] at hg
        exact hg.2.symm
    simp only
    by_cases hlen : rt0.resourceMapperStore.keys.length = 0
    · simp only [hlen, if_true]
      exact ⟨_, _, _, rfl, fun g k h => h, fun h => by simp at h⟩
    · simp only [hlen, if_false]
      cases hs : destinationServer env app with
      | error err => exact ⟨_, _, some err, rfl, fun g k h => h, fun h => by simp at h⟩
      | ok server =>
        obtain ⟨rt2, visited, calls, hb, hkeys⟩ := analyzeBundle_addKey rt0 server dr.Keys acc
        simp only [hb]
        refine ⟨rt2, _, none, rfl, fun g k h => hasKind_foldl_mono calls acc g k h, fun _ => ?_⟩
        exact holdsDirectKinds_of_calls app acc calls (hdr ▸ hkeys)

theorem worker_accumulates (env : Collaborators) (jobs : List Application) :
    ∀ (rt : ResourceTracker) (acc : GroupToKinds) (results : List (Option String)),
      ∃ rt1 acc1 rs,
        analyzeWithResourceGraphWorker env addKey logReport jobs (rt, acc, results) =
          some (rt1, acc1, results ++ rs) ∧ rs.length = jobs.length ∧
        (∀ g k, HasKind acc g k → HasKind acc1 g k) ∧
        ((∀ r, r ∈ rs → r = none) → ∀ app, app ∈ jobs → HoldsDirectKinds acc1 app) := by
  induction jobs with
  | nil =>
    intro rt acc results
    exact ⟨rt, acc, [], by simp [analyzeWithResourceGraphWorker], rfl, fun g k h => h,
      fun _ app happ => by simp at happ⟩
  | cons app rest ih =>
    intro rt acc results
    obtain ⟨rt1, acc1, r, hp, hmono1, hdirect1⟩ :=
      processApplication_accumulates env rt acc results app
    obtain ⟨rt2, acc2, rs, hw, hlen, hmono2, hdirect2⟩ := ih rt1 acc1 (results ++ [r])
    refine ⟨rt2, acc2, r :: rs, ?_, by simp [hlen], fun g k h => hmono2 g k (hmono1 g k h),
      fun hall a ha => ?_⟩
    · simp only [analyzeWithResourceGraphWorker, hp, hw, List.append_assoc,
        List.singleton_append]
    · rcases List.mem_cons.1 ha with e | e
      · subst e
        have h1 := hdirect1 (hall r (List.mem_cons_self _ _))
        intro key hkey group kind hg he
        exact hmono2 _ _ (h1 key hkey group kind hg he)
      · exact hdirect2 (fun x hx => hall x (List.mem_cons_of_mem _ hx)) a e

theorem firstError_eq_none (results : List (Option String)) :
    firstError results = none ↔ ∀ r, r ∈ results → r = none := by
  induction results with
  | nil => simp [firstError]
  | cons r rest ih =>
    cases r with
    | none => simp [firstError, ih]
    | some err => simp [firstError]

set_option maxRecDepth 100000 in
/-- C18, as stated, fails: of four bundles the second has no destination; the worker
reports its error and nil for the three others, whose kinds are in the accumulator,
but AnalyzeWithResourceGraph returns the error and prints no document. -/
theorem one_failure_no_document :
    (analyzeWithResourceGraphWorker scenarioCollaborators addKey logReport fourApplications
        ({ resourceMapperStore := ∅, sharedRelationsCache := ∅ }, ∅, [])).map
        (fun r => (r.2.2, inclusionEntries r.2.1)) =
      some ([none,
          some "failed to sync resource mapper: both destination server and name are empty",
          none, none],
        [{ apiGroup := "", kinds := ["ConfigMap", "Pod"], clusters := ["*"] },
          { apiGroup := "apps", kinds := ["Deployment", "StatefulSet"], clusters := ["*"] }]) ∧
    (AnalyzeWithResourceGraph scenarioCollaborators
        { resourceMapperStore := ∅, sharedRelationsCache := ∅ } fourApplications).map
        (fun r => r.2) =
      some (some "failed to sync resource mapper: both destination server and name are empty",
        none) := by
  decide

/-- C18, amended: AnalyzeWithResourceGraph returns for every list of bundles, with one
result per bundle. When some bundle fails it returns the first error received and
prints no document. When no bundle fails it prints, through printInclusions, the
document of the accumulator, which holds the kinds of the direct keys of every
bundle together with what their closures added. -/
theorem analyze_returns_error_or_document (env : Collaborators) (rt : ResourceTracker)
    (apps : List Application) :
    ∃ rt1 acc results,
      analyzeWithResourceGraphWorker env addKey logReport apps (rt, ∅, []) =
        some (rt1, acc, results) ∧ results.length = apps.length ∧
      (∀ err, firstError results = some err →
        AnalyzeWithResourceGraph env rt apps = some (rt1, some err, none)) ∧
      (firstError results = none →
        AnalyzeWithResourceGraph env rt apps =
          some (rt1, none, some (printInclusions acc)) ∧
        ∀ app, app ∈ apps → HoldsDirectKinds acc app) := by
  obtain ⟨rt1, acc, rs, hw, hlen, _, hdirect⟩ := worker_accumulates env apps rt ∅ []
  simp only [List.nil_append] at hw
  refine ⟨rt1, acc, rs, hw, hlen, fun err he => ?_, fun hnone => ⟨?_, ?_⟩⟩
  · simp only [AnalyzeWithResourceGraph, hw, he]
  · simp only [AnalyzeWithResourceGraph, hw, hnone]
  · exact hdirect ((firstError_eq_none rs).1 hnone)

/-! ## The label of the application node -/

/-- C24, at the failing input: for the resource that GetApplicationChildResources hands
to the walker (Kind "applications.argoproj.io", Group "argoproj.io") getChildren lowers
the Kind, appends "s" and the group, so the node label is
"applications.argoproj.ios.argoproj.io" and not "applications.argoproj.io", whatever
the name and the namespace; the Kind "Application" would give the label of the claim.
The query executed for the application guestbook carries the doubled label. -/
theorem application_label_is_doubled (exec : Executor) (name ns : String) :
    unambiguousKind (applicationResource name ns) = "applications.argoproj.ios.argoproj.io" ∧
    unambiguousKind (applicationResource name ns) ≠ "applications.argoproj.io" ∧
    unambiguousKind { Kind := "Application", Group := "argoproj.io", Name := name,
                      Namespace := ns } = "applications.argoproj.io" ∧
    (∀ fuel q, GetApplicationChildResources exec fuel q name ns =
      GetNestedChildResources exec fuel q (some (applicationResource name ns))) ∧
    ((getChildren exec NewQueryServer (applicationResource "guestbook" "")).1.calls.map
      fun c => (c.queryStr, c.ns)) =
      [("MATCH (p: applications.argoproj.ios.argoproj.io\x7bname:\"guestbook\"\x7d) -> (c) " ++
          "RETURN c.kind, c.apiVersion, c.metadata.namespace", "")] := by
  have h1 : unambiguousKind (applicationResource name ns) =
      "applications.argoproj.ios.argoproj.io" := by
    simp only [unambiguousKind, applicationResource]
    decide
  refine ⟨h1, ?_, ?_, fun fuel q => rfl, ?_⟩
  · rw [h1]
    decide
  · simp only [unambiguousKind]
    decide
  · obtain ⟨o, ho⟩ := getChildren_calls_of_queried exec NewQueryServer
      (applicationResource "guestbook" "") (by decide) (by decide)
    rw [ho]
    simp only [NewQueryServer, recordedCall, List.nil_append, List.map_cons, List.map_nil]
    decide

/-! ## The mapper store after the direct resources -/

theorem syncResourceMapper_ok (env : Collaborators) (rt rt1 : ResourceTracker)
    (app : Application) (h : syncResourceMapper env rt app = .ok rt1) :
    ∃ server, destinationServer env app = .ok server ∧ server ∈ rt1.resourceMapperStore ∧
      ((∀ s, rt.resourceMapperStore.lookup s ≠ some none) →
        ∃ mapper, rt1.resourceMapperStore.lookup server = some (some mapper)) := by
  unfold syncResourceMapper at h
  cases hs : destinationServer env app with
  | error err => simp [hs] at h
  | ok server =>
    simp only [hs] at h
    cases hc : env.GetCluster server with
    | error err => simp [hc] at h
    | ok cluster =>
      simp only [hc] at h
      cases hr : env.restConfigFromCluster cluster with
      | error err => simp [hr] at h
      | ok restCfg =>
        simp only [hr] at h
        cases hl : rt.resourceMapperStore.lookup server with
        | some m =>
          simp only [hl, Except.ok.injEq] at h
          subst h
          refine ⟨server, rfl, mem_of_lookup_some _ _ _ hl, fun hnil => ?_⟩
          cases m with
          | none => exact absurd hl (hnil server)
          | some mapper => exact ⟨mapper, hl⟩
        | none =>
          simp only [hl] at h
          cases hn : env.NewResourceMapper restCfg with
          | error err => simp [hn] at h
          | ok mapper =>
            simp only [hn, Except.ok.injEq] at h
            subst h
            exact ⟨server, rfl, (AList.mem_insert _).2 (Or.inl rfl),
              fun _ => ⟨mapper, AList.lookup_insert _⟩⟩

theorem keys_length_ne_zero_of_mem {β : Type} (m : GoMap β) (k : String) (h : k ∈ m) :
    m.keys.length ≠ 0 := by
  intro h0
  have hk : k ∈ m.keys := AList.mem_keys.1 h
  rw [List.length_eq_zero.1 h0] at hk
  simp at hk

/-- C25: whenever GetDirectResourcesFromStatus returns without error, the destination of
the application resolves to a server that is a key of resourceMapperStore (with a
non-nil mapper when the store held no nil pointer before), so the store is not empty:
the worker does not take the branch "no destination clusters synced", nor the two error
branches of the destination, and reports nil after the closure of the bundle. -/
theorem mapper_synced_after_direct_resources (env : Collaborators)
    (rt rt1 : ResourceTracker) (app : Application) (dr : DirectResources)
    (h : GetDirectResourcesFromStatus env rt app = .ok (rt1, dr)) :
    ∃ server, destinationServer env app = .ok server ∧ server ∈ rt1.resourceMapperStore ∧
      rt1.resourceMapperStore.keys.length ≠ 0 ∧
      ((∀ s, rt.resourceMapperStore.lookup s ≠ some none) →
        ∃ mapper, rt1.resourceMapperStore.lookup server = some (some mapper)) ∧
      ∀ (σ : Type) (f : σ → String → σ) (acc : σ) (results : List (Option String)),
        processApplication env f logReport (rt, acc, results) app =
          (analyzeBundle f rt1 server dr.Keys acc).map fun r => (r.1, r.2.2, results ++ [none]) := by
  have hsync : syncResourceMapper env rt app = .ok rt1 := by
    unfold GetDirectResourcesFromStatus at h
    split at h
    · simp at h
    · rename_i rt2 hs
      simp only [Except.ok.injEq, Prod.mk.injEq] at h
      rw [hs, h.1]
  obtain ⟨server, hserver, hmem, hnonnil⟩ := syncResourceMapper_ok env rt rt1 app hsync
  have hlen := keys_length_ne_zero_of_mem _ server hmem
  refine ⟨server, hserver, hmem, hlen, hnonnil, fun σ f acc results => ?_⟩
  simp only [processApplication, h, hlen, if_false, hserver]
  cases analyzeBundle f rt1 server dr.Keys acc with
  | none => rfl
  | some r =>
    obtain ⟨rt2, visited, acc1⟩ := r
    rfl

/-- Witness for C25: an application on the known cluster and an empty store. -/
theorem mapper_synced_after_direct_resources_witness :
    ∃ server, destinationServer scenarioCollaborators (appWith "web" "apps" "Deployment") =
        .ok server ∧
      server ∈ (scenarioTracker.resourceMapperStore.insert "https://kubernetes.default.svc"
        (some { GetResourcesRelation := .ok scenarioCache })) ∧
      (scenarioTracker.resourceMapperStore.insert "https://kubernetes.default.svc"
        (some { GetResourcesRelation := .ok scenarioCache })).keys.length ≠ 0 ∧
      ((∀ s, (∅ : GoMap (Option ResourceMapper)).lookup s ≠ some none) →
        ∃ mapper, (scenarioTracker.resourceMapperStore.insert "https://kubernetes.default.svc"
          (some { GetResourcesRelation := .ok scenarioCache })).lookup server =
            some (some mapper)) ∧
      ∀ (σ : Type) (f : σ → String → σ) (acc : σ) (results : List (Option String)),
        processApplication scenarioCollaborators f logReport
            ({ resourceMapperStore := ∅, sharedRelationsCache := ∅ }, acc, results)
            (appWith "web" "apps" "Deployment") =
          (analyzeBundle f
            { resourceMapperStore :=
                scenarioTracker.resourceMapperStore.insert "https://kubernetes.default.svc"
                  (some { GetResourcesRelation := .ok scenarioCache })
              sharedRelationsCache := ∅ }
            server (directResources (appWith "web" "apps" "Deployment")).Keys acc).map
            fun r => (r.1, r.2.2, results ++ [none]) :=
  mapper_synced_after_direct_resources scenarioCollaborators
    { resourceMapperStore := ∅, sharedRelationsCache := ∅ } _
    (appWith "web" "apps" "Deployment") _ rfl

/-! ## The kinds rendered by run-query -/

theorem mergeOne_lookup (results : GoMap (List String)) (r : GraphResourceInfo)
    (group : String) :
    (mergeOne results r).lookup group =
      if ¬ r.APIVersion.data.length ≤ 0 ∧ getAPIGroup r.APIVersion = group then
        some ((results.lookup group).getD [] ++ [r.Kind])
      else results.lookup group := by
  unfold mergeOne
  by_cases h0 : r.APIVersion.data.length ≤ 0
  · simp only [h0, if_true, not_true_eq_false, false_and, if_false]
  · simp only [h0, if_false, not_false_eq_true, true_and]
    by_cases hg : getAPIGroup r.APIVersion = group
    · subst hg
      simp only [if_true]
      cases hl : results.lookup (getAPIGroup r.APIVersion) with
      | none => simp [AList.lookup_insert]
      | some kinds => simp [AList.lookup_insert]
    · simp only [hg, if_false]
      cases hl : results.lookup (getAPIGroup r.APIVersion) with
      | none => simp only []; exact AList.lookup_insert_ne (Ne.symm hg)
      | some kinds => simp only []; exact AList.lookup_insert_ne (Ne.symm hg)

theorem foldl_mergeOne_lookup (input : List GraphResourceInfo) (results : GoMap (List String))
    (group : String) :
    (input.foldl mergeOne results).lookup group =
      if kindsInGroup input group = [] then results.lookup group
      else some ((results.lookup group).getD [] ++ kindsInGroup input group) := by
  induction input generalizing results with
  | nil => simp [kindsInGroup]
  | cons r rest ih =>
    rw [List.foldl_cons, ih, mergeOne_lookup]
    by_cases hc : ¬ r.APIVersion.data.length ≤ 0 ∧ getAPIGroup r.APIVersion = group
    · have e : kindsInGroup (r :: rest) group = r.Kind :: kindsInGroup rest group := by
        unfold kindsInGroup
        have hp : (fun r : GraphResourceInfo =>
            decide (¬ r.APIVersion.data.length ≤ 0 ∧ getAPIGroup r.APIVersion = group)) r =
            true := decide_eq_true hc
        rw [List.filter_cons, if_pos hp, List.map_cons]
      rw [e, if_pos hc]
      by_cases hr : kindsInGroup rest group = []
      · simp [hr]
      · simp [hr]
    · have e : kindsInGroup (r :: rest) group = kindsInGroup rest group := by
        unfold kindsInGroup
        have hp : ¬ (fun r : GraphResourceInfo =>
            decide (¬ r.APIVersion.data.length ≤ 0 ∧ getAPIGroup r.APIVersion = group)) r =
            true := fun h => hc (of_decide_eq_true h)
        rw [List.filter_cons, if_neg hp]
      rw [e, if_neg hc]

set_option maxRecDepth 100000 in
/-- C21, at the failing input: mergeResourceInfo files under every group the kinds of the
resources of that group in the order of the input, each as often as it occurs, and
runQueryExecutor copies that list into the entry. For a StatefulSet followed by two
Deployments of the group apps the entry has the kinds StatefulSet, Deployment,
Deployment: the list is not strictly ascending and holds Deployment twice, where the
sorted keys of the set of these kinds are Deployment, StatefulSet. -/
theorem run_query_kinds_in_input_order :
    (∀ input group, (mergeResourceInfo input).lookup group =
      if kindsInGroup input group = [] then none else some (kindsInGroup input group)) ∧
    runQueryInclusions unsortedChildren =
      [{ APIGroups := ["apps"], Kinds := ["StatefulSet", "Deployment", "Deployment"],
         Clusters := ["*"] }] ∧
    ¬ (["StatefulSet", "Deployment", "Deployment"] : List String).Sorted
        (fun a b => a.data < b.data) ∧
    ¬ (["StatefulSet", "Deployment", "Deployment"] : List String).Nodup ∧
    sortStrings (stringSetOf ["StatefulSet", "Deployment", "Deployment"]).keys =
      ["Deployment", "StatefulSet"] := by
  refine ⟨fun input group => ?_, by decide,
    fun h => absurd ((List.pairwise_cons.1 h).1 "Deployment" (by simp)) (by decide),
    by decide, by decide⟩
  unfold mergeResourceInfo
  rw [foldl_mergeOne_lookup]
  simp

/-! ## Equality of inclusion entries -/

theorem entry_equal_fields (r other : ResourceInclusionEntry)
    (h : ResourceInclusionEntry.Equal r other = true) :
    r.APIGroups = other.APIGroups ∧ r.Clusters = other.Clusters ∧
      r.Kinds.length = other.Kinds.length := by
  unfold ResourceInclusionEntry.Equal at h
  by_cases hc : r.APIGroups ≠ other.APIGroups ∨ r.Clusters ≠ other.Clusters ∨
      r.Kinds.length ≠ other.Kinds.length
  · rw [if_pos hc] at h
    exact absurd h (by decide)
  · simp only [not_or, not_not] at hc
    exact hc

set_option maxRecDepth 100000 in
/-- C23, at the failing input: ResourceInclusionEntry.Equal looks for every kind of the
other entry as a substring of the printed list of its own kinds. It answers true for the
kinds [Deployment] against [Deploy], for [Deployment, StatefulSet] against
[Deployment, Deployment], and for ["Deployment StatefulSet", Job] against
[StatefulSet, Deployment], three pairs of entries whose sets of kinds differ
(Kinds.Equal, the comparison of two sets of kinds, answers false for Deployment against
Deploy). What a true answer does give is equal APIGroups, equal Clusters and the same
number of kinds. -/
theorem entry_equal_accepts_other_kinds :
    ResourceInclusionEntry.Equal ⟨["apps"], ["Deployment"], ["*"]⟩
      ⟨["apps"], ["Deploy"], ["*"]⟩ = true ∧
    ResourceInclusionEntry.Equal ⟨["apps"], ["Deployment", "StatefulSet"], ["*"]⟩
      ⟨["apps"], ["Deployment", "Deployment"], ["*"]⟩ = true ∧
    ResourceInclusionEntry.Equal ⟨["apps"], ["Deployment StatefulSet", "Job"], ["*"]⟩
      ⟨["apps"], ["StatefulSet", "Deployment"], ["*"]⟩ = true ∧
    Kinds.Equal (stringSetOf ["Deployment"]) (stringSetOf ["Deploy"]) = false ∧
    ∀ r other : ResourceInclusionEntry, ResourceInclusionEntry.Equal r other = true →
      r.APIGroups = other.APIGroups ∧ r.Clusters = other.Clusters ∧
        r.Kinds.length = other.Kinds.length :=
  ⟨by decide, by decide, by decide, by decide, entry_equal_fields⟩

/-! ## Rendering grouped kinds and reading them back -/

theorem setKind_lookup (g : GroupedResourceKinds) (group kind x : String) :
    (setKind g group kind).lookup x =
      if x = group then some (((g.lookup group).getD ∅).insert kind ()) else g.lookup x := by
  unfold setKind
  by_cases h : x = group
  · subst h
    rw [if_pos rfl]
    cases hl : g.lookup x with
    | none => simp [AList.lookup_insert]
    | some s => simp [AList.lookup_insert, hl]
  · rw [if_neg h]
    cases hl : g.lookup group with
    | none => simp only []; rw [AList.lookup_insert_ne h, AList.lookup_insert_ne h]
    | some s => simp only []; rw [AList.lookup_insert_ne h]

theorem mem_setKind (g : GroupedResourceKinds) (group kind x : String) :
    x ∈ setKind g group kind ↔ x ∈ g ∨ x = group := by
  rw [← AList.lookup_isSome, setKind_lookup]
  by_cases h : x = group
  · simp [h]
  · simp [h, AList.lookup_isSome]

theorem hasKind_setKind (g : GroupedResourceKinds) (group kind x k : String) :
    HasKind (setKind g group kind) x k ↔ HasKind g x k ∨ (x = group ∧ k = kind) := by
  unfold HasKind kindsOf
  rw [setKind_lookup]
  by_cases h : x = group
  · subst h
    simp only [if_true, Option.getD_some, true_and]
    rw [← AList.mem_keys, ← AList.mem_keys, AList.mem_insert]
    exact or_comm
  · simp [h]

theorem foldl_setKind_facts (kinds : List String) (g : GroupedResourceKinds)
    (group x : String) :
    (x ∈ kinds.foldl (fun acc kind => setKind acc group kind) g ↔
      x ∈ g ∨ (x = group ∧ kinds ≠ [])) ∧
    ∀ k, HasKind (kinds.foldl (fun acc kind => setKind acc group kind) g) x k ↔
      HasKind g x k ∨ (x = group ∧ k ∈ kinds) := by
  induction kinds generalizing g with
  | nil => simp
  | cons kind rest ih =>
    simp only [List.foldl_cons]
    obtain ⟨h1, h2⟩ := ih (setKind g group kind)
    refine ⟨?_, fun k => ?_⟩
    · rw [h1, mem_setKind]
      simp only [ne_eq, List.cons_ne_nil, not_false_eq_true, and_true]
      tauto
    · rw [h2, hasKind_setKind]
      simp only [List.mem_cons]
      tauto

theorem loadInclusion_facts (g : GroupedResourceKinds) (e : ResourceInclusionEntry)
    (x : String) :
    (x ∈ loadInclusion g e ↔
      x ∈ g ∨ ∃ a rest, e.APIGroups = a :: rest ∧ x = (if a = "" then "core" else a) ∧
        e.Kinds ≠ []) ∧
    ∀ k, HasKind (loadInclusion g e) x k ↔
      HasKind g x k ∨ ∃ a rest, e.APIGroups = a :: rest ∧
        x = (if a = "" then "core" else a) ∧ k ∈ e.Kinds := by
  unfold loadInclusion
  cases hA : e.APIGroups with
  | nil => simp
  | cons a rest =>
    simp only []
    obtain ⟨h1, h2⟩ := foldl_setKind_facts e.Kinds g (if a = "" then "core" else a) x
    refine ⟨?_, fun k => ?_⟩
    · rw [h1]
      simp
    · rw [h2]
      simp

theorem loadInclusions_facts (l : List ResourceInclusionEntry) (g : GroupedResourceKinds)
    (x : String) :
    (x ∈ loadInclusions g l ↔
      x ∈ g ∨ ∃ e ∈ l, ∃ a rest, e.APIGroups = a :: rest ∧
        x = (if a = "" then "core" else a) ∧ e.Kinds ≠ []) ∧
    ∀ k, HasKind (loadInclusions g l) x k ↔
      HasKind g x k ∨ ∃ e ∈ l, ∃ a rest, e.APIGroups = a :: rest ∧
        x = (if a = "" then "core" else a) ∧ k ∈ e.Kinds := by
  unfold loadInclusions
  induction l generalizing g with
  | nil => simp
  | cons e rest ih =>
    simp only [List.foldl_cons]
    obtain ⟨h1, h2⟩ := ih (loadInclusion g e)
    obtain ⟨h3, h4⟩ := loadInclusion_facts g e x
    refine ⟨?_, fun k => ?_⟩
    · rw [h1, h3, or_assoc]
      simp only [List.mem_cons, exists_eq_or_imp]
    · rw [h2, h4, or_assoc]
      simp only [List.mem_cons, exists_eq_or_imp]

theorem load_rendered_facts (g : GroupedResourceKinds) (x : String) :
    (x ∈ loadInclusions ∅ (includedResources g) ↔
      ∃ e ∈ g.entries, x = (if e.1 = "" then "core" else e.1) ∧ e.2.keys ≠ []) ∧
    ∀ k, HasKind (loadInclusions ∅ (includedResources g)) x k ↔
      ∃ e ∈ g.entries, x = (if e.1 = "" then "core" else e.1) ∧ k ∈ e.2.keys := by
  have hgroup : ∀ s : String,
      (if (if s = "core" ∨ s = "" then "" else s) = "" then "core"
        else (if s = "core" ∨ s = "" then "" else s)) = (if s = "" then "core" else s) := by
    intro s
    by_cases h1 : s = ""
    · simp [h1]
    · by_cases h2 : s = "core"
      · simp [h2]
      · simp [h1, h2]
  obtain ⟨h1, h2⟩ := loadInclusions_facts (includedResources g) ∅ x
  refine ⟨?_, fun k => ?_⟩
  · rw [h1]
    constructor
    · rintro (h | ⟨e, he, a, rest, hA, hx, hk⟩)
      · exact absurd h (AList.not_mem_empty _)
      · obtain ⟨s, hs, rfl⟩ := List.mem_map.1 he
        simp only [List.cons.injEq] at hA
        obtain ⟨rfl, _⟩ := hA
        exact ⟨s, hs, by rw [hx, hgroup], hk⟩
    · rintro ⟨s, hs, hx, hk⟩
      exact Or.inr ⟨_, List.mem_map.2 ⟨s, hs, rfl⟩, _, [], rfl, by rw [hx, hgroup], hk⟩
  · rw [h2 k]
    constructor
    · rintro (h | ⟨e, he, a, rest, hA, hx, hk⟩)
      · simp [HasKind, kindsOf] at h
      · obtain ⟨s, hs, rfl⟩ := List.mem_map.1 he
        simp only [List.cons.injEq] at hA
        obtain ⟨rfl, _⟩ := hA
        exact ⟨s, hs, by rw [hx, hgroup], hk⟩
    · rintro ⟨s, hs, hx, hk⟩
      exact Or.inr ⟨_, List.mem_map.2 ⟨s, hs, rfl⟩, _, [], rfl, by rw [hx, hgroup], hk⟩

theorem kindsEqual_of_ext (k other : Kinds) (h : ∀ x, x ∈ k ↔ x ∈ other) :
    Kinds.Equal k other = true := by
  have hperm : k.keys.Perm other.keys :=
    (List.perm_ext_iff_of_nodup k.keys_nodup other.keys_nodup).2 fun x => h x
  unfold Kinds.Equal
  rw [if_neg (not_not.2 hperm.length_eq), List.all_eq_true]
  intro key hkey
  exact AList.lookup_isSome.2 ((h key).1 hkey)

theorem groupedEqual_of_ext (g other : GroupedResourceKinds)
    (hk : ∀ x, x ∈ g ↔ x ∈ other)
    (hv : ∀ group kind, HasKind g group kind ↔ HasKind other group kind) :
    GroupedResourceKinds.Equal g other = true := by
  have hperm : other.keys.Perm g.keys :=
    (List.perm_ext_iff_of_nodup other.keys_nodup g.keys_nodup).2 fun x => (hk x).symm
  unfold GroupedResourceKinds.Equal
  rw [if_neg (not_not.2 hperm.length_eq), List.all_eq_true]
  intro e he
  have ho : other.lookup e.1 = some e.2 := AList.mem_lookup_iff.2 he
  obtain ⟨ck, hck⟩ := lookup_isSome_of_mem g e.1 ((hk e.1).2 (mem_of_lookup_some _ _ _ ho))
  simp only [hck]
  refine kindsEqual_of_ext ck e.2 fun x => ?_
  have := hv e.1 x
  simp only [HasKind, kindsOf, hck, ho, Option.getD_some] at this
  exact this

/-- C22, counterexample: grouped kinds whose only group, apps, has an empty set of kinds
are keyed by internal group names, and String renders one entry for apps without kinds.
FromYaml creates a group only when it adds a kind to it, so the accumulator loaded from
that entry is empty and is not Equal to the grouped kinds rendered. -/
theorem empty_group_lost_on_reload :
    emptyKindsGroup.keys = ["apps"] ∧ "" ∉ emptyKindsGroup ∧
    includedResources emptyKindsGroup =
      [{ APIGroups := ["apps"], Kinds := [], Clusters := ["*"] }] ∧
    (loadInclusions ∅ (includedResources emptyKindsGroup)).keys = [] ∧
    GroupedResourceKinds.Equal (loadInclusions ∅ (includedResources emptyKindsGroup))
      emptyKindsGroup = false := by
  decide

/-- C22, amended: for grouped kinds with no key "" in which every group has at least one
kind, the entries built by String carry the apiGroup "" for the group core and the name
of the group otherwise, with the kinds of the group and the clusters ["*"]; the
accumulator that the loop of FromYaml builds from these entries, starting empty, has the
same groups and the same kinds under every group, is Equal to the grouped kinds in both
directions and has no key "" (the core group is again under core). With a YAML library
whose Unmarshal reads back what its Marshal wrote, FromYaml applied to the text of
String returns that accumulator. -/
theorem render_then_load_reproduces (g : GroupedResourceKinds) (hcore : "" ∉ g)
    (hne : ∀ e ∈ g.entries, e.2.keys ≠ []) :
    includedResources g =
      (g.entries.map fun e =>
        (⟨[if e.1 = "core" then "" else e.1], e.2.keys, ["*"]⟩ : ResourceInclusionEntry)) ∧
    (∀ group, group ∈ loadInclusions ∅ (includedResources g) ↔ group ∈ g) ∧
    (∀ group kind,
      HasKind (loadInclusions ∅ (includedResources g)) group kind ↔ HasKind g group kind) ∧
    GroupedResourceKinds.Equal (loadInclusions ∅ (includedResources g)) g = true ∧
    GroupedResourceKinds.Equal g (loadInclusions ∅ (includedResources g)) = true ∧
    "" ∉ loadInclusions ∅ (includedResources g) ∧
    ∀ yaml : YamlCodec, (∀ l s, yaml.Marshal l = .ok s → yaml.Unmarshal s = .ok l) →
      ∀ s, yaml.Marshal (includedResources g) = .ok s →
        GroupedResourceKinds.asString yaml g = s ∧
        GroupedResourceKinds.FromYaml yaml ∅ s =
          .ok (loadInclusions ∅ (includedResources g)) := by
  have hkey : ∀ e ∈ g.entries, (if e.1 = "" then "core" else e.1) = e.1 := by
    intro e he
    have : e.1 ≠ "" := fun h0 => hcore (h0 ▸ mem_of_lookup_some g e.1 e.2
      (AList.mem_lookup_iff.2 he))
    rw [if_neg this]
  have hmem : ∀ group, group ∈ loadInclusions ∅ (includedResources g) ↔ group ∈ g := by
    intro group
    rw [(load_rendered_facts g group).1]
    constructor
    · rintro ⟨e, he, hx, _⟩
      rw [hx, hkey e he]
      exact mem_of_lookup_some g e.1 e.2 (AList.mem_lookup_iff.2 he)
    · intro hg
      obtain ⟨ks, hks⟩ := lookup_isSome_of_mem g group hg
      have he : (⟨group, ks⟩ : Sigma fun _ : String => Kinds) ∈ g.entries :=
        AList.mem_lookup_iff.1 hks
      exact ⟨⟨group, ks⟩, he, (hkey _ he).symm, hne _ he⟩
  have hkind : ∀ group kind,
      HasKind (loadInclusions ∅ (includedResources g)) group kind ↔ HasKind g group kind := by
    intro group kind
    rw [(load_rendered_facts g group).2 kind]
    constructor
    · rintro ⟨e, he, hx, hk⟩
      rw [hx, hkey e he]
      have hl : g.lookup e.1 = some e.2 := AList.mem_lookup_iff.2 he
      simp only [HasKind, kindsOf, hl, Option.getD_some]
      exact hk
    · intro hk
      cases hl : g.lookup group with
      | none => simp [HasKind, kindsOf, hl] at hk
      | some ks =>
        have he : (⟨group, ks⟩ : Sigma fun _ : String => Kinds) ∈ g.entries :=
          AList.mem_lookup_iff.1 hl
        simp only [HasKind, kindsOf, hl, Option.getD_some] at hk
        exact ⟨⟨group, ks⟩, he, (hkey _ he).symm, hk⟩
  refine ⟨?_, hmem, hkind, groupedEqual_of_ext _ _ hmem hkind,
    groupedEqual_of_ext _ _ (fun x => (hmem x).symm) (fun a b => (hkind a b).symm),
    fun h => hcore ((hmem "").1 h), fun yaml hyaml s hs => ⟨?_, ?_⟩⟩
  · unfold includedResources getUniqueKinds
    refine List.map_congr_left fun e he => ?_
    have : e.1 ≠ "" := fun h0 => hcore (h0 ▸ mem_of_lookup_some g e.1 e.2
      (AList.mem_lookup_iff.2 he))
    simp [this]
  · simp only [GroupedResourceKinds.asString, hs]
  · simp only [GroupedResourceKinds.FromYaml, hyaml _ _ hs]

/-- Witness for C22: the core group with Pod and ConfigMap and the group apps with
Deployment. -/
theorem render_then_load_reproduces_witness :
    "" ∉ roundTripGroups ∧ (∀ e ∈ roundTripGroups.entries, e.2.keys ≠ []) ∧
    GroupedResourceKinds.Equal (loadInclusions ∅ (includedResources roundTripGroups))
      roundTripGroups = true ∧
    includedResources roundTripGroups =
      [⟨["apps"], ["Deployment"], ["*"]⟩, ⟨[""], ["ConfigMap", "Pod"], ["*"]⟩] :=
  ⟨by decide, by decide,
    (render_then_load_reproduces roundTripGroups (by decide) (by decide)).2.2.2.1, by decide⟩

end Tracker
